import Mathlib

/-!
# fsmlib-cpp: state nodes, output trees and distinguishing traces

A shallow embedding of `src/fsm/FsmNode.cpp` and `src/trees/OutputTree.cpp`.

* Nodes live in a heap `Fsm := Nat → FsmNode`; a `shared_ptr<FsmNode>` is a
  heap reference (a natural number), `shared_from_this()` is the reference
  `self` passed to every member function.
* Traces (`InputTrace`, `OutputTrace`) are lists of integers.
* Calls whose behaviour is undefined in C++ (`front()` of an empty vector) or
  that throw (`at` out of range) are explicit `Fault`s.
-/

namespace FsmLib

/-! ## Data model -/

/-- Modelled from the spec: `FsmLabel.h` is not among the sources. The reserved
empty symbol `FsmLabel::EPSILON`; the value is the one `InputTrace.cpp` prints
as the empty symbol (`*it == -1`). -/
def EPSILON : Int := -1

/-- An input/output label of a transition (`FsmLabel`). -/
structure FsmLabel where
  input : Int
  output : Int
deriving DecidableEq, Repr

/-- A transition: its label and a reference to its target node. -/
structure FsmTransition where
  label : FsmLabel
  target : Nat
deriving DecidableEq, Repr

/-- A state node: identifier and ordered list of outgoing transitions (the
fields of `FsmNode` that the modelled operations read). -/
structure FsmNode where
  id : Int
  transitions : List FsmTransition
deriving DecidableEq, Repr

/-- The node heap: every reference denotes a node. -/
abbrev Fsm := Nat → FsmNode

/-- Modelled from the spec: `IOTrace.h` and `IOTrace.cpp` are not among the
sources. An input/output trace pair (`IOTrace`); `operator==` is equality of
both component traces ("bitwise-identical"). -/
structure IOTrace where
  inputTrace : List Int
  outputTrace : List Int
deriving DecidableEq, Repr

/-- Modelled from the spec: `TreeNode`, `TreeEdge` and `Tree` are not among the
sources ("a rooted tree where each edge carries one output symbol"). A node of
an output tree: `children` are the tree edges, each an output symbol with the
target tree node; `fsmNode` is the entry of the local map `t2f` of
`FsmNode::apply` for this tree node. -/
inductive TreeNode where
  | mk (fsmNode : Nat) (children : List (Int × TreeNode))

/-- An output tree: the root and the input trace it was built for. -/
structure OutputTree where
  root : TreeNode
  inputTrace : List Int

/-- The integers `0, 1, ..., maxValue` in loop order
(`for (int x = 0; x <= maxValue; ++x)`), empty when `maxValue < 0`. -/
def symbolRange (maxValue : Int) : List Int :=
  (List.range (maxValue + 1).toNat).map Int.ofNat

/-! ## Tree (modelled part) -/

mutual
/-- Modelled from the spec: `Tree.cpp` is not among the sources ("enumerate every
root-to-leaf output sequence"). The output sequences of all root-to-leaf paths,
leaves in depth-first order (`Tree::getIOLists`); a root without children is
itself a leaf and yields the empty path. -/
def TreeNode.getIOLists : TreeNode → List (List Int)
  | .mk _ [] => [[]]
  | .mk _ (c :: cs) => TreeNode.getIOListsEdges (c :: cs)
/-- Paths through a list of edges, in edge order. -/
def TreeNode.getIOListsEdges : List (Int × TreeNode) → List (List Int)
  | [] => []
  | (y, t) :: cs => (t.getIOLists.map (fun p => y :: p)) ++ TreeNode.getIOListsEdges cs
end

mutual
/-- One pass of the `while (!tnl.empty())` loop of `FsmNode::apply` for input
`x`: every leaf of the tree gets one new child edge per transition of its
state whose input is `x` (in transition order); inner nodes are kept. -/
def TreeNode.expandLeaves (fsm : Fsm) (x : Int) : TreeNode → TreeNode
  | .mk st [] =>
      .mk st (((fsm st).transitions.filter (fun tr => tr.label.input = x)).map
        (fun tr => (tr.label.output, TreeNode.mk tr.target [])))
  | .mk st (c :: cs) => .mk st (TreeNode.expandEdges fsm x (c :: cs))
/-- Expansion of the leaves below a list of edges. -/
def TreeNode.expandEdges (fsm : Fsm) (x : Int) :
    List (Int × TreeNode) → List (Int × TreeNode)
  | [] => []
  | (y, t) :: cs => (y, t.expandLeaves fsm x) :: TreeNode.expandEdges fsm x cs
end

/-! ## FsmNode: single-step queries -/

/-- Source `FsmNode::after(const int x)`: the targets of the transitions with input
`x`, in transition order; `[self]` for `EPSILON`. -/
def FsmNode.after (fsm : Fsm) (self : Nat) (x : Int) : List Nat :=
  if x = EPSILON then [self]
  else ((fsm self).transitions.filter (fun tr => tr.label.input = x)).map (fun tr => tr.target)

/-- Source `FsmNode::apply(const int e, OutputTrace & o)`: the first transition with
input `e` appends its output to `o` and its target is returned; `none`
(`nullptr`) and `o` unchanged when there is no such transition. -/
def FsmNode.applyInput (fsm : Fsm) (self : Nat) (e : Int) (o : List Int) :
    Option Nat × List Int :=
  match (fsm self).transitions.find? (fun tr => tr.label.input = e) with
  | some tr => (some tr.target, o ++ [tr.label.output])
  | none => (none, o)

/-- Source `FsmNode::apply(const InputTrace& itrc, bool markAsVisited = false)`: the
output tree of `self` for `itrc`. For every input symbol all current leaves are
expanded. (The `visited` marks are not part of the result.) -/
def FsmNode.apply (fsm : Fsm) (self : Nat) (itrc : List Int) : OutputTree :=
  if itrc.length = 0 then ⟨TreeNode.mk self [], itrc⟩
  else ⟨itrc.foldl (fun t x => t.expandLeaves fsm x) (TreeNode.mk self []), itrc⟩

/-! ## OutputTree -/

/-- Source `OutputTree::getOutputTraces`. -/
def OutputTree.getOutputTraces (t : OutputTree) : List (List Int) :=
  t.root.getIOLists

/-- Source `OutputTree::toIOTrace`: one IO trace per path, all with the tree's input
trace. -/
def OutputTree.toIOTrace (t : OutputTree) : List IOTrace :=
  t.root.getIOLists.map (fun lst => IOTrace.mk t.inputTrace lst)

/-- Source `std::sort` with the comparison `lt` (any sorting algorithm yields the same
list when `lt` is a strict total order); here by insertion. -/
def stdSort (lt : List Int → List Int → Bool) (l : List (List Int)) : List (List Int) :=
  l.insertionSort (fun a b => lt b a = false)

/-- Source `std::unique`: of every run of equal neighbours only the first stays. -/
def stdUnique : List (List Int) → List (List Int)
  | [] => []
  | [a] => [a]
  | a :: b :: rest => if a = b then stdUnique (b :: rest) else a :: stdUnique (b :: rest)

/-- Source `std::includes` on two sorted ranges. -/
def stdIncludes (lt : List Int → List Int → Bool) :
    List (List Int) → List (List Int) → Bool
  | _, [] => true
  | [], _ :: _ => false
  | a :: as, b :: bs =>
      if lt b a then false
      else if lt a b then stdIncludes lt as (b :: bs)
      else stdIncludes lt as bs

/-- Source `OutputTree::contains`. `lt` is `operator<` of `OutputTrace`, which is not
among the sources and therefore a parameter. -/
def OutputTree.contains (lt : List Int → List Int → Bool) (t ot : OutputTree) : Bool :=
  if ¬ (t.inputTrace = ot.inputTrace) then false
  else stdIncludes lt (stdUnique (stdSort lt t.getOutputTraces))
        (stdUnique (stdSort lt ot.getOutputTraces))

/-- Source `operator==(OutputTree&, OutputTree&)`: mutual containment. -/
def OutputTree.eq (lt : List Int → List Int → Bool) (t1 t2 : OutputTree) : Bool :=
  t1.contains lt t2 && t2.contains lt t1

/-- The inner loop of `getOutputsIntersection` for one `thisTrace`: every equal
`otherTrace` pushes `thisTrace` and sets `skip` (the `continue` does not leave
the loop). The state is `(intersection, skip)`. -/
def intersectionInner (thisTrace : IOTrace) (otherIOTrace : List IOTrace)
    (st : List IOTrace × Bool) : List IOTrace × Bool :=
  otherIOTrace.foldl
    (fun s otherTrace => if thisTrace = otherTrace then (s.1 ++ [thisTrace], true) else s) st

/-- The outer loop of `getOutputsIntersection`: a set `skip` flag is cleared
and the current `thisTrace` is passed over. -/
def intersectionOuter (thisIOTrace otherIOTrace : List IOTrace)
    (st : List IOTrace × Bool) : List IOTrace × Bool :=
  thisIOTrace.foldl
    (fun s thisTrace => if s.2 then (s.1, false) else intersectionInner thisTrace otherIOTrace s) st

/-- Source `OutputTree::getOutputsIntersection`. -/
def OutputTree.getOutputsIntersection (t ot : OutputTree) : List IOTrace :=
  (intersectionOuter t.toIOTrace ot.toIOTrace ([], false)).1

/-! ## FsmNode: distinguishability -/

/-- Source `FsmNode::distinguished(otherNode, iLst)`. -/
def FsmNode.distinguished (lt : List Int → List Int → Bool) (fsm : Fsm)
    (self otherNode : Nat) (iLst : List Int) : Bool :=
  !(OutputTree.eq lt (FsmNode.apply fsm self iLst) (FsmNode.apply fsm otherNode iLst))

/-- Source `FsmNode::rDistinguished(otherNode, iLst)`. -/
def FsmNode.rDistinguished (fsm : Fsm) (self otherNode : Nat) (iLst : List Int) : Bool :=
  if iLst.length < 1 then false
  else
    ((FsmNode.apply fsm self iLst).getOutputsIntersection
      (FsmNode.apply fsm otherNode iLst)).length = 0

/-! ## Pk-tables and OFSM-tables -/

/-- Modelled from the spec: `PkTable.cpp` is not among the sources. A Pk-table as
`calcDistinguishingTrace` reads it: the class of a state id
(`PkTable::getClass`), a parameter. -/
structure PkTable where
  getClass : Int → Int

/-- Modelled from the spec: `OFSMTable` is not among the sources. An OFSM-table
as `calcDistinguishingTrace` reads it: `get q x y` is the successor id of state
`q` under `x/y` (negative when undefined) and `s2c` the class of a state id,
both parameters. -/
structure OFSMTable where
  get : Int → Int → Int → Int
  s2c : Int → Int

/-- Calls without defined result: `front()` of an empty successor list, of an
empty output trace or of an empty table list, `at` outside the table list, and
`at` outside the section of a table row. -/
inductive Fault where
  | emptySuccessorList
  | emptyOutputTrace
  | emptyTableList
  | tableIndexOutOfRange
  | rowIndexOutOfRange
deriving DecidableEq, Repr

/-- The two messages the Pk-table variant writes to `cerr`. -/
inductive Diagnostic where
  | inconsistency1
  | inconsistency2
deriving DecidableEq, Repr

/-- What the Pk-table `calcDistinguishingTrace` hands back: the returned input
trace and the lines written to `cerr` meanwhile. -/
structure TraceResult where
  itrc : List Int
  cerr : List Diagnostic
deriving DecidableEq, Repr

/-- Loop state of the Pk-table variant: the tracked nodes, the trace so far and
the lines written to `cerr`. -/
structure PkState where
  qi : Nat
  qj : Nat
  itrc : List Int
  cerr : List Diagnostic
deriving DecidableEq, Repr

/-- Loop state of the OFSM-table variant: the tracked state ids and the trace
so far. -/
structure OfsmState where
  q1 : Int
  q2 : Int
  itrc : List Int
deriving DecidableEq, Repr

/-- The first loop of the Pk-table variant, `for (l = 1; l <= size; ++l)`,
reading `pktblLst.at(l - 1)`: started with the whole list and `l = 1` it yields
the least `l` whose table separates the ids, `size + 1` if there is none. -/
def pkLevelFrom : List PkTable → Nat → Int → Int → Nat
  | [], l, _, _ => l
  | pk :: rest, l, a, b =>
      if pk.getClass a ≠ pk.getClass b then l else pkLevelFrom rest (l + 1) a b

/-- The inner loop of the walk-down over the inputs `x`: the first `x` whose
successors `after(x).front()` lie in different classes of `plMinK`, with these
successors. -/
def pkSearchNext (fsm : Fsm) (plMinK : PkTable) (qi qj : Nat) :
    List Int → Except Fault (Option (Int × Nat × Nat))
  | [] => .ok none
  | x :: xs =>
      match (FsmNode.after fsm qi x).head?, (FsmNode.after fsm qj x).head? with
      | some qiNext, some qjNext =>
          if plMinK.getClass (fsm qiNext).id ≠ plMinK.getClass (fsm qjNext).id then
            .ok (some (x, qiNext, qjNext))
          else pkSearchNext fsm plMinK qi qj xs
      | _, _ => .error Fault.emptySuccessorList

/-- The walk-down loop `for (int k = 1; l - k > 0; ++k)`. The argument counts
`l - k`, so the table read, `pktblLst.at(l - k - 1)`, is the one at index `n`
when `l - k = n + 1`. A failed search writes to `cerr` and goes on. -/
def pkWalkDown (fsm : Fsm) (pktblLst : List PkTable) (maxInput : Int) :
    Nat → PkState → Except Fault PkState
  | 0, s => .ok s
  | n + 1, s =>
      match pktblLst[n]? with
      | none => .error Fault.tableIndexOutOfRange
      | some plMinK =>
          match pkSearchNext fsm plMinK s.qi s.qj (symbolRange maxInput) with
          | .error e => .error e
          | .ok (some (x, qiNext, qjNext)) =>
              pkWalkDown fsm pktblLst maxInput n ⟨qiNext, qjNext, s.itrc ++ [x], s.cerr⟩
          | .ok none =>
              pkWalkDown fsm pktblLst maxInput n
                ⟨s.qi, s.qj, s.itrc, s.cerr ++ [Diagnostic.inconsistency1]⟩

/-- The last loop of the Pk-table variant: the first input `x` on which the
first elements of the two output traces written by `apply(x, ·)` differ. -/
def pkSearchLast (fsm : Fsm) (qi qj : Nat) : List Int → Except Fault (Option Int)
  | [] => .ok none
  | x :: xs =>
      match (FsmNode.applyInput fsm qi x []).2.head?, (FsmNode.applyInput fsm qj x []).2.head? with
      | some a, some b => if a ≠ b then .ok (some x) else pkSearchLast fsm qi qj xs
      | _, _ => .error Fault.emptyOutputTrace

/-- Source `FsmNode::calcDistinguishingTrace(otherNode, pktblLst, maxInput)`. -/
def FsmNode.calcDistinguishingTrace (fsm : Fsm) (self otherNode : Nat)
    (pktblLst : List PkTable) (maxInput : Int) : Except Fault TraceResult :=
  let l := pkLevelFrom pktblLst 1 (fsm self).id (fsm otherNode).id
  match pkWalkDown fsm pktblLst maxInput (l - 1) ⟨self, otherNode, [], []⟩ with
  | .error e => .error e
  | .ok s =>
      match pkSearchLast fsm s.qi s.qj (symbolRange maxInput) with
      | .error e => .error e
      | .ok (some x) => .ok ⟨s.itrc ++ [x], s.cerr⟩
      | .ok none => .ok ⟨s.itrc, s.cerr ++ [Diagnostic.inconsistency2]⟩

/-- The first loop of the OFSM-table variant, `for (l = 1; l < size; ++l)`,
reading `ofsmTblLst.at(l)`: called with the tables from index 1 on and
`l = 1`. -/
def ofsmLevelFrom : List OFSMTable → Nat → Int → Int → Nat
  | [], l, _, _ => l
  | ot :: rest, l, a, b =>
      if ot.s2c a ≠ ot.s2c b then l else ofsmLevelFrom rest (l + 1) a b

/-- The loop over the outputs `y` for one input `x` of the walk-down: pairs
with an undefined successor are passed over; the first pair whose successors
lie in different classes records `x`, moves to the successors and leaves this
loop (`break`). -/
def ofsmScanOutputs (ot : OFSMTable) (x : Int) : List Int → OfsmState → OfsmState
  | [], s => s
  | y :: ys, s =>
      if ot.get s.q1 x y < 0 ∨ ot.get s.q2 x y < 0 then ofsmScanOutputs ot x ys s
      else if ot.s2c (ot.get s.q1 x y) ≠ ot.s2c (ot.get s.q2 x y) then
        ⟨ot.get s.q1 x y, ot.get s.q2 x y, s.itrc ++ [x]⟩
      else ofsmScanOutputs ot x ys s

/-- The loop over the inputs `x` of the walk-down at one table: the `break` of
the output loop does not leave it, every input is scanned. -/
def ofsmScanInputs (ot : OFSMTable) (maxInput maxOutput : Int) (s : OfsmState) : OfsmState :=
  (symbolRange maxInput).foldl (fun st x => ofsmScanOutputs ot x (symbolRange maxOutput) st) s

/-- The walk-down loop `for (int k = 1; l - k > 0; ++k)` of the OFSM-table
variant; the argument counts `l - k`, the table read is `ofsmTblLst.at(l - k)`. -/
def ofsmWalkDown (ofsmTblLst : List OFSMTable) (maxInput maxOutput : Int) :
    Nat → OfsmState → Except Fault OfsmState
  | 0, s => .ok s
  | n + 1, s =>
      match ofsmTblLst[n + 1]? with
      | none => .error Fault.tableIndexOutOfRange
      | some ot =>
          ofsmWalkDown ofsmTblLst maxInput maxOutput n (ofsmScanInputs ot maxInput maxOutput s)

/-- The last loops of the OFSM-table variant: the first input `x` for which
some output `y` has a successor in table 0 for exactly one of the two ids. -/
def ofsmSearchLast (ot0 : OFSMTable) (q1 q2 : Int) (maxInput maxOutput : Int) : Option Int :=
  (symbolRange maxInput).find? (fun x =>
    (symbolRange maxOutput).any (fun y =>
      decide ((ot0.get q1 x y < 0 ∧ ot0.get q2 x y ≥ 0) ∨
              (ot0.get q1 x y ≥ 0 ∧ ot0.get q2 x y < 0))))

/-- Source `FsmNode::calcDistinguishingTrace(otherNode, ofsmTblLst, maxInput, maxOutput)`. -/
def FsmNode.calcDistinguishingTraceOFSM (fsm : Fsm) (self otherNode : Nat)
    (ofsmTblLst : List OFSMTable) (maxInput maxOutput : Int) : Except Fault (List Int) :=
  let l := ofsmLevelFrom (ofsmTblLst.drop 1) 1 (fsm self).id (fsm otherNode).id
  match ofsmWalkDown ofsmTblLst maxInput maxOutput (l - 1)
      ⟨(fsm self).id, (fsm otherNode).id, []⟩ with
  | .error e => .error e
  | .ok s =>
      match ofsmTblLst.head? with
      | none => .error Fault.emptyTableList
      | some ot0 =>
          match ofsmSearchLast ot0 s.q1 s.q2 maxInput maxOutput with
          | some x => .ok (s.itrc ++ [x])
          | none => .ok s.itrc

/-- The comparison `lt` is a strict total order on traces, whose incomparable
elements are the equal ones: what `std::sort`, `std::unique` (with `==`) and
`std::includes` need of `operator<` to treat the sorted ranges as sets. -/
structure StrictTotal (lt : List Int → List Int → Bool) : Prop where
  irrefl : ∀ a, lt a a = false
  trans : ∀ a b c, lt a b = true → lt b c = true → lt a c = true
  total : ∀ a b, a ≠ b → lt a b = true ∨ lt b a = true

/-! ## Concrete instances -/

/-- The lexicographic comparison of two traces (`operator<` of `std::vector`), a
comparison `operator<` of `OutputTrace` may be instantiated with. -/
def lexLt : List Int → List Int → Bool
  | [], [] => false
  | [], _ :: _ => true
  | _ :: _, [] => false
  | a :: as, b :: bs => if a < b then true else if b < a then false else lexLt as bs

/-- The two-state machine of the spec: node 0 is `A` (`0/0 → A`, `1/1 → B`), every
other reference is `B` (`0/1 → A`, `1/0 → B`) with id 1. -/
def specFsm : Fsm := fun n =>
  match n with
  | 0 => ⟨0, [⟨⟨0, 0⟩, 0⟩, ⟨⟨1, 1⟩, 1⟩]⟩
  | _ => ⟨1, [⟨⟨0, 1⟩, 0⟩, ⟨⟨1, 0⟩, 1⟩]⟩

/-- The table `P_1` of `specFsm`: `A` in class 0, `B` in class 1. -/
def specP1 : PkTable := ⟨fun i => if i = 0 then 0 else 1⟩

/-- A nondeterministic observable node with the two transitions `0/0` and `0/1`
to itself. -/
def twoOutputsFsm : Fsm := fun _ => ⟨0, [⟨⟨0, 0⟩, 0⟩, ⟨⟨0, 1⟩, 0⟩]⟩

/-! ## Semantic notions used in the statements -/

/-- The transitions of node `n` that carry the input `x`, in list order (the
selection made by the loops `for (auto tr : transitions) if (... == x)`). -/
def FsmNode.transitionsOn (fsm : Fsm) (n : Nat) (x : Int) : List FsmTransition :=
  (fsm n).transitions.filter (fun tr => tr.label.input = x)

/-- The output traces a node can produce for an input trace, written by
recursion over the trace: an input without transition is passed over (the leaf
stays a leaf and is expanded by the next input). -/
def outputsOf (fsm : Fsm) : Nat → List Int → List (List Int)
  | _, [] => [[]]
  | p, x :: t =>
      if FsmNode.transitionsOn fsm p x = [] then outputsOf fsm p t
      else (FsmNode.transitionsOn fsm p x).flatMap
        (fun tr => (outputsOf fsm tr.target t).map (fun o => tr.label.output :: o))

/-- The output sequence of the run that always takes the first transition for
the next input (`apply(x, ·)` repeated); an input without transition is passed
over. -/
def runOutputs (fsm : Fsm) : Nat → List Int → List Int
  | _, [] => []
  | p, x :: t =>
      match (fsm p).transitions.find? (fun tr => tr.label.input = x) with
      | some tr => tr.label.output :: runOutputs fsm tr.target t
      | none => runOutputs fsm p t

/-- Every node has exactly one transition for each input `0..maxInput`. -/
def CompletelySpecified (fsm : Fsm) (maxInput : Int) : Prop :=
  ∀ n, ∀ x ∈ symbolRange maxInput, (FsmNode.transitionsOn fsm n x).length = 1

/-- The input alphabet is `0..maxInput`: no transition carries another input. -/
def InputsInRange (fsm : Fsm) (maxInput : Int) : Prop :=
  ∀ n, ∀ tr ∈ (fsm n).transitions, tr.label.input ∈ symbolRange maxInput

/-- Modelled from the spec: the construction of Pk-tables (`PkTable.cpp`) is not
among the sources ("same class at level k+1 iff same class at level k and, for
every input symbol, their level-k successor classes match"). The table list is
the Pk refinement chain of the machine, `P_n` at index `n - 1`: `P_1` joins the
states with equal outputs for every input, `P_(k+1)` joins the states that
`P_k` joins and whose successors `P_k` joins for every input. -/
def PkChain (fsm : Fsm) (maxInput : Int) (tables : List PkTable) : Prop :=
  (∀ pk, tables[0]? = some pk → ∀ p q,
    (pk.getClass (fsm p).id = pk.getClass (fsm q).id ↔
      ∀ x ∈ symbolRange maxInput,
        (FsmNode.applyInput fsm p x []).2 = (FsmNode.applyInput fsm q x []).2)) ∧
  (∀ k pk pk', tables[k]? = some pk → tables[k + 1]? = some pk' → ∀ p q,
    (pk'.getClass (fsm p).id = pk'.getClass (fsm q).id ↔
      (pk.getClass (fsm p).id = pk.getClass (fsm q).id ∧
        ∀ x ∈ symbolRange maxInput,
          (FsmNode.after fsm p x).map (fun n => pk.getClass (fsm n).id)
            = (FsmNode.after fsm q x).map (fun n => pk.getClass (fsm n).id))))

/-- A three-state machine over the inputs 0 and 1 whose states 0 and 1 are
separated by `P_2` only: `0: 0/0 → 1, 1/0 → 0`, `1: 0/0 → 2, 1/0 → 1`, every
other reference is state 2 with `0/1 → 2, 1/0 → 2`. -/
def chainFsm : Fsm := fun n =>
  match n with
  | 0 => ⟨0, [⟨⟨0, 0⟩, 1⟩, ⟨⟨1, 0⟩, 0⟩]⟩
  | 1 => ⟨1, [⟨⟨0, 0⟩, 2⟩, ⟨⟨1, 0⟩, 1⟩]⟩
  | _ => ⟨2, [⟨⟨0, 1⟩, 2⟩, ⟨⟨1, 0⟩, 2⟩]⟩

/-- The table `P_1` of `chainFsm`: states 0 and 1 in class 0, state 2 in class 1. -/
def chainP1 : PkTable := ⟨fun i => if i = 2 then 1 else 0⟩

/-- The table `P_2` of `chainFsm`: every state in a class of its own. -/
def chainP2 : PkTable := ⟨fun i => i⟩

/-- A machine of states with the same behaviour (`0/0` back to the state
itself) and pairwise different ids. -/
def loopFsm : Fsm := fun n => ⟨n, [⟨⟨0, 0⟩, n⟩]⟩

/-- A table that joins all states. -/
def oneClassTable : PkTable := ⟨fun _ => 0⟩

/-- A partial machine: state 0 has the transition `0/0` to itself, every other
state has no transition at all. -/
def partialFsm : Fsm := fun n =>
  match n with
  | 0 => ⟨0, [⟨⟨0, 0⟩, 0⟩]⟩
  | _ => ⟨1, []⟩

/-- Source `FsmNode::hasTransition(const int input)`: some transition carries the
input. -/
def FsmNode.hasTransition (fsm : Fsm) (self : Nat) (input : Int) : Bool :=
  (fsm self).transitions.any (fun tr => tr.label.input = input)

/-- The first-transition runs of the two nodes agree on every input sequence of
length at most `k`. -/
def SameRunsUpTo (fsm : Fsm) (k : Nat) (a b : Nat) : Prop :=
  ∀ s : List Int, s.length ≤ k → runOutputs fsm a s = runOutputs fsm b s

/-- The table list has the meaning the spec gives to Pk-tables, `P_k` at index
`k - 1`: two states share a class of `P_k` iff no input sequence of length at
most `k` distinguishes them. -/
def PkSemantic (lt : List Int → List Int → Bool) (fsm : Fsm) (tables : List PkTable) : Prop :=
  ∀ k pk, tables[k]? = some pk → ∀ a b,
    (pk.getClass (fsm a).id = pk.getClass (fsm b).id ↔
      ∀ s : List Int, s.length ≤ k + 1 → FsmNode.distinguished lt fsm a b s = false)

/-- The double loop of `FsmNode::isObservable` over a transition list: `false`
as soon as a later transition carries the label of an earlier one. -/
def isObservableFrom : List FsmTransition → Bool
  | [] => true
  | tr :: rest =>
      if rest.any (fun other => tr.label = other.label) then false else isObservableFrom rest

/-- Source `FsmNode::isObservable`. -/
def FsmNode.isObservable (fsm : Fsm) (self : Nat) : Bool :=
  isObservableFrom (fsm self).transitions

/-- Every node of the machine is observable. -/
def Observable (fsm : Fsm) : Prop := ∀ n, FsmNode.isObservable fsm n = true

/-- A path through the machine along a sequence of input/output pairs. -/
def IOPath (fsm : Fsm) : Nat → List (Int × Int) → Nat → Prop
  | a, [], a' => a = a'
  | a, io :: rest, a' =>
      ∃ tr ∈ (fsm a).transitions, tr.label = ⟨io.1, io.2⟩ ∧ IOPath fsm tr.target rest a'

/-- The rows of an OFSM-table describe the machine: for a node and an
input/output pair in range, `get` is the id of the target of the transition
with that label, and negative when the node has no such transition. -/
def OfsmRows (fsm : Fsm) (maxInput maxOutput : Int) (ot : OFSMTable) : Prop :=
  ∀ n, ∀ x ∈ symbolRange maxInput, ∀ y ∈ symbolRange maxOutput,
    (∀ tr ∈ (fsm n).transitions, tr.label = ⟨x, y⟩ →
      ot.get (fsm n).id x y = (fsm tr.target).id) ∧
    ((∀ tr ∈ (fsm n).transitions, tr.label ≠ ⟨x, y⟩) → ot.get (fsm n).id x y < 0)

/-- Two states agree in the column `x/y` of a table: the successor is undefined
for both, or defined for both with successors in the same class. -/
def ofsmColumnsAgree (ot : OFSMTable) (q1 q2 x y : Int) : Prop :=
  (ot.get q1 x y < 0 ∧ ot.get q2 x y < 0) ∨
  (0 ≤ ot.get q1 x y ∧ 0 ≤ ot.get q2 x y ∧
    ot.s2c (ot.get q1 x y) = ot.s2c (ot.get q2 x y))

/-- Modelled from the spec: the construction of OFSM-tables is not among the
sources ("same class at level k+1 iff same class at level k and the level-k
successor classes match for every input/output pair"; an absent row means the
pair is not realizable). The table list is the OFSM-table chain of the machine,
table `n` at index `n`: state ids are not negative, every table has the rows
of the machine, table 0 joins all states, and table `k + 1` joins the states
that table `k` joins and that agree in every column of table `k`. -/
def OfsmChain (fsm : Fsm) (maxInput maxOutput : Int) (tables : List OFSMTable) : Prop :=
  (∀ n, 0 ≤ (fsm n).id) ∧
  (∀ ot ∈ tables, OfsmRows fsm maxInput maxOutput ot) ∧
  (∀ ot, tables[0]? = some ot → ∀ a b, ot.s2c (fsm a).id = ot.s2c (fsm b).id) ∧
  (∀ k ot ot', tables[k]? = some ot → tables[k + 1]? = some ot' → ∀ a b,
    (ot'.s2c (fsm a).id = ot'.s2c (fsm b).id ↔
      (ot.s2c (fsm a).id = ot.s2c (fsm b).id ∧
        ∀ x ∈ symbolRange maxInput, ∀ y ∈ symbolRange maxOutput,
          ofsmColumnsAgree ot (fsm a).id (fsm b).id x y)))

/-- The loop state of the OFSM-table variant tracks the nodes `a` and `b`: it
holds their ids, and its trace is the input sequence of an input/output path
that leads from `p` to `a` and from `q` to `b`. -/
def OfsmTracked (fsm : Fsm) (p q : Nat) (s : OfsmState) (a b : Nat) : Prop :=
  s.q1 = (fsm a).id ∧ s.q2 = (fsm b).id ∧
    ∃ ios, IOPath fsm p ios a ∧ IOPath fsm q ios b ∧ s.itrc = ios.map Prod.fst

/-- An observable machine over the input 0 and the outputs 0 and 1:
`0: 0/0 → 2`, `1: 0/0 → 3`, `2: 0/0 → 2, 0/1 → 2`, every other reference is
state 3 with `0/0 → 3`. -/
def ofsmFsm : Fsm := fun n =>
  match n with
  | 0 => ⟨0, [⟨⟨0, 0⟩, 2⟩]⟩
  | 1 => ⟨1, [⟨⟨0, 0⟩, 3⟩]⟩
  | 2 => ⟨2, [⟨⟨0, 0⟩, 2⟩, ⟨⟨0, 1⟩, 2⟩]⟩
  | _ => ⟨3, [⟨⟨0, 0⟩, 3⟩]⟩

/-- The rows of the OFSM-tables of `ofsmFsm`. -/
def ofsmFsmGet (q x y : Int) : Int :=
  if x = 0 ∧ y = 0 then (if q = 0 then 2 else if q = 1 then 3 else if q = 2 then 2 else 3)
  else if x = 0 ∧ y = 1 ∧ q = 2 then 2
  else -1

/-- OFSM-table 0 of `ofsmFsm`: one class. -/
def ofsmT0 : OFSMTable := ⟨ofsmFsmGet, fun _ => 0⟩

/-- OFSM-table 1 of `ofsmFsm`: state 2 (which alone has `0/1`) apart. -/
def ofsmT1 : OFSMTable := ⟨ofsmFsmGet, fun i => if i = 2 then 1 else 0⟩

/-- OFSM-table 2 of `ofsmFsm`: state 0 (whose `0/0` leads to state 2) apart from
the states 1 and 3. -/
def ofsmT2 : OFSMTable := ⟨ofsmFsmGet, fun i => if i = 0 then 0 else if i = 2 then 2 else 1⟩

/-! ## FsmNode: successor sets, multi-step queries, candidate trees -/

/-- Source `FsmNode::afterAsSet(const int x)`: the set of targets of the transitions
with input `x`; `{self}` for `EPSILON`. An `unordered_set` of node pointers is a
finite set of references. -/
def FsmNode.afterAsSet (fsm : Fsm) (self : Nat) (x : Int) : Finset Nat :=
  if x = EPSILON then {self}
  else (fsm self).transitions.foldl
    (fun nodeSet tr => if tr.label.input = x then insert tr.target nodeSet else nodeSet) ∅

/-- Source `FsmNode::afterAsSet(const int x, const int y)`: the set of targets of the
transitions labelled `x/y`; `{self}` when both symbols are `EPSILON`. -/
def FsmNode.afterAsSetInOut (fsm : Fsm) (self : Nat) (x y : Int) : Finset Nat :=
  if x = EPSILON ∧ y = EPSILON then {self}
  else (fsm self).transitions.foldl
    (fun lst tr =>
      if tr.label.input = x ∧ tr.label.output = y then insert tr.target lst else lst) ∅

/-- Source `FsmNode::after(const vector<int>& itrc)`: starting from `{self}`, every
input replaces the node set by the union of the `afterAsSet` of its members. -/
def FsmNode.afterVector (fsm : Fsm) (self : Nat) (itrc : List Int) : Finset Nat :=
  itrc.foldl (fun nodeSet x => nodeSet.biUnion (fun n => FsmNode.afterAsSet fsm n x)) {self}

/-- Source `FsmNode::after(const InputTrace& itrc)`: the same loop over the symbols
of an `InputTrace`. -/
def FsmNode.afterInputTrace (fsm : Fsm) (self : Nat) (itrc : List Int) : Finset Nat :=
  itrc.foldl (fun nodeSet x => nodeSet.biUnion (fun n => FsmNode.afterAsSet fsm n x)) {self}

/-- Source `FsmNode::after(const InputTrace & itrc, const OutputTrace & otrc)`: the
empty set when the sizes differ; otherwise, starting from `{self}`, position `i`
replaces the node set by the union of the `afterAsSet(itrc[i], otrc[i])` of its
members. -/
def FsmNode.afterTraces (fsm : Fsm) (self : Nat) (itrc otrc : List Int) : Finset Nat :=
  if itrc.length ≠ otrc.length then ∅
  else (itrc.zip otrc).foldl
    (fun nodeSet xy => nodeSet.biUnion (fun n => FsmNode.afterAsSetInOut fsm n xy.1 xy.2))
    {self}

/-- Source `FsmNode::after(const IOTrace& trace)`. -/
def FsmNode.afterIOTrace (fsm : Fsm) (self : Nat) (trace : IOTrace) : Finset Nat :=
  FsmNode.afterTraces fsm self trace.inputTrace trace.outputTrace

/-- Source `FsmNode::getPossibleOutputs(const int x, vector<...> & outputs)`: the
first component is the returned list of target nodes, the second the new value
of `outputs`, which is reset at entry. -/
def FsmNode.getPossibleOutputs (fsm : Fsm) (self : Nat) (x : Int)
    (_outputs : List (List Int)) : List Nat × List (List Int) :=
  if x = EPSILON then ([self], [[EPSILON]])
  else (fsm self).transitions.foldl
    (fun acc tr =>
      if tr.label.input = x then (acc.1 ++ [tr.target], acc.2 ++ [[tr.label.output]])
      else acc) ([], [])

/-- Source `InputTrace::InputTrace(const InputTrace& other, size_t n)`: the copy of
`other` from position `n` on. `n` is capped at `size - 1`; a position 0 after
that leaves the new trace empty. For an empty `other` the `size_t` value
`size - 1` wraps to the largest value, no cap applies, and a position `n > 0`
lies behind the end of the vector (`none`: no defined result). -/
def InputTrace.fromPosition (other : List Int) (n : Nat) : Option (List Int) :=
  if other.length = 0 then (if n > 0 then none else some [])
  else
    let m := if n > other.length - 1 then other.length - 1 else n
    if m > 0 then some (other.drop m) else some []

/-- Source `FsmNode::getPossibleOutputs(const InputTrace&, producedOutputTraces,
reachedNodes)`: the result is the new value of the two reference parameters.
The recursive call gets `InputTrace(inputTrace, 1)`, which for the non-empty
trace `input :: rest` is `rest` (`fromPosition_one`). `nextOutputs` and
`nextTargets` have the same size (`getPossibleOutputs_lengths`), so the
`LOG(FATAL)` branch is never taken. The loop over the pairs of `nextOutputs`
and `nextTargets` carries `(newlyProducedOutputTraces, reachedNodes)`. -/
def FsmNode.getPossibleOutputsTrace (fsm : Fsm) :
    List Int → Nat → List (List Int) → List Nat → List (List Int) × List Nat
  | [], self, producedOutputTraces, reachedNodes =>
      (producedOutputTraces, reachedNodes ++ [self])
  | input :: rest, self, producedOutputTraces, reachedNodes =>
      let next := FsmNode.getPossibleOutputs fsm self input []
      (next.2.zip next.1).foldl
        (fun acc nextPair =>
          let sub := FsmNode.getPossibleOutputsTrace fsm rest nextPair.2 [nextPair.1] acc.2
          if producedOutputTraces.length > 0 then
            (acc.1 ++ producedOutputTraces.flatMap
              (fun oldTrace => sub.1.map (fun nOTrace => oldTrace ++ nOTrace)), sub.2)
          else (acc.1 ++ sub.1, sub.2))
        ([], reachedNodes)

/-- The loop `for (vector<int>& iLst : *inputLists)` of the two overloads that
take a tree of candidates: the first input list for which the test holds,
`none` (`nullptr`) when there is none. -/
def firstInputList (holds : List Int → Bool) : List (List Int) → Option (List Int)
  | [] => none
  | iLst :: rest => if holds iLst then some iLst else firstInputList holds rest

/-- Source `FsmNode::distinguished(otherNode, shared_ptr<Tree> w)`; `w` is given by
its root. -/
def FsmNode.distinguishedTree (lt : List Int → List Int → Bool) (fsm : Fsm)
    (self otherNode : Nat) (w : TreeNode) : Option (List Int) :=
  firstInputList (fun iLst => FsmNode.distinguished lt fsm self otherNode iLst) w.getIOLists

/-- Source `FsmNode::rDistinguished(otherNode, shared_ptr<Tree> w)`; `w` is given by
its root. -/
def FsmNode.rDistinguishedTree (fsm : Fsm) (self otherNode : Nat) (w : TreeNode) :
    Option (List Int) :=
  firstInputList (fun iLst => FsmNode.rDistinguished fsm self otherNode iLst) w.getIOLists

/-- A node with the two transitions `2/3 → 1` and `2/4 → 2`; every other node has
no transition. -/
def branchFsm : Fsm := fun n =>
  match n with
  | 0 => ⟨0, [⟨⟨2, 3⟩, 1⟩, ⟨⟨2, 4⟩, 2⟩]⟩
  | _ => ⟨1, []⟩

/-! ## Paths, as the statements on `after` and `getPossibleOutputs` use them -/

/-- One step under the input `x`: a step on `EPSILON` stays at the node, any
other step follows a transition with input `x`. -/
def StepInput (fsm : Fsm) (a : Nat) (x : Int) (b : Nat) : Prop :=
  if x = EPSILON then b = a
  else ∃ tr ∈ (fsm a).transitions, tr.label.input = x ∧ tr.target = b

/-- The node `m` is reached from `a` by a path whose `i`-th step is a step under
the `i`-th input. -/
def InputPath (fsm : Fsm) : Nat → List Int → Nat → Prop
  | a, [], m => m = a
  | a, x :: rest, m => ∃ b, StepInput fsm a x b ∧ InputPath fsm b rest m

/-- One step under `x/y`, by cases: for `EPSILON/EPSILON` the step stays at the
node, for every other pair it follows a transition labelled `x/y`. -/
def StepInOut (fsm : Fsm) (a : Nat) (x y : Int) (b : Nat) : Prop :=
  if x = EPSILON ∧ y = EPSILON then b = a
  else ∃ tr ∈ (fsm a).transitions, tr.label = ⟨x, y⟩ ∧ tr.target = b

/-- One step under `x/y` with the two alternatives side by side: the pair is
`EPSILON/EPSILON` and the step stays at the node, or the step follows a
transition labelled `x/y`. -/
def StepEitherOr (fsm : Fsm) (a : Nat) (x y : Int) (b : Nat) : Prop :=
  (x = EPSILON ∧ y = EPSILON ∧ b = a) ∨
  ∃ tr ∈ (fsm a).transitions, tr.label = ⟨x, y⟩ ∧ tr.target = b

/-- There are nodes `a = n_0, ..., n_k = m` such that `step n_i x_i y_i n_(i+1)`
holds for the `i`-th input/output pair `x_i/y_i`. -/
def PathAlong (step : Nat → Int → Int → Nat → Prop) : Nat → List (Int × Int) → Nat → Prop
  | a, [], m => m = a
  | a, xy :: rest, m => ∃ b, step a xy.1 xy.2 b ∧ PathAlong step b rest m

/-- The single steps `getPossibleOutputs(x, ·)` offers at a node, as pairs of
output and target: the node itself with output `EPSILON` for `EPSILON`, one
pair per transition with input `x` otherwise. -/
def stepsOn (fsm : Fsm) (n : Nat) (x : Int) : List (Int × Nat) :=
  if x = EPSILON then [(EPSILON, n)]
  else (FsmNode.transitionsOn fsm n x).map (fun tr => (tr.label.output, tr.target))

/-- All paths from a node labelled with the inputs of a trace, each given by
the output sequence emitted along it and its end node; paths in depth-first
order of the transition lists. -/
def runsFrom (fsm : Fsm) : Nat → List Int → List (List Int × Nat)
  | n, [] => [([], n)]
  | n, x :: rest =>
      (stepsOn fsm n x).flatMap
        (fun st => (runsFrom fsm st.2 rest).map (fun r => (st.1 :: r.1, r.2)))

/-- A node with a transition labelled `EPSILON/EPSILON` to node 1; every other
node has no transition. -/
def epsilonFsm : Fsm := fun n =>
  match n with
  | 0 => ⟨0, [⟨⟨EPSILON, EPSILON⟩, 1⟩]⟩
  | _ => ⟨1, []⟩

/-- One step of a run under the input `x` that emits `y`: a step on `EPSILON`
stays at the node and emits `EPSILON`, any other step follows a transition
labelled `x/y`. -/
def StepEmit (fsm : Fsm) (a : Nat) (x y : Int) (b : Nat) : Prop :=
  if x = EPSILON then (y = EPSILON ∧ b = a)
  else ∃ tr ∈ (fsm a).transitions, tr.label = ⟨x, y⟩ ∧ tr.target = b

/-- The loop of `FsmNode::isDeterministic` over a transition list, with the
set of inputs inserted so far: `false` at the first transition whose input is
already in the set (`inputSet.insert(inp).second` is false). -/
def isDeterministicFrom : List FsmTransition → Finset Int → Bool
  | [], _ => true
  | tr :: rest, inputSet =>
      if tr.label.input ∈ inputSet then false
      else isDeterministicFrom rest (insert tr.label.input inputSet)

/-- Source `FsmNode::isDeterministic`. -/
def FsmNode.isDeterministic (fsm : Fsm) (self : Nat) : Bool :=
  isDeterministicFrom (fsm self).transitions ∅

/-- No two distinct positions of the list hold elements on which `key`
agrees. -/
def NoTwoPositions {α β : Type} (key : α → β) (l : List α) : Prop :=
  ∀ i j : Fin l.length, i ≠ j → key (l.get i) ≠ key (l.get j)

mutual
/-- Modelled from the spec: `Tree.cpp` is not among the sources. The leaves of
the tree below a node in depth-first order (`Tree::getLeaves`, which
`FsmNode::apply` calls for every input symbol); a node without children is
itself a leaf, so every root-to-leaf path ends in exactly one of them. The
leaves are given by the machine nodes they stand for. -/
def TreeNode.getLeaves : TreeNode → List Nat
  | .mk st [] => [st]
  | .mk _ (c :: cs) => TreeNode.getLeavesEdges (c :: cs)
/-- Leaves below a list of edges, in edge order. -/
def TreeNode.getLeavesEdges : List (Int × TreeNode) → List Nat
  | [] => []
  | (_, t) :: cs => t.getLeaves ++ TreeNode.getLeavesEdges cs
end

mutual
/-- No node of the tree has more than one child. -/
def TreeNode.singleChild : TreeNode → Bool
  | .mk _ cs => decide (cs.length ≤ 1) && TreeNode.singleChildEdges cs
/-- No node below a list of edges has more than one child. -/
def TreeNode.singleChildEdges : List (Int × TreeNode) → Bool
  | [] => true
  | (_, t) :: cs => t.singleChild && TreeNode.singleChildEdges cs
end

/-- Node `m` can be reached from node `n` along transitions. -/
def Reachable (fsm : Fsm) (n m : Nat) : Prop := ∃ ios, IOPath fsm n ios m

/-- The input trace fed symbol by symbol through the single-step
`apply(e, o)`, starting at a node with the output trace `o` and continuing from
each returned target; `none` when a step returns `nullptr`. The result is the
last target and the output trace. -/
def feedInputs (fsm : Fsm) : Nat → List Int → List Int → Option (Nat × List Int)
  | n, [], o => some (n, o)
  | n, e :: es, o =>
      match FsmNode.applyInput fsm n e o with
      | (some target, o') => feedInputs fsm target es o'
      | (none, _) => none

/-- A node with the single transition `1/5` to itself: it has no transition
for the input `0`. -/
def skipFsm : Fsm := fun _ => ⟨0, [⟨⟨1, 5⟩, 0⟩]⟩

/-- An observable machine over the inputs 0, 1 and the outputs 0, 1:
`0: 0/0 → 2`, `1: 0/0 → 3`, `2: 1/0 → 4, 0/1 → 2`, `3: 1/0 → 5`, `4: 0/0 → 4`,
every other reference is state 5 with `1/1 → 5`. -/
def twoMovesFsm : Fsm := fun n =>
  match n with
  | 0 => ⟨0, [⟨⟨0, 0⟩, 2⟩]⟩
  | 1 => ⟨1, [⟨⟨0, 0⟩, 3⟩]⟩
  | 2 => ⟨2, [⟨⟨1, 0⟩, 4⟩, ⟨⟨0, 1⟩, 2⟩]⟩
  | 3 => ⟨3, [⟨⟨1, 0⟩, 5⟩]⟩
  | 4 => ⟨4, [⟨⟨0, 0⟩, 4⟩]⟩
  | _ => ⟨5, [⟨⟨1, 1⟩, 5⟩]⟩

/-- The rows of the OFSM-tables of `twoMovesFsm`. -/
def twoMovesGet (q x y : Int) : Int :=
  if q = 0 ∧ x = 0 ∧ y = 0 then 2
  else if q = 1 ∧ x = 0 ∧ y = 0 then 3
  else if q = 2 ∧ x = 1 ∧ y = 0 then 4
  else if q = 2 ∧ x = 0 ∧ y = 1 then 2
  else if q = 3 ∧ x = 1 ∧ y = 0 then 5
  else if q = 4 ∧ x = 0 ∧ y = 0 then 4
  else if q = 5 ∧ x = 1 ∧ y = 1 then 5
  else -1

/-- OFSM-table 0 of `twoMovesFsm`: one class. -/
def twoMovesT0 : OFSMTable := ⟨twoMovesGet, fun _ => 0⟩

/-- OFSM-table 1 of `twoMovesFsm`: the states 0, 1 and 4 (which have `0/0`
only) together, each of the states 2, 3 and 5 in a class of its own. -/
def twoMovesT1 : OFSMTable :=
  ⟨twoMovesGet, fun i => if i = 2 then 1 else if i = 3 then 2 else if i = 5 then 3 else 0⟩

/-- OFSM-table 2 of `twoMovesFsm`: every state in a class of its own. -/
def twoMovesT2 : OFSMTable := ⟨twoMovesGet, fun i => i⟩

/-- Modelled from the spec: `DFSMTableRow.h`, `DFSMTableRow.cpp` and
`typedef.inc` are not among the sources. A row of a DFSM table: the id of the
state and two sections indexed by the inputs `0..maxInput`, the output
(`ioSection`) and the id of the post-state (`i2postSection`) of the state's
transition for the input; `-1` marks an input without transition
("undefined"). -/
structure DFSMTableRow where
  state : Int
  ioSection : List Int
  i2postSection : List Int
deriving DecidableEq, Repr

/-- Modelled from the spec: the constructor `DFSMTableRow(id, maxInput)` is not
among the sources. The row of a state before any transition is entered: both
sections have the `maxInput + 1` entries `-1` ("undefined"), which is what the
test `io.at(x) >= 0` of `getDFSMTableRow` takes for "no transition seen". -/
def DFSMTableRow.init (state maxInput : Int) : DFSMTableRow :=
  ⟨state, List.replicate (maxInput + 1).toNat (-1), List.replicate (maxInput + 1).toNat (-1)⟩

/-- The loop `for (auto tr : transitions)` of `FsmNode::getDFSMTableRow` on the
row `r`: `io.at(x)` outside the section throws; an entry that is not negative
ends the call with `nullptr` (`none`); otherwise output and post-state id are
entered at `x`. -/
def dfsmTableRowLoop (fsm : Fsm) :
    List FsmTransition → DFSMTableRow → Except Fault (Option DFSMTableRow)
  | [], r => .ok (some r)
  | tr :: rest, r =>
      if tr.label.input < 0 then .error Fault.rowIndexOutOfRange
      else
        match r.ioSection[tr.label.input.toNat]? with
        | none => .error Fault.rowIndexOutOfRange
        | some v =>
            if v ≥ 0 then .ok none
            else dfsmTableRowLoop fsm rest
              ⟨r.state, r.ioSection.set tr.label.input.toNat tr.label.output,
                r.i2postSection.set tr.label.input.toNat (fsm tr.target).id⟩

/-- Source `FsmNode::getDFSMTableRow(const int maxInput)`; `none` is `nullptr`. -/
def FsmNode.getDFSMTableRow (fsm : Fsm) (self : Nat) (maxInput : Int) :
    Except Fault (Option DFSMTableRow) :=
  dfsmTableRowLoop fsm (fsm self).transitions (DFSMTableRow.init (fsm self).id maxInput)

/-- A node with two transitions for the input 0, the first with the output
`EPSILON`: `0/EPSILON → 0` and `0/3 → 0`. -/
def epsilonOutputFsm : Fsm := fun _ => ⟨0, [⟨⟨0, EPSILON⟩, 0⟩, ⟨⟨0, 3⟩, 0⟩]⟩

/-- The transitions left to enter fit the row: their inputs are all different
and the row has no entry yet at any of them. -/
def RowFree (l : List FsmTransition) (r : DFSMTableRow) : Prop :=
  l.Pairwise (fun a b => a.label.input ≠ b.label.input) ∧
    ∀ tr ∈ l, ∀ v, r.ioSection[tr.label.input.toNat]? = some v → v < 0

/-! ## Transition lists as vectors of shared pointers -/

/-- Modelled from the spec: `FsmTransition.h` is not among the sources. A
transition object as `addTransition` reads it: `getLabel()` and `getTarget()`
return shared pointers, here the address of a label object and the reference
of the target node. -/
structure TransitionObject where
  label : Nat
  target : Nat
deriving DecidableEq, Repr

/-- The objects behind the shared pointers of a transition vector: the
transition object and the label object at each address. Two label objects at
different addresses may hold the same input and output. -/
structure ObjectHeap where
  transitionAt : Nat → TransitionObject
  labelAt : Nat → FsmLabel

/-- The transition a shared pointer stands for: label contents and target
node, the (target, input, output) that all queries of the node read. -/
def ObjectHeap.value (heap : ObjectHeap) (tr : Nat) : FsmTransition :=
  ⟨heap.labelAt (heap.transitionAt tr).label, (heap.transitionAt tr).target⟩

/-- Source `FsmNode::addTransition`: the vector `transitions` of shared pointers
after the call. `tr->getTarget() == transition->getTarget()` and
`tr->getLabel() == transition->getLabel()` compare shared pointers, that is
addresses. -/
def FsmNode.addTransition (heap : ObjectHeap) (transitions : List Nat) (transition : Nat) :
    List Nat :=
  if transitions.any (fun tr =>
      decide ((heap.transitionAt tr).target = (heap.transitionAt transition).target ∧
        (heap.transitionAt tr).label = (heap.transitionAt transition).label))
  then transitions
  else transitions ++ [transition]

/-- Two transition objects to the node 7: the transition at address 0 has the
label object at address 0, every other transition the label object at address
1; both label objects are `0/0`. -/
def separateLabelsHeap : ObjectHeap :=
  ⟨fun tr => if tr = 0 then ⟨0, 7⟩ else ⟨1, 7⟩, fun _ => ⟨0, 0⟩⟩

/-! ## Pk-table construction (modelled part) -/

/-- Modelled from the spec: `PkTable.cpp` and `PkTableRow.cpp` are not among the
sources. A Pk-table with its rows ("one row per FSM state id"): the states are
`0..numStates - 1`, `i2p s x` is the successor-state id of state `s` under the
input `x` (the I2P map of the row of `s`) and `s2c s` the class of `s`. -/
structure PkTableRows where
  numStates : Nat
  maxInput : Int
  i2p : Int → Int → Int
  s2c : Int → Int

/-- The state ids of the table, in row order. -/
def PkTableRows.states (t : PkTableRows) : List Int :=
  (List.range t.numStates).map Int.ofNat

/-- Modelled from the spec: the criterion of the construction of level k+1
("two states are placed in the same class at level k+1 iff they were in the
same class at level k AND, for every input symbol, their level-k successor
classes match"). -/
def PkTableRows.sameNext (t : PkTableRows) (a b : Int) : Bool :=
  decide (t.s2c a = t.s2c b) &&
    (symbolRange t.maxInput).all (fun x => decide (t.s2c (t.i2p a x) = t.s2c (t.i2p b x)))

/-- Modelled from the spec: the class of a state at level k+1, named by the
first state of the table that stays together with it (`-1` for an id that is
no state of the table). -/
def PkTableRows.nextClass (t : PkTableRows) (a : Int) : Int :=
  match t.states.find? (fun b => t.sameNext a b) with
  | some b => b
  | none => -1

/-- Modelled from the spec: `PkTable::getPkPlusOneTable` is declared in
`PkTable.h` ("return null if no new equivalence classes can be generated from
this Pk-Table, the P(k+1)-Table otherwise"), its body is not among the
sources. The table of level k+1 has the rows of level k and the classes of
`nextClass`; `none` (null) when every two states of one class stay together. -/
def PkTableRows.getPkPlusOneTable (t : PkTableRows) : Option PkTableRows :=
  if t.states.all (fun a => t.states.all (fun b =>
      !decide (t.s2c a = t.s2c b) || t.sameNext a b))
  then none
  else some ⟨t.numStates, t.maxInput, t.i2p, t.nextClass⟩

/-- The rows of `chainFsm` with the classes of its table `P_1`: the states 0
and 1 together, state 2 apart. -/
def chainRows1 : PkTableRows :=
  ⟨3, 1,
    fun s x => if s = 0 then (if x = 0 then 1 else 0)
      else if s = 1 then (if x = 0 then 2 else 1) else 2,
    chainP1.getClass⟩

/-- The test of the last loops of the OFSM-table variant: table `ot0` has a
successor under `x/y` for exactly one of the state ids `q1` and `q2`. -/
@[reducible]
def ofsmOneSided (ot0 : OFSMTable) (q1 q2 x y : Int) : Prop :=
  (ot0.get q1 x y < 0 ∧ ot0.get q2 x y ≥ 0) ∨ (ot0.get q1 x y ≥ 0 ∧ ot0.get q2 x y < 0)

/-- Every node reachable from `n` has at least one transition for every input
of `0..maxInput`. -/
def DefinedFrom (fsm : Fsm) (maxInput : Int) (n : Nat) : Prop :=
  ∀ m, Reachable fsm n m → ∀ x ∈ symbolRange maxInput, FsmNode.hasTransition fsm m x = true

/-- Source `FsmNode::removeTransition`: the returned flag and the vector
`transitions` after the call. `find` compares the shared pointers of the
vector with `t`; its result is the position of the first equal one, the size
of the vector for `transitions.end()`. -/
def FsmNode.removeTransition (transitions : List Nat) (t : Nat) : Bool × List Nat :=
  let it := transitions.indexOf t
  if it ≠ transitions.length then (true, transitions.eraseIdx it)
  else (false, transitions)

/-- A partial machine over the inputs 0 and 1 in which no state has a
transition for the input 0: state 0 has `1/0` to itself, every other reference
is state 1 with `1/1` to itself. -/
def gapFsm : Fsm := fun n =>
  match n with
  | 0 => ⟨0, [⟨⟨1, 0⟩, 0⟩]⟩
  | _ => ⟨1, [⟨⟨1, 1⟩, 1⟩]⟩

/-! # Lemmas and theorems -/

/-! ## Sorting, `unique` and `includes` -/

theorem StrictTotal.asymm {lt : List Int → List Int → Bool} (h : StrictTotal lt)
    {a b : List Int} (hab : lt a b = true) : lt b a = false := by
  cases hba : lt b a with
  | false => rfl
  | true =>
    have := h.trans a b a hab hba
    rw [h.irrefl a] at this
    exact absurd this (by decide)

theorem StrictTotal.lt_of_lt_of_not_lt {lt : List Int → List Int → Bool} (h : StrictTotal lt)
    {a b c : List Int} (hab : lt a b = true) (hcb : lt c b = false) : lt a c = true := by
  by_cases hac : a = c
  · subst hac; rw [hab] at hcb; exact absurd hcb (by decide)
  · rcases h.total a c hac with h1 | h1
    · exact h1
    · have := h.trans c a b h1 hab
      rw [this] at hcb; exact absurd hcb (by decide)

theorem StrictTotal.le_trans {lt : List Int → List Int → Bool} (h : StrictTotal lt)
    {a b c : List Int} (hab : lt b a = false) (hbc : lt c b = false) : lt c a = false := by
  cases hca : lt c a with
  | false => rfl
  | true =>
    have := h.lt_of_lt_of_not_lt hca hab
    rw [this] at hbc; exact absurd hbc (by decide)

theorem StrictTotal.eq_of_not_lt {lt : List Int → List Int → Bool} (h : StrictTotal lt)
    {a b : List Int} (hab : lt a b = false) (hba : lt b a = false) : a = b := by
  by_contra hne
  rcases h.total a b hne with h1 | h1
  · rw [h1] at hab; exact absurd hab (by decide)
  · rw [h1] at hba; exact absurd hba (by decide)

theorem mem_stdSort (lt : List Int → List Int → Bool) (l : List (List Int)) (x : List Int) :
    x ∈ stdSort lt l ↔ x ∈ l :=
  (List.perm_insertionSort _ l).mem_iff

theorem sorted_stdSort {lt : List Int → List Int → Bool} (h : StrictTotal lt)
    (l : List (List Int)) :
    List.Pairwise (fun a b => lt b a = false) (stdSort lt l) := by
  haveI : IsTotal (List Int) (fun a b => lt b a = false) :=
    ⟨fun a b => by
      cases hba : lt b a with
      | false => exact Or.inl rfl
      | true => exact Or.inr (h.asymm hba)⟩
  haveI : IsTrans (List Int) (fun a b => lt b a = false) :=
    ⟨fun a b c hab hbc => h.le_trans hab hbc⟩
  exact List.sorted_insertionSort (fun a b => lt b a = false) l

theorem mem_stdUnique (x : List Int) : ∀ l : List (List Int), x ∈ stdUnique l ↔ x ∈ l
  | [] => by simp [stdUnique]
  | [a] => by simp [stdUnique]
  | a :: b :: rest => by
    have ih := mem_stdUnique x (b :: rest)
    simp only [stdUnique]
    split
    · rename_i hab
      subst hab
      rw [ih]; simp
    · rw [List.mem_cons, ih]; simp

theorem pairwise_stdUnique {lt : List Int → List Int → Bool} (h : StrictTotal lt) :
    ∀ l : List (List Int), List.Pairwise (fun a b => lt b a = false) l →
      List.Pairwise (fun a b => lt a b = true) (stdUnique l)
  | [], _ => by simp [stdUnique]
  | [a], _ => by simp [stdUnique]
  | a :: b :: rest, hs => by
    have hs' := List.pairwise_cons.mp hs
    have ih := pairwise_stdUnique h (b :: rest) hs'.2
    simp only [stdUnique]
    split
    · exact ih
    · rename_i hab
      refine List.pairwise_cons.mpr ⟨?_, ih⟩
      intro x hx
      rw [mem_stdUnique] at hx
      have hab' : lt a b = true := by
        have h1 := hs'.1 b (List.mem_cons_self _ _)
        rcases h.total a b hab with h2 | h2
        · exact h2
        · rw [h2] at h1; exact absurd h1 (by decide)
      rcases List.mem_cons.mp hx with hx | hx
      · subst hx; exact hab'
      · have h2 := (List.pairwise_cons.mp hs'.2).1 x hx
        by_cases hbx : b = x
        · subst hbx; exact hab'
        · rcases h.total b x hbx with h3 | h3
          · exact h.trans a b x hab' h3
          · rw [h3] at h2; exact absurd h2 (by decide)

theorem stdIncludes_iff {lt : List Int → List Int → Bool} (h : StrictTotal lt) :
    ∀ (as bs : List (List Int)),
      List.Pairwise (fun a b => lt a b = true) as →
      List.Pairwise (fun a b => lt a b = true) bs →
      (stdIncludes lt as bs = true ↔ ∀ x ∈ bs, x ∈ as)
  | as, [], _, _ => by cases as <;> simp [stdIncludes]
  | [], b :: bs, _, _ => by
    simp only [stdIncludes]
    constructor
    · intro hf; exact absurd hf (by decide)
    · intro hsub; exact absurd (hsub b (List.mem_cons_self _ _)) (List.not_mem_nil _)
  | a :: as, b :: bs, ha, hb => by
    have ha' := List.pairwise_cons.mp ha
    have hb' := List.pairwise_cons.mp hb
    simp only [stdIncludes]
    by_cases hba : lt b a = true
    · simp only [hba, if_true]
      constructor
      · intro hf; exact absurd hf (by decide)
      · intro hsub
        exfalso
        have hmem := hsub b (List.mem_cons_self _ _)
        rcases List.mem_cons.mp hmem with he | he
        · subst he; rw [h.irrefl] at hba; exact absurd hba (by decide)
        · have := h.trans b a b hba (ha'.1 b he)
          rw [h.irrefl] at this; exact absurd this (by decide)
    · have hba' : lt b a = false := by simpa using hba
      simp only [hba', Bool.false_eq_true, if_false]
      by_cases hab : lt a b = true
      · simp only [hab, if_true]
        rw [stdIncludes_iff h as (b :: bs) ha'.2 hb]
        constructor
        · intro hsub x hx; exact List.mem_cons_of_mem _ (hsub x hx)
        · intro hsub x hx
          rcases List.mem_cons.mp (hsub x hx) with he | he
          · exfalso
            subst he
            rcases List.mem_cons.mp hx with hx' | hx'
            · subst hx'; rw [h.irrefl] at hab; exact absurd hab (by decide)
            · have := h.trans x b x hab (hb'.1 x hx')
              rw [h.irrefl] at this; exact absurd this (by decide)
          · exact he
      · have hab' : lt a b = false := by simpa using hab
        have heq : a = b := h.eq_of_not_lt hab' hba'
        simp only [hab', Bool.false_eq_true, if_false]
        subst heq
        rw [stdIncludes_iff h as bs ha'.2 hb'.2]
        constructor
        · intro hsub x hx
          rcases List.mem_cons.mp hx with he | he
          · subst he; exact List.mem_cons_self _ _
          · exact List.mem_cons_of_mem _ (hsub x he)
        · intro hsub x hx
          rcases List.mem_cons.mp (hsub x (List.mem_cons_of_mem _ hx)) with he | he
          · exfalso
            subst he
            have := hb'.1 x hx
            rw [h.irrefl] at this; exact absurd this (by decide)
          · exact he

theorem contains_iff {lt : List Int → List Int → Bool} (h : StrictTotal lt) (t ot : OutputTree) :
    t.contains lt ot = true ↔
      (ot.inputTrace = t.inputTrace ∧ ∀ x ∈ ot.getOutputTraces, x ∈ t.getOutputTraces) := by
  unfold OutputTree.contains
  by_cases hin : t.inputTrace = ot.inputTrace
  · simp only [hin, not_true_eq_false, if_false, true_and]
    rw [stdIncludes_iff h _ _ (pairwise_stdUnique h _ (sorted_stdSort h _))
      (pairwise_stdUnique h _ (sorted_stdSort h _))]
    simp only [mem_stdUnique, mem_stdSort]
  · simp only [hin, not_false_eq_true, if_true]
    constructor
    · intro hf; exact absurd hf (by decide)
    · rintro ⟨h1, _⟩; exact absurd h1.symm hin

/-! ## Output trees: containment, equality, intersection -/

theorem strictTotal_lexLt : StrictTotal lexLt := by
  refine ⟨?_, ?_, ?_⟩
  · intro a
    induction a with
    | nil => rfl
    | cons x xs ih => simp [lexLt, ih]
  · intro a
    induction a with
    | nil =>
      intro b c hab hbc
      cases b with
      | nil => simp [lexLt] at hab
      | cons y ys =>
        cases c with
        | nil => simp [lexLt] at hbc
        | cons z zs => simp [lexLt]
    | cons x xs ih =>
      intro b c hab hbc
      cases b with
      | nil => simp [lexLt] at hab
      | cons y ys =>
        cases c with
        | nil => simp [lexLt] at hbc
        | cons z zs =>
          simp only [lexLt] at hab hbc ⊢
          by_cases hxy : x < y
          · by_cases hyz : y < z
            · have : x < z := lt_trans hxy hyz
              simp [this]
            · simp only [hyz, if_false] at hbc
              by_cases hzy : z < y
              · simp [hzy] at hbc
              · have hyz' : y = z := le_antisymm (not_lt.mp hzy) (not_lt.mp hyz)
                subst hyz'
                simp [hxy]
          · simp only [hxy, if_false] at hab
            by_cases hyx : y < x
            · simp [hyx] at hab
            · have hxy' : x = y := le_antisymm (not_lt.mp hyx) (not_lt.mp hxy)
              subst hxy'
              simp only [hyx, if_false] at hab
              by_cases hxz : x < z
              · simp [hxz]
              · simp only [hxz, if_false] at hbc ⊢
                by_cases hzx : z < x
                · simp [hzx] at hbc
                · simp only [hzx, if_false] at hbc ⊢
                  exact ih ys zs hab hbc
  · intro a
    induction a with
    | nil =>
      intro b hne
      cases b with
      | nil => exact absurd rfl hne
      | cons y ys => left; simp [lexLt]
    | cons x xs ih =>
      intro b hne
      cases b with
      | nil => right; simp [lexLt]
      | cons y ys =>
        simp only [lexLt]
        rcases lt_trichotomy x y with hxy | hxy | hxy
        · left; simp [hxy]
        · subst hxy
          have hne' : xs ≠ ys := fun h => hne (by rw [h])
          simpa using ih ys hne'
        · right; simp [hxy]

theorem apply_inputTrace (fsm : Fsm) (p : Nat) (s : List Int) :
    (FsmNode.apply fsm p s).inputTrace = s := by
  unfold FsmNode.apply
  split <;> rfl

theorem outputTree_eq_iff {lt : List Int → List Int → Bool} (h : StrictTotal lt)
    (t u : OutputTree) :
    OutputTree.eq lt t u = true ↔
      (t.inputTrace = u.inputTrace ∧ t.getOutputTraces.toFinset = u.getOutputTraces.toFinset) := by
  unfold OutputTree.eq
  rw [Bool.and_eq_true, contains_iff h, contains_iff h]
  constructor
  · rintro ⟨⟨h1, h2⟩, ⟨_, h4⟩⟩
    refine ⟨h1.symm, ?_⟩
    ext x
    simp only [List.mem_toFinset]
    exact ⟨h4 x, h2 x⟩
  · rintro ⟨h1, h2⟩
    have h3 : ∀ x, x ∈ t.getOutputTraces ↔ x ∈ u.getOutputTraces := by
      intro x
      rw [← List.mem_toFinset, ← List.mem_toFinset, h2]
    exact ⟨⟨h1.symm, fun x hx => (h3 x).mpr hx⟩, ⟨h1, fun x hx => (h3 x).mp hx⟩⟩

theorem intersectionInner_append (a : IOTrace) (others : List IOTrace) :
    ∀ st : List IOTrace × Bool, ∃ l, (intersectionInner a others st).1 = st.1 ++ l := by
  induction others with
  | nil => intro st; exact ⟨[], by simp [intersectionInner]⟩
  | cons b bs ih =>
    intro st
    unfold intersectionInner at ih ⊢
    rw [List.foldl_cons]
    by_cases hab : a = b
    · obtain ⟨l, hl⟩ := ih (st.1 ++ [a], true)
      refine ⟨[a] ++ l, ?_⟩
      simp only [hab, if_true] at hl ⊢
      rw [hl]; simp
    · simp only [hab, if_false]
      exact ih st

theorem intersectionOuter_append (others : List IOTrace) (these : List IOTrace) :
    ∀ st : List IOTrace × Bool, ∃ l, (intersectionOuter these others st).1 = st.1 ++ l := by
  induction these with
  | nil => intro st; exact ⟨[], by simp [intersectionOuter]⟩
  | cons a as ih =>
    intro st
    unfold intersectionOuter at ih ⊢
    rw [List.foldl_cons]
    by_cases hs : st.2 = true
    · simp only [hs, if_true]
      exact ih (st.1, false)
    · simp only [hs, Bool.false_eq_true, if_false]
      obtain ⟨l1, hl1⟩ := intersectionInner_append a others st
      obtain ⟨l2, hl2⟩ := ih (intersectionInner a others st)
      exact ⟨l1 ++ l2, by rw [hl2, hl1, List.append_assoc]⟩

theorem intersectionInner_no_match (a : IOTrace) (others : List IOTrace)
    (st : List IOTrace × Bool) (h : ∀ b ∈ others, a ≠ b) :
    intersectionInner a others st = st := by
  induction others with
  | nil => rfl
  | cons b bs ih =>
    unfold intersectionInner at ih ⊢
    rw [List.foldl_cons]
    have hab : a ≠ b := h b (List.mem_cons_self _ _)
    simp only [hab, if_false]
    exact ih (fun c hc => h c (List.mem_cons_of_mem _ hc))

theorem intersectionInner_match (a : IOTrace) (others : List IOTrace)
    (st : List IOTrace × Bool) (h : a ∈ others) :
    (intersectionInner a others st).1 ≠ [] := by
  induction others generalizing st with
  | nil => exact absurd h (List.not_mem_nil _)
  | cons b bs ih =>
    by_cases hab : a = b
    · obtain ⟨l, hl⟩ := intersectionInner_append a bs (st.1 ++ [a], true)
      have : intersectionInner a (b :: bs) st = intersectionInner a bs (st.1 ++ [a], true) := by
        simp [intersectionInner, hab]
      rw [this, hl]
      simp
    · have : intersectionInner a (b :: bs) st = intersectionInner a bs st := by
        simp [intersectionInner, hab]
      rw [this]
      rcases List.mem_cons.mp h with h1 | h1
      · exact absurd h1 hab
      · exact ih st h1

theorem intersectionOuter_nil_iff (these others : List IOTrace) :
    (intersectionOuter these others ([], false)).1 = [] ↔ ∀ a ∈ these, ∀ b ∈ others, a ≠ b := by
  induction these with
  | nil => simp [intersectionOuter]
  | cons a as ih =>
    have hstep : intersectionOuter (a :: as) others ([], false)
        = intersectionOuter as others (intersectionInner a others ([], false)) := by
      simp [intersectionOuter]
    rw [hstep]
    by_cases hmem : a ∈ others
    · have hne := intersectionInner_match a others ([], false) hmem
      obtain ⟨l, hl⟩ := intersectionOuter_append others as (intersectionInner a others ([], false))
      constructor
      · intro h0
        rw [hl] at h0
        exact absurd (List.append_eq_nil.mp h0).1 hne
      · intro hall
        exact absurd rfl (hall a (List.mem_cons_self _ _) a hmem)
    · have hno : ∀ b ∈ others, a ≠ b := fun b hb hab => hmem (hab ▸ hb)
      rw [intersectionInner_no_match a others _ hno, ih]
      constructor
      · intro hall c hc
        rcases List.mem_cons.mp hc with h1 | h1
        · subst h1; exact hno
        · exact hall c h1
      · intro hall c hc
        exact hall c (List.mem_cons_of_mem _ hc)

/-- C7: `distinguished` holds exactly when the sets of output traces of the two
output trees differ; the result of the tree comparison depends only on the
input traces and on these sets, not on the order or the number of repetitions
of the output traces. -/
theorem distinguished_iff_output_sets_differ (lt : List Int → List Int → Bool)
    (h : StrictTotal lt) (fsm : Fsm) (p q : Nat) (s : List Int) :
    (FsmNode.distinguished lt fsm p q s = true ↔
      (FsmNode.apply fsm p s).getOutputTraces.toFinset
        ≠ (FsmNode.apply fsm q s).getOutputTraces.toFinset) ∧
    (∀ t1 u1 t2 u2 : OutputTree,
      t1.inputTrace = t2.inputTrace → u1.inputTrace = u2.inputTrace →
      t1.getOutputTraces.toFinset = t2.getOutputTraces.toFinset →
      u1.getOutputTraces.toFinset = u2.getOutputTraces.toFinset →
      OutputTree.eq lt t1 u1 = OutputTree.eq lt t2 u2) := by
  constructor
  · unfold FsmNode.distinguished
    rw [Bool.not_eq_true', ← Bool.not_eq_true, outputTree_eq_iff h,
      apply_inputTrace, apply_inputTrace]
    simp
  · intro t1 u1 t2 u2 h1 h2 h3 h4
    rw [Bool.eq_iff_iff, outputTree_eq_iff h, outputTree_eq_iff h, h1, h2, h3, h4]

/-- Witness of C7 on the two-state machine of the spec with the lexicographic
comparison. -/
theorem distinguished_iff_output_sets_differ_witness :
    StrictTotal lexLt ∧
    ((FsmNode.distinguished lexLt specFsm 0 1 [0] = true ↔
      (FsmNode.apply specFsm 0 [0]).getOutputTraces.toFinset
        ≠ (FsmNode.apply specFsm 1 [0]).getOutputTraces.toFinset) ∧
    (∀ t1 u1 t2 u2 : OutputTree,
      t1.inputTrace = t2.inputTrace → u1.inputTrace = u2.inputTrace →
      t1.getOutputTraces.toFinset = t2.getOutputTraces.toFinset →
      u1.getOutputTraces.toFinset = u2.getOutputTraces.toFinset →
      OutputTree.eq lexLt t1 u1 = OutputTree.eq lexLt t2 u2)) :=
  ⟨strictTotal_lexLt, distinguished_iff_output_sets_differ lexLt strictTotal_lexLt specFsm 0 1 [0]⟩

/-- C8: for a non-empty input sequence `rDistinguished` holds exactly when no IO
trace of the first node's output tree equals an IO trace of the other node's
output tree. -/
theorem rDistinguished_iff_disjoint (fsm : Fsm) (p q : Nat) (s : List Int) (hs : s ≠ []) :
    FsmNode.rDistinguished fsm p q s = true ↔
      ∀ a ∈ (FsmNode.apply fsm p s).toIOTrace, ∀ b ∈ (FsmNode.apply fsm q s).toIOTrace,
        a ≠ b := by
  have hlen : ¬ s.length < 1 := by
    cases s with
    | nil => exact absurd rfl hs
    | cons x xs => simp
  unfold FsmNode.rDistinguished OutputTree.getOutputsIntersection
  simp only [hlen, if_false, decide_eq_true_eq, List.length_eq_zero]
  exact intersectionOuter_nil_iff _ _

/-- Witness of C8 on the two-state machine of the spec and the input
sequence `[0]`. -/
theorem rDistinguished_iff_disjoint_witness :
    ([0] : List Int) ≠ [] ∧
    (FsmNode.rDistinguished specFsm 0 1 [0] = true ↔
      ∀ a ∈ (FsmNode.apply specFsm 0 [0]).toIOTrace,
        ∀ b ∈ (FsmNode.apply specFsm 1 [0]).toIOTrace, a ≠ b) :=
  ⟨by decide, rDistinguished_iff_disjoint specFsm 0 1 [0] (by decide)⟩

/-- C9: with the empty input sequence `rDistinguished` is false for every pair of
nodes. -/
theorem rDistinguished_nil (fsm : Fsm) (p q : Nat) :
    FsmNode.rDistinguished fsm p q [] = false := by
  simp [FsmNode.rDistinguished]

/-- C10 (failing input): for the node with the transitions `0/0` and `0/1` and
the input trace `[0]` both trees list the IO traces `([0],[0])` and
`([0],[1])`, but the intersection of the tree with itself holds only the first:
after the match of `([0],[0])` the next trace of this tree is passed over. -/
theorem getOutputsIntersection_drops_common_trace :
    (FsmNode.apply twoOutputsFsm 0 [0]).toIOTrace = [⟨[0], [0]⟩, ⟨[0], [1]⟩] ∧
    (FsmNode.apply twoOutputsFsm 0 [0]).getOutputsIntersection
      (FsmNode.apply twoOutputsFsm 0 [0]) = [⟨[0], [0]⟩] := by
  constructor <;> rfl

/-! ## The output tree of `apply`, unfolded -/

theorem mem_symbolRange (m x : Int) : x ∈ symbolRange m ↔ 0 ≤ x ∧ x ≤ m := by
  unfold symbolRange
  rw [List.mem_map]
  constructor
  · rintro ⟨n, hn, rfl⟩
    rw [List.mem_range, Int.lt_toNat] at hn
    simp only [Int.ofNat_eq_coe]
    omega
  · rintro ⟨h0, hm⟩
    refine ⟨x.toNat, ?_, ?_⟩
    · rw [List.mem_range, Int.lt_toNat, Int.toNat_of_nonneg h0]
      omega
    · simp only [Int.ofNat_eq_coe]
      exact Int.toNat_of_nonneg h0

theorem expandEdges_eq_map (fsm : Fsm) (x : Int) (cs : List (Int × TreeNode)) :
    TreeNode.expandEdges fsm x cs = cs.map (fun e => (e.1, e.2.expandLeaves fsm x)) := by
  induction cs with
  | nil => simp [TreeNode.expandEdges]
  | cons c cs ih =>
    obtain ⟨y, t⟩ := c
    simp [TreeNode.expandEdges, ih]

theorem getIOListsEdges_eq_flatMap (cs : List (Int × TreeNode)) :
    TreeNode.getIOListsEdges cs
      = cs.flatMap (fun e => e.2.getIOLists.map (fun p => e.1 :: p)) := by
  induction cs with
  | nil => simp [TreeNode.getIOListsEdges]
  | cons c cs ih =>
    obtain ⟨y, t⟩ := c
    simp [TreeNode.getIOListsEdges, ih]

theorem getIOLists_of_children (st : Nat) (cs : List (Int × TreeNode)) (h : cs ≠ []) :
    (TreeNode.mk st cs).getIOLists
      = cs.flatMap (fun e => e.2.getIOLists.map (fun p => e.1 :: p)) := by
  cases cs with
  | nil => exact absurd rfl h
  | cons c cs => rw [TreeNode.getIOLists, getIOListsEdges_eq_flatMap]

theorem expandLeaves_of_children (fsm : Fsm) (x : Int) (st : Nat)
    (cs : List (Int × TreeNode)) (h : cs ≠ []) :
    (TreeNode.mk st cs).expandLeaves fsm x
      = TreeNode.mk st (cs.map (fun e => (e.1, e.2.expandLeaves fsm x))) := by
  cases cs with
  | nil => exact absurd rfl h
  | cons c cs => rw [TreeNode.expandLeaves, expandEdges_eq_map]

theorem foldl_expandLeaves_of_children (fsm : Fsm) (s : List Int) :
    ∀ (st : Nat) (cs : List (Int × TreeNode)), cs ≠ [] →
      s.foldl (fun t x => t.expandLeaves fsm x) (TreeNode.mk st cs)
        = TreeNode.mk st
            (cs.map (fun e => (e.1, s.foldl (fun t x => t.expandLeaves fsm x) e.2))) := by
  induction s with
  | nil => intro st cs _; simp
  | cons x xs ih =>
    intro st cs h
    rw [List.foldl_cons, expandLeaves_of_children fsm x st cs h, ih st _ (by simpa using h)]
    simp [List.map_map, Function.comp_def]

theorem getIOLists_foldl_expandLeaves (fsm : Fsm) (s : List Int) :
    ∀ p : Nat,
      (s.foldl (fun t x => t.expandLeaves fsm x) (TreeNode.mk p [])).getIOLists
        = outputsOf fsm p s := by
  induction s with
  | nil => intro p; simp [TreeNode.getIOLists, outputsOf]
  | cons x xs ih =>
    intro p
    rw [List.foldl_cons, outputsOf]
    by_cases hempty : FsmNode.transitionsOn fsm p x = []
    · have hexp : (TreeNode.mk p []).expandLeaves fsm x = TreeNode.mk p [] := by
        unfold FsmNode.transitionsOn at hempty
        simp [TreeNode.expandLeaves, hempty]
      rw [hexp, ih p, if_pos hempty]
    · rw [if_neg hempty]
      have hexp : (TreeNode.mk p []).expandLeaves fsm x
          = TreeNode.mk p ((FsmNode.transitionsOn fsm p x).map
              (fun tr => (tr.label.output, TreeNode.mk tr.target []))) := by
        simp [TreeNode.expandLeaves, FsmNode.transitionsOn]
      rw [hexp, foldl_expandLeaves_of_children fsm xs p _ (by simpa using hempty),
        getIOLists_of_children _ _ (by simpa using hempty)]
      simp only [List.map_map, List.flatMap_map, Function.comp_def, ih]

theorem getOutputTraces_apply (fsm : Fsm) (p : Nat) (s : List Int) :
    (FsmNode.apply fsm p s).getOutputTraces = outputsOf fsm p s := by
  unfold FsmNode.apply OutputTree.getOutputTraces
  split
  · rename_i h
    have : s = [] := List.length_eq_zero.mp h
    subst this
    simp [TreeNode.getIOLists, outputsOf]
  · exact getIOLists_foldl_expandLeaves fsm s p

/-! ## Deterministic runs -/

theorem find?_eq_head?_transitionsOn (fsm : Fsm) (n : Nat) (x : Int) :
    (fsm n).transitions.find? (fun tr => tr.label.input = x)
      = (FsmNode.transitionsOn fsm n x).head? := by
  unfold FsmNode.transitionsOn
  induction (fsm n).transitions with
  | nil => rfl
  | cons tr trs ih =>
    by_cases h : tr.label.input = x
    · rw [List.find?_cons_of_pos _ (by simpa using h), List.filter_cons_of_pos (by simpa using h)]
      rfl
    · rw [List.find?_cons_of_neg _ (by simpa using h), List.filter_cons_of_neg (by simpa using h)]
      exact ih

theorem outputsOf_eq_runOutputs (fsm : Fsm) (s : List Int) :
    ∀ p : Nat, (∀ n, ∀ x ∈ s, (FsmNode.transitionsOn fsm n x).length ≤ 1) →
      outputsOf fsm p s = [runOutputs fsm p s] := by
  induction s with
  | nil => intro p _; rfl
  | cons x t ih =>
    intro p hdet
    have hdet' : ∀ n, ∀ y ∈ t, (FsmNode.transitionsOn fsm n y).length ≤ 1 :=
      fun n y hy => hdet n y (List.mem_cons_of_mem _ hy)
    have hx := hdet p x (List.mem_cons_self _ _)
    rw [outputsOf, runOutputs, find?_eq_head?_transitionsOn]
    cases htr : FsmNode.transitionsOn fsm p x with
    | nil => simp [ih p hdet']
    | cons tr rest =>
      cases rest with
      | nil => simp [ih tr.target hdet']
      | cons tr2 rest2 => rw [htr] at hx; simp at hx

theorem distinguished_eq_true_iff {lt : List Int → List Int → Bool} (h : StrictTotal lt)
    (fsm : Fsm) (p q : Nat) (s : List Int) :
    FsmNode.distinguished lt fsm p q s = true ↔
      (outputsOf fsm p s).toFinset ≠ (outputsOf fsm q s).toFinset := by
  unfold FsmNode.distinguished
  rw [Bool.not_eq_true', ← Bool.not_eq_true, outputTree_eq_iff h,
    apply_inputTrace, apply_inputTrace, getOutputTraces_apply, getOutputTraces_apply]
  simp

theorem distinguished_iff_runOutputs_ne {lt : List Int → List Int → Bool} (h : StrictTotal lt)
    (fsm : Fsm) (p q : Nat) (s : List Int)
    (hdet : ∀ n, ∀ x ∈ s, (FsmNode.transitionsOn fsm n x).length ≤ 1) :
    FsmNode.distinguished lt fsm p q s = true ↔ runOutputs fsm p s ≠ runOutputs fsm q s := by
  rw [distinguished_eq_true_iff h, outputsOf_eq_runOutputs fsm s p hdet,
    outputsOf_eq_runOutputs fsm s q hdet]
  simp

theorem not_epsilon_of_mem_symbolRange {m x : Int} (h : x ∈ symbolRange m) : x ≠ EPSILON := by
  rw [mem_symbolRange] at h
  unfold EPSILON
  omega

theorem complete_step {fsm : Fsm} {maxInput : Int} (hcs : CompletelySpecified fsm maxInput)
    (n : Nat) {x : Int} (hx : x ∈ symbolRange maxInput) :
    ∃ tr, FsmNode.transitionsOn fsm n x = [tr] ∧
      (fsm n).transitions.find? (fun tr => tr.label.input = x) = some tr ∧
      FsmNode.after fsm n x = [tr.target] ∧
      FsmNode.applyInput fsm n x [] = (some tr.target, [tr.label.output]) := by
  have hlen := hcs n x hx
  obtain ⟨tr, htr⟩ := List.length_eq_one.mp hlen
  have hfind : (fsm n).transitions.find? (fun tr => tr.label.input = x) = some tr := by
    rw [find?_eq_head?_transitionsOn, htr]; rfl
  refine ⟨tr, htr, hfind, ?_, ?_⟩
  · unfold FsmNode.after
    rw [if_neg (not_epsilon_of_mem_symbolRange hx)]
    unfold FsmNode.transitionsOn at htr
    rw [htr]; rfl
  · unfold FsmNode.applyInput
    rw [hfind]; rfl

theorem runOutputs_cons_of_step {fsm : Fsm} {n : Nat} {x : Int} {tr : FsmTransition}
    (h : (fsm n).transitions.find? (fun tr => tr.label.input = x) = some tr) (t : List Int) :
    runOutputs fsm n (x :: t) = tr.label.output :: runOutputs fsm tr.target t := by
  rw [runOutputs, h]

/-! ## The Pk-table variant: level search and input searches -/

theorem pkLevelFrom_le (ts : List PkTable) (a b : Int) :
    ∀ l0 : Nat, l0 ≤ pkLevelFrom ts l0 a b ∧ pkLevelFrom ts l0 a b ≤ l0 + ts.length := by
  induction ts with
  | nil => intro l0; simp [pkLevelFrom]
  | cons pk rest ih =>
    intro l0
    unfold pkLevelFrom
    split
    · simp
    · have := ih (l0 + 1)
      simp only [List.length_cons]
      omega

theorem pkLevelFrom_spec (ts : List PkTable) (a b : Int) :
    ∀ l0 : Nat, (∃ pk ∈ ts, pk.getClass a ≠ pk.getClass b) →
      ∃ i pk, pkLevelFrom ts l0 a b = l0 + i ∧ ts[i]? = some pk ∧
        pk.getClass a ≠ pk.getClass b ∧
        ∀ j pk', j < i → ts[j]? = some pk' → pk'.getClass a = pk'.getClass b := by
  induction ts with
  | nil => intro l0 h; obtain ⟨pk, hpk, _⟩ := h; exact absurd hpk (List.not_mem_nil _)
  | cons pk rest ih =>
    intro l0 h
    by_cases hd : pk.getClass a ≠ pk.getClass b
    · refine ⟨0, pk, ?_, by simp, hd, ?_⟩
      · simp [pkLevelFrom, hd]
      · intro j pk' hj; exact absurd hj (Nat.not_lt_zero _)
    · have hrest : ∃ pk' ∈ rest, pk'.getClass a ≠ pk'.getClass b := by
        obtain ⟨pk', hmem, hne⟩ := h
        rcases List.mem_cons.mp hmem with h1 | h1
        · subst h1; exact absurd hne hd
        · exact ⟨pk', h1, hne⟩
      obtain ⟨i, pki, hl, hget, hne, hbefore⟩ := ih (l0 + 1) hrest
      refine ⟨i + 1, pki, ?_, by simpa using hget, hne, ?_⟩
      · rw [pkLevelFrom, if_neg hd, hl]; omega
      · intro j pk' hj hgetj
        cases j with
        | zero =>
          simp only [List.getElem?_cons_zero, Option.some.injEq] at hgetj
          subst hgetj
          exact not_not.mp hd
        | succ j =>
          exact hbefore j pk' (by omega) (by simpa using hgetj)

theorem pkSearchNext_found {fsm : Fsm} {maxInput : Int}
    (hcs : CompletelySpecified fsm maxInput) (pl : PkTable) (qi qj : Nat) :
    ∀ xs : List Int, (∀ x ∈ xs, x ∈ symbolRange maxInput) →
      (∃ x ∈ xs, (FsmNode.after fsm qi x).map (fun n => pl.getClass (fsm n).id)
          ≠ (FsmNode.after fsm qj x).map (fun n => pl.getClass (fsm n).id)) →
      ∃ x a b, pkSearchNext fsm pl qi qj xs = .ok (some (x, a, b)) ∧ x ∈ xs ∧
        FsmNode.after fsm qi x = [a] ∧ FsmNode.after fsm qj x = [b] ∧
        pl.getClass (fsm a).id ≠ pl.getClass (fsm b).id := by
  intro xs
  induction xs with
  | nil => intro _ h; obtain ⟨x, hx, _⟩ := h; exact absurd hx (List.not_mem_nil _)
  | cons x xs ih =>
    intro hrange hex
    obtain ⟨tri, _, _, hai, _⟩ := complete_step hcs qi (hrange x (List.mem_cons_self _ _))
    obtain ⟨trj, _, _, haj, _⟩ := complete_step hcs qj (hrange x (List.mem_cons_self _ _))
    by_cases hd : pl.getClass (fsm tri.target).id ≠ pl.getClass (fsm trj.target).id
    · refine ⟨x, tri.target, trj.target, ?_, List.mem_cons_self _ _, hai, haj, hd⟩
      simp [pkSearchNext, hai, haj, hd]
    · have hd' := not_not.mp hd
      have hex' : ∃ x' ∈ xs, (FsmNode.after fsm qi x').map (fun n => pl.getClass (fsm n).id)
          ≠ (FsmNode.after fsm qj x').map (fun n => pl.getClass (fsm n).id) := by
        obtain ⟨x', hx', hne⟩ := hex
        rcases List.mem_cons.mp hx' with h1 | h1
        · subst h1
          rw [hai, haj] at hne
          simp [hd'] at hne
        · exact ⟨x', h1, hne⟩
      obtain ⟨x', a, b, hs, hmem, h1, h2, h3⟩ :=
        ih (fun y hy => hrange y (List.mem_cons_of_mem _ hy)) hex'
      refine ⟨x', a, b, ?_, List.mem_cons_of_mem _ hmem, h1, h2, h3⟩
      simp [pkSearchNext, hai, haj, hd', hs]

theorem pkSearchNext_total {fsm : Fsm} {maxInput : Int}
    (hcs : CompletelySpecified fsm maxInput) (pl : PkTable) (qi qj : Nat) :
    ∀ xs : List Int, (∀ x ∈ xs, x ∈ symbolRange maxInput) →
      ∃ r, pkSearchNext fsm pl qi qj xs = .ok r := by
  intro xs
  induction xs with
  | nil => intro _; exact ⟨none, rfl⟩
  | cons x xs ih =>
    intro hrange
    obtain ⟨tri, _, _, hai, _⟩ := complete_step hcs qi (hrange x (List.mem_cons_self _ _))
    obtain ⟨trj, _, _, haj, _⟩ := complete_step hcs qj (hrange x (List.mem_cons_self _ _))
    obtain ⟨r, hr⟩ := ih (fun y hy => hrange y (List.mem_cons_of_mem _ hy))
    by_cases hd : pl.getClass (fsm tri.target).id ≠ pl.getClass (fsm trj.target).id
    · exact ⟨some (x, tri.target, trj.target), by simp [pkSearchNext, hai, haj, hd]⟩
    · exact ⟨r, by simp [pkSearchNext, hai, haj, not_not.mp hd, hr]⟩

theorem pkSearchLast_found {fsm : Fsm} {maxInput : Int}
    (hcs : CompletelySpecified fsm maxInput) (qi qj : Nat) :
    ∀ xs : List Int, (∀ x ∈ xs, x ∈ symbolRange maxInput) →
      (∃ x ∈ xs, (FsmNode.applyInput fsm qi x []).2 ≠ (FsmNode.applyInput fsm qj x []).2) →
      ∃ x, pkSearchLast fsm qi qj xs = .ok (some x) ∧ x ∈ xs ∧
        (FsmNode.applyInput fsm qi x []).2 ≠ (FsmNode.applyInput fsm qj x []).2 := by
  intro xs
  induction xs with
  | nil => intro _ h; obtain ⟨x, hx, _⟩ := h; exact absurd hx (List.not_mem_nil _)
  | cons x xs ih =>
    intro hrange hex
    obtain ⟨tri, _, _, _, hai⟩ := complete_step hcs qi (hrange x (List.mem_cons_self _ _))
    obtain ⟨trj, _, _, _, haj⟩ := complete_step hcs qj (hrange x (List.mem_cons_self _ _))
    by_cases hd : tri.label.output ≠ trj.label.output
    · refine ⟨x, ?_, List.mem_cons_self _ _, ?_⟩
      · simp [pkSearchLast, hai, haj, hd]
      · rw [hai, haj]; simpa using hd
    · have hd' := not_not.mp hd
      have hex' : ∃ x' ∈ xs,
          (FsmNode.applyInput fsm qi x' []).2 ≠ (FsmNode.applyInput fsm qj x' []).2 := by
        obtain ⟨x', hx', hne⟩ := hex
        rcases List.mem_cons.mp hx' with h1 | h1
        · subst h1
          rw [hai, haj] at hne
          simp [hd'] at hne
        · exact ⟨x', h1, hne⟩
      obtain ⟨x', hs, hmem, hne⟩ := ih (fun y hy => hrange y (List.mem_cons_of_mem _ hy)) hex'
      refine ⟨x', ?_, List.mem_cons_of_mem _ hmem, hne⟩
      simp [pkSearchLast, hai, haj, hd', hs]

theorem pkSearchLast_total {fsm : Fsm} {maxInput : Int}
    (hcs : CompletelySpecified fsm maxInput) (qi qj : Nat) :
    ∀ xs : List Int, (∀ x ∈ xs, x ∈ symbolRange maxInput) →
      ∃ r, pkSearchLast fsm qi qj xs = .ok r := by
  intro xs
  induction xs with
  | nil => intro _; exact ⟨none, rfl⟩
  | cons x xs ih =>
    intro hrange
    obtain ⟨tri, _, _, _, hai⟩ := complete_step hcs qi (hrange x (List.mem_cons_self _ _))
    obtain ⟨trj, _, _, _, haj⟩ := complete_step hcs qj (hrange x (List.mem_cons_self _ _))
    obtain ⟨r, hr⟩ := ih (fun y hy => hrange y (List.mem_cons_of_mem _ hy))
    by_cases hd : tri.label.output ≠ trj.label.output
    · exact ⟨some x, by simp [pkSearchLast, hai, haj, hd]⟩
    · exact ⟨r, by simp [pkSearchLast, hai, haj, not_not.mp hd, hr]⟩

/-! ## The Pk-table variant: the walk down the chain -/

theorem pkWalkDown_distinguishes {fsm : Fsm} {maxInput : Int} {tables : List PkTable}
    (hcs : CompletelySpecified fsm maxInput) (hch : PkChain fsm maxInput tables) :
    ∀ (n : Nat) (s : PkState) (pk : PkTable), tables[n]? = some pk →
      pk.getClass (fsm s.qi).id ≠ pk.getClass (fsm s.qj).id →
      (∀ m pk', n = m + 1 → tables[m]? = some pk' →
        pk'.getClass (fsm s.qi).id = pk'.getClass (fsm s.qj).id) →
      ∃ s' x w, pkWalkDown fsm tables maxInput n s = .ok s' ∧
        pkSearchLast fsm s'.qi s'.qj (symbolRange maxInput) = .ok (some x) ∧
        s'.cerr = s.cerr ∧ s'.itrc ++ [x] = s.itrc ++ w ∧ w.length = n + 1 ∧
        (∀ y ∈ w, y ∈ symbolRange maxInput) ∧
        runOutputs fsm s.qi w ≠ runOutputs fsm s.qj w := by
  intro n
  induction n with
  | zero =>
    intro s pk hget hdiff _
    have hex : ∃ x ∈ symbolRange maxInput,
        (FsmNode.applyInput fsm s.qi x []).2 ≠ (FsmNode.applyInput fsm s.qj x []).2 := by
      by_contra hno
      push_neg at hno
      exact hdiff ((hch.1 pk hget s.qi s.qj).mpr hno)
    obtain ⟨x, hsearch, hx, hne⟩ := pkSearchLast_found hcs s.qi s.qj _ (fun _ h => h) hex
    obtain ⟨tri, _, hfi, _, hai⟩ := complete_step hcs s.qi hx
    obtain ⟨trj, _, hfj, _, haj⟩ := complete_step hcs s.qj hx
    refine ⟨s, x, [x], rfl, hsearch, rfl, rfl, rfl, ?_, ?_⟩
    · intro y hy
      rw [List.mem_singleton] at hy
      subst hy; exact hx
    · rw [runOutputs_cons_of_step hfi, runOutputs_cons_of_step hfj]
      rw [hai, haj] at hne
      intro heq
      apply hne
      simp only [List.cons.injEq] at heq
      simp [heq.1]
  | succ n ih =>
    intro s pk hget hdiff hagree
    have hlt : n + 1 < tables.length := (List.getElem?_eq_some.mp hget).1
    have hgetn : tables[n]? = some (tables[n]) := List.getElem?_eq_getElem (by omega)
    have hsame := hagree n _ rfl hgetn
    have hex : ∃ x ∈ symbolRange maxInput,
        (FsmNode.after fsm s.qi x).map (fun m => (tables[n]).getClass (fsm m).id)
          ≠ (FsmNode.after fsm s.qj x).map (fun m => (tables[n]).getClass (fsm m).id) := by
      by_contra hno
      push_neg at hno
      exact hdiff ((hch.2 n _ pk hgetn hget s.qi s.qj).mpr ⟨hsame, hno⟩)
    obtain ⟨x, a, b, hsearch, hx, hai, haj, hab⟩ :=
      pkSearchNext_found hcs (tables[n]) s.qi s.qj _ (fun _ h => h) hex
    obtain ⟨tri, _, hfi, hai', _⟩ := complete_step hcs s.qi hx
    obtain ⟨trj, _, hfj, haj', _⟩ := complete_step hcs s.qj hx
    have hta : tri.target = a := by
      rw [hai] at hai'; simpa using hai'.symm
    have htb : trj.target = b := by
      rw [haj] at haj'; simpa using haj'.symm
    have hagree' : ∀ m pk', n = m + 1 → tables[m]? = some pk' →
        pk'.getClass (fsm a).id = pk'.getClass (fsm b).id := by
      intro m pk' hm hgetm
      subst hm
      have h2 := ((hch.2 m pk' _ hgetm hgetn s.qi s.qj).mp hsame).2 x hx
      rw [hai, haj] at h2
      simpa using h2
    obtain ⟨s', x', w', hwalk, hlast, hcerr, hitrc, hlen, hrange, hrun⟩ :=
      ih ⟨a, b, s.itrc ++ [x], s.cerr⟩ (tables[n]) hgetn hab hagree'
    refine ⟨s', x', x :: w', ?_, hlast, hcerr, ?_, by simp [hlen], ?_, ?_⟩
    · rw [pkWalkDown, hgetn]
      simp only [hsearch]
      exact hwalk
    · rw [hitrc]; simp
    · intro y hy
      rcases List.mem_cons.mp hy with h1 | h1
      · subst h1; exact hx
      · exact hrange y h1
    · rw [runOutputs_cons_of_step hfi, runOutputs_cons_of_step hfj, hta, htb]
      intro heq
      simp only [List.cons.injEq] at heq
      exact hrun heq.2

theorem pkWalkDown_total {fsm : Fsm} {maxInput : Int} (tables : List PkTable)
    (hcs : CompletelySpecified fsm maxInput) :
    ∀ (n : Nat) (s : PkState), n ≤ tables.length →
      ∃ s', pkWalkDown fsm tables maxInput n s = .ok s' ∧
        s'.itrc.length + s'.cerr.length = s.itrc.length + s.cerr.length + n := by
  intro n
  induction n with
  | zero => intro s _; exact ⟨s, rfl, rfl⟩
  | succ n ih =>
    intro s hn
    have hgetn : tables[n]? = some (tables[n]) := List.getElem?_eq_getElem (by omega)
    obtain ⟨r, hr⟩ := pkSearchNext_total hcs (tables[n]) s.qi s.qj _ (fun _ h => h)
    rw [pkWalkDown, hgetn]
    simp only [hr]
    cases r with
    | none =>
      obtain ⟨s', hs', hcount⟩ :=
        ih ⟨s.qi, s.qj, s.itrc, s.cerr ++ [Diagnostic.inconsistency1]⟩ (by omega)
      refine ⟨s', hs', ?_⟩
      simp only [List.length_append, List.length_singleton] at hcount
      omega
    | some v =>
      obtain ⟨x, a, b⟩ := v
      obtain ⟨s', hs', hcount⟩ := ih ⟨a, b, s.itrc ++ [x], s.cerr⟩ (by omega)
      refine ⟨s', hs', ?_⟩
      simp only [List.length_append, List.length_singleton] at hcount
      omega

theorem calcDistinguishingTrace_run {fsm : Fsm} {maxInput : Int} {tables : List PkTable}
    (hcs : CompletelySpecified fsm maxInput) (hch : PkChain fsm maxInput tables) (p q : Nat)
    (hd : ∃ pk ∈ tables, pk.getClass (fsm p).id ≠ pk.getClass (fsm q).id) :
    ∃ w, FsmNode.calcDistinguishingTrace fsm p q tables maxInput = .ok ⟨w, []⟩ ∧
      w.length = pkLevelFrom tables 1 (fsm p).id (fsm q).id ∧
      (∀ y ∈ w, y ∈ symbolRange maxInput) ∧
      runOutputs fsm p w ≠ runOutputs fsm q w := by
  obtain ⟨i, pk, hl, hget, hne, hbefore⟩ := pkLevelFrom_spec tables _ _ 1 hd
  obtain ⟨s', x, w, hwalk, hlast, hcerr, hitrc, hlen, hrange, hrun⟩ :=
    pkWalkDown_distinguishes hcs hch i ⟨p, q, [], []⟩ pk hget hne
      (fun m pk' hm hgetm => hbefore m pk' (by omega) hgetm)
  refine ⟨w, ?_, by rw [hl, hlen]; omega, hrange, hrun⟩
  unfold FsmNode.calcDistinguishingTrace
  simp only [hl, Nat.add_sub_cancel_left, hwalk, hlast]
  simp only [List.nil_append] at hitrc
  simp only at hcerr
  rw [hitrc, hcerr]

theorem transitionsOn_le_one_of_range {fsm : Fsm} {maxInput : Int}
    (hcs : CompletelySpecified fsm maxInput) {w : List Int}
    (hw : ∀ y ∈ w, y ∈ symbolRange maxInput) :
    ∀ n, ∀ x ∈ w, (FsmNode.transitionsOn fsm n x).length ≤ 1 :=
  fun n x hx => le_of_eq (hcs n x (hw x hx))

theorem chainFsm_ge_two (n : Nat) : chainFsm (n + 1 + 1) = chainFsm 2 := rfl

theorem symbolRange_one : symbolRange 1 = [0, 1] := rfl

theorem completelySpecified_chainFsm : CompletelySpecified chainFsm 1 := by
  intro n
  rcases n with _ | _ | n <;> simp only [FsmNode.transitionsOn, chainFsm_ge_two] <;> decide

theorem after_eq_of_mem_symbolRange (fsm : Fsm) (n : Nat) {m x : Int}
    (hx : x ∈ symbolRange m) :
    FsmNode.after fsm n x = (FsmNode.transitionsOn fsm n x).map (fun tr => tr.target) := by
  unfold FsmNode.after FsmNode.transitionsOn
  rw [if_neg (not_epsilon_of_mem_symbolRange hx)]

theorem pkChain_chainFsm : PkChain chainFsm 1 [chainP1, chainP2] := by
  constructor
  · intro pk hpk p q
    simp only [List.getElem?_cons_zero, Option.some.injEq] at hpk
    subst hpk
    rcases p with _ | _ | p <;> rcases q with _ | _ | q <;>
      simp only [FsmNode.applyInput, chainFsm_ge_two] <;> decide
  · intro k pk pk' hpk hpk' p q
    cases k with
    | zero =>
      simp only [List.getElem?_cons_zero, Option.some.injEq] at hpk
      simp at hpk'
      subst hpk; subst hpk'
      have hafter : ∀ n, ∀ x ∈ symbolRange 1,
          FsmNode.after chainFsm n x
            = (FsmNode.transitionsOn chainFsm n x).map (fun tr => tr.target) :=
        fun n x hx => after_eq_of_mem_symbolRange chainFsm n hx
      have hiff : ∀ a b : Nat,
          (∀ x ∈ symbolRange 1,
            (FsmNode.after chainFsm a x).map (fun n => chainP1.getClass (chainFsm n).id)
              = (FsmNode.after chainFsm b x).map (fun n => chainP1.getClass (chainFsm n).id)) ↔
          (∀ x ∈ symbolRange 1,
            ((FsmNode.transitionsOn chainFsm a x).map (fun tr => tr.target)).map
                (fun n => chainP1.getClass (chainFsm n).id)
              = ((FsmNode.transitionsOn chainFsm b x).map (fun tr => tr.target)).map
                (fun n => chainP1.getClass (chainFsm n).id)) := by
        intro a b
        constructor
        · intro h x hx; rw [← hafter a x hx, ← hafter b x hx]; exact h x hx
        · intro h x hx; rw [hafter a x hx, hafter b x hx]; exact h x hx
      rw [hiff]
      rcases p with _ | _ | p <;> rcases q with _ | _ | q <;>
        simp only [FsmNode.transitionsOn, chainFsm_ge_two] <;> decide
    | succ k => simp at hpk'

/-! ## The Pk-table variant: the last step -/

theorem applyInput_of_hasTransition {fsm : Fsm} {n : Nat} {x : Int}
    (h : FsmNode.hasTransition fsm n x = true) :
    ∃ tr : FsmTransition,
      FsmNode.applyInput fsm n x [] = (some tr.target, [tr.label.output]) := by
  unfold FsmNode.hasTransition at h
  rw [List.any_eq_true] at h
  obtain ⟨tr0, hmem, hin⟩ := h
  cases hf : (fsm n).transitions.find? (fun tr => tr.label.input = x) with
  | none =>
    rw [List.find?_eq_none] at hf
    exact absurd hin (hf tr0 hmem)
  | some tr =>
    refine ⟨tr, ?_⟩
    unfold FsmNode.applyInput
    rw [hf]; rfl

theorem pkSearchLast_first (fsm : Fsm) (qi qj : Nat) (x : Int) (post : List Int)
    (hxi : FsmNode.hasTransition fsm qi x = true) (hxj : FsmNode.hasTransition fsm qj x = true)
    (hdiff : (FsmNode.applyInput fsm qi x []).2 ≠ (FsmNode.applyInput fsm qj x []).2) :
    ∀ pre : List Int,
      (∀ y ∈ pre, FsmNode.hasTransition fsm qi y = true ∧ FsmNode.hasTransition fsm qj y = true ∧
        (FsmNode.applyInput fsm qi y []).2 = (FsmNode.applyInput fsm qj y []).2) →
      pkSearchLast fsm qi qj (pre ++ x :: post) = .ok (some x) := by
  intro pre
  induction pre with
  | nil =>
    intro _
    obtain ⟨tri, hai⟩ := applyInput_of_hasTransition hxi
    obtain ⟨trj, haj⟩ := applyInput_of_hasTransition hxj
    rw [hai, haj] at hdiff
    have hne : tri.label.output ≠ trj.label.output := fun h => hdiff (by simp [h])
    simp [pkSearchLast, hai, haj, hne]
  | cons y ys ih =>
    intro hpre
    obtain ⟨hyi, hyj, heq⟩ := hpre y (List.mem_cons_self _ _)
    obtain ⟨tri, hai⟩ := applyInput_of_hasTransition hyi
    obtain ⟨trj, haj⟩ := applyInput_of_hasTransition hyj
    rw [hai, haj] at heq
    have he : tri.label.output = trj.label.output := by simpa using heq
    have := ih (fun z hz => hpre z (List.mem_cons_of_mem _ hz))
    simp [pkSearchLast, hai, haj, he, this]

theorem symbolRange_split {m x : Int} (hx : x ∈ symbolRange m) :
    ∃ pre post, symbolRange m = pre ++ x :: post ∧
      ∀ y ∈ pre, y ∈ symbolRange m ∧ y < x := by
  have hsorted : List.Pairwise (fun a b : Int => a < b) (symbolRange m) := by
    unfold symbolRange
    rw [List.pairwise_map]
    exact List.Pairwise.imp (fun h => by simpa using h) (List.pairwise_lt_range _)
  obtain ⟨pre, post, hsplit⟩ := List.append_of_mem hx
  refine ⟨pre, post, hsplit, ?_⟩
  intro y hy
  rw [hsplit] at hsorted
  refine ⟨by rw [hsplit]; exact List.mem_append_left _ hy, ?_⟩
  exact (List.pairwise_append.mp hsorted).2.2 y hy x (List.mem_cons_self _ _)

theorem pkSearchLast_least (fsm : Fsm) (qi qj : Nat) (maxInput x : Int)
    (hx : x ∈ symbolRange maxInput)
    (hdef : ∀ y ∈ symbolRange maxInput, y ≤ x →
      FsmNode.hasTransition fsm qi y = true ∧ FsmNode.hasTransition fsm qj y = true)
    (hdiff : (FsmNode.applyInput fsm qi x []).2 ≠ (FsmNode.applyInput fsm qj x []).2)
    (hleast : ∀ y ∈ symbolRange maxInput, y < x →
      (FsmNode.applyInput fsm qi y []).2 = (FsmNode.applyInput fsm qj y []).2) :
    pkSearchLast fsm qi qj (symbolRange maxInput) = .ok (some x) := by
  obtain ⟨pre, post, hsplit, hpre⟩ := symbolRange_split hx
  rw [hsplit]
  apply pkSearchLast_first fsm qi qj x post (hdef x hx le_rfl).1 (hdef x hx le_rfl).2 hdiff
  intro y hy
  obtain ⟨hy1, hy2⟩ := hpre y hy
  exact ⟨(hdef y hy1 (le_of_lt hy2)).1, (hdef y hy1 (le_of_lt hy2)).2, hleast y hy1 hy2⟩

theorem calcDistinguishingTrace_last_step (fsm : Fsm) (p q : Nat) (tables : List PkTable)
    (maxInput : Int) (s : PkState) (x : Int)
    (hwalk : pkWalkDown fsm tables maxInput
      (pkLevelFrom tables 1 (fsm p).id (fsm q).id - 1) ⟨p, q, [], []⟩ = .ok s)
    (hx : x ∈ symbolRange maxInput)
    (hdef : ∀ y ∈ symbolRange maxInput, y ≤ x →
      FsmNode.hasTransition fsm s.qi y = true ∧ FsmNode.hasTransition fsm s.qj y = true)
    (hdiff : (FsmNode.applyInput fsm s.qi x []).2 ≠ (FsmNode.applyInput fsm s.qj x []).2)
    (hleast : ∀ y ∈ symbolRange maxInput, y < x →
      (FsmNode.applyInput fsm s.qi y []).2 = (FsmNode.applyInput fsm s.qj y []).2) :
    FsmNode.calcDistinguishingTrace fsm p q tables maxInput = .ok ⟨s.itrc ++ [x], s.cerr⟩ := by
  unfold FsmNode.calcDistinguishingTrace
  simp only [hwalk, pkSearchLast_least fsm s.qi s.qj maxInput x hx hdef hdiff hleast]

theorem completelySpecified_loopFsm : CompletelySpecified loopFsm 0 := by
  intro n x hx
  have hx0 : x = 0 := by
    rw [mem_symbolRange] at hx
    omega
  subst hx0
  simp [FsmNode.transitionsOn, loopFsm]

/-! ## Claims on the Pk-table variant -/

/-- C1: for a completely specified deterministic machine, its Pk refinement
chain and two nodes that some table of the chain separates, the Pk-table
`calcDistinguishingTrace` returns (without a message on `cerr`) a trace that
distinguishes the nodes: `distinguished` is true for it and the output
sequences of the two nodes under it differ. -/
theorem calcDistinguishingTrace_distinguishes (lt : List Int → List Int → Bool)
    (hlt : StrictTotal lt) (fsm : Fsm) (maxInput : Int) (tables : List PkTable) (p q : Nat)
    (hcs : CompletelySpecified fsm maxInput) (hch : PkChain fsm maxInput tables)
    (hd : ∃ pk ∈ tables, pk.getClass (fsm p).id ≠ pk.getClass (fsm q).id) :
    ∃ trace, FsmNode.calcDistinguishingTrace fsm p q tables maxInput = .ok ⟨trace, []⟩ ∧
      FsmNode.distinguished lt fsm p q trace = true ∧
      runOutputs fsm p trace ≠ runOutputs fsm q trace := by
  obtain ⟨w, hcalc, _, hrange, hrun⟩ := calcDistinguishingTrace_run hcs hch p q hd
  refine ⟨w, hcalc, ?_, hrun⟩
  rw [distinguished_iff_runOutputs_ne hlt fsm p q w (transitionsOn_le_one_of_range hcs hrange)]
  exact hrun

/-- Witness of C1: states 0 and 1 of `chainFsm` with the chain `[P_1, P_2]`. -/
theorem calcDistinguishingTrace_distinguishes_witness :
    StrictTotal lexLt ∧ CompletelySpecified chainFsm 1 ∧
    PkChain chainFsm 1 [chainP1, chainP2] ∧
    (∃ pk ∈ [chainP1, chainP2], pk.getClass (chainFsm 0).id ≠ pk.getClass (chainFsm 1).id) ∧
    (∃ trace, FsmNode.calcDistinguishingTrace chainFsm 0 1 [chainP1, chainP2] 1
        = .ok ⟨trace, []⟩ ∧
      FsmNode.distinguished lexLt chainFsm 0 1 trace = true ∧
      runOutputs chainFsm 0 trace ≠ runOutputs chainFsm 1 trace) :=
  ⟨strictTotal_lexLt, completelySpecified_chainFsm, pkChain_chainFsm,
    ⟨chainP2, by simp, by decide⟩,
    calcDistinguishingTrace_distinguishes lexLt strictTotal_lexLt chainFsm 1
      [chainP1, chainP2] 0 1 completelySpecified_chainFsm pkChain_chainFsm
      ⟨chainP2, by simp, by decide⟩⟩

/-- C3 (counterexample): the first table separates the states 0 and 1 of
`gapFsm`, on the input 0 neither state emits an output and on the input 1 they
emit the different outputs 0 and 1, so 1 is the least input of `0..1` on which
the outputs differ. The call does not return `[1]`: at the input 0 the last
loop takes `front()` of the two empty output traces. -/
theorem calcDistinguishingTrace_faults_before_least_input :
    specP1.getClass (gapFsm 0).id ≠ specP1.getClass (gapFsm 1).id ∧
    FsmNode.hasTransition gapFsm 0 0 = false ∧ FsmNode.hasTransition gapFsm 1 0 = false ∧
    (FsmNode.applyInput gapFsm 0 0 []).2 = (FsmNode.applyInput gapFsm 1 0 []).2 ∧
    (FsmNode.applyInput gapFsm 0 1 []).2 = [0] ∧ (FsmNode.applyInput gapFsm 1 1 []).2 = [1] ∧
    FsmNode.calcDistinguishingTrace gapFsm 0 1 [specP1] 1 = .error Fault.emptyOutputTrace :=
  ⟨by decide, by decide, by decide, by decide, by decide, by decide, rfl⟩

/-- C3 (amended): when the first table already separates the two nodes and
both nodes have a transition for every input of `0..maxInput` up to `x`, the
least input on which they emit different outputs, the result is the
one-symbol trace `[x]`; for the two-state machine of the spec the result is
`[0]`. -/
theorem calcDistinguishingTrace_first_table (fsm : Fsm) (p q : Nat) (pk : PkTable)
    (rest : List PkTable) (maxInput x : Int)
    (hd : pk.getClass (fsm p).id ≠ pk.getClass (fsm q).id)
    (hx : x ∈ symbolRange maxInput)
    (hdef : ∀ y ∈ symbolRange maxInput, y ≤ x →
      FsmNode.hasTransition fsm p y = true ∧ FsmNode.hasTransition fsm q y = true)
    (hdiff : (FsmNode.applyInput fsm p x []).2 ≠ (FsmNode.applyInput fsm q x []).2)
    (hleast : ∀ y ∈ symbolRange maxInput, y < x →
      (FsmNode.applyInput fsm p y []).2 = (FsmNode.applyInput fsm q y []).2) :
    FsmNode.calcDistinguishingTrace fsm p q (pk :: rest) maxInput = .ok ⟨[x], []⟩ ∧
    FsmNode.calcDistinguishingTrace specFsm 0 1 [specP1] 1 = .ok ⟨[0], []⟩ := by
  refine ⟨?_, rfl⟩
  have hl : pkLevelFrom (pk :: rest) 1 (fsm p).id (fsm q).id = 1 := by
    simp [pkLevelFrom, hd]
  have hwalk : pkWalkDown fsm (pk :: rest) maxInput
      (pkLevelFrom (pk :: rest) 1 (fsm p).id (fsm q).id - 1) ⟨p, q, [], []⟩
        = .ok ⟨p, q, [], []⟩ := by
    rw [hl]; rfl
  exact calcDistinguishingTrace_last_step fsm p q (pk :: rest) maxInput _ x hwalk hx hdef
    hdiff hleast

/-- Witness of C3 (amended): the states `A` and `B` of the machine of the spec
with its table `P_1` and `x = 0`. -/
theorem calcDistinguishingTrace_first_table_witness :
    specP1.getClass (specFsm 0).id ≠ specP1.getClass (specFsm 1).id ∧
    (0 : Int) ∈ symbolRange 1 ∧
    (FsmNode.calcDistinguishingTrace specFsm 0 1 (specP1 :: []) 1 = .ok ⟨[0], []⟩ ∧
      FsmNode.calcDistinguishingTrace specFsm 0 1 [specP1] 1 = .ok ⟨[0], []⟩) :=
  ⟨by decide, by decide,
    calcDistinguishingTrace_first_table specFsm 0 1 specP1 [] 1 0 (by decide) (by decide)
      (by decide) (by decide) (by decide)⟩

/-- C4 (counterexample): on `loopFsm` no input discriminates states 0 and 1, at
the last step and at the walk-down step; the operation nevertheless returns to
its caller, with an (empty) input trace, and only writes the messages. -/
theorem calcDistinguishingTrace_returns_after_failed_search :
    pkSearchLast loopFsm 0 1 (symbolRange 0) = .ok none ∧
    FsmNode.calcDistinguishingTrace loopFsm 0 1 [specP1] 0
      = .ok ⟨[], [Diagnostic.inconsistency2]⟩ ∧
    pkSearchNext loopFsm oneClassTable 0 1 (symbolRange 0) = .ok none ∧
    FsmNode.calcDistinguishingTrace loopFsm 0 1 [oneClassTable, specP1] 0
      = .ok ⟨[], [Diagnostic.inconsistency1, Diagnostic.inconsistency2]⟩ := by
  refine ⟨rfl, rfl, rfl, rfl⟩

/-- C4 (amended): a step that finds no discriminating input writes its message
to `cerr`, records no symbol and the operation goes on and returns its trace.
On a completely specified machine the operation always returns a trace, and
symbols and messages together are as many as the steps `l`; a failed last step
returns the trace of the walk-down with the message `inconsistency2`; a failed
walk-down step goes on with the same nodes and trace and the message
`inconsistency1`. -/
theorem calcDistinguishingTrace_failed_search_continues (fsm : Fsm) (maxInput : Int)
    (tables : List PkTable) (p q : Nat) (hcs : CompletelySpecified fsm maxInput) :
    (∃ r, FsmNode.calcDistinguishingTrace fsm p q tables maxInput = .ok r ∧
      r.itrc.length + r.cerr.length = pkLevelFrom tables 1 (fsm p).id (fsm q).id) ∧
    (∀ s, pkWalkDown fsm tables maxInput
        (pkLevelFrom tables 1 (fsm p).id (fsm q).id - 1) ⟨p, q, [], []⟩ = .ok s →
      pkSearchLast fsm s.qi s.qj (symbolRange maxInput) = .ok none →
      FsmNode.calcDistinguishingTrace fsm p q tables maxInput
        = .ok ⟨s.itrc, s.cerr ++ [Diagnostic.inconsistency2]⟩) ∧
    (∀ n s plMinK, tables[n]? = some plMinK →
      pkSearchNext fsm plMinK s.qi s.qj (symbolRange maxInput) = .ok none →
      pkWalkDown fsm tables maxInput (n + 1) s
        = pkWalkDown fsm tables maxInput n
            ⟨s.qi, s.qj, s.itrc, s.cerr ++ [Diagnostic.inconsistency1]⟩) := by
  refine ⟨?_, ?_, ?_⟩
  · have hle := pkLevelFrom_le tables (fsm p).id (fsm q).id 1
    obtain ⟨s, hs, hcount⟩ := pkWalkDown_total tables hcs
      (pkLevelFrom tables 1 (fsm p).id (fsm q).id - 1) ⟨p, q, [], []⟩ (by omega)
    obtain ⟨r, hr⟩ := pkSearchLast_total hcs s.qi s.qj _ (fun _ h => h)
    unfold FsmNode.calcDistinguishingTrace
    simp only [hs, hr]
    simp only [List.length_nil] at hcount
    cases r with
    | none =>
      refine ⟨_, rfl, ?_⟩
      simp only [List.length_append, List.length_singleton]
      omega
    | some x =>
      refine ⟨_, rfl, ?_⟩
      simp only [List.length_append, List.length_singleton]
      omega
  · intro s hs hlast
    unfold FsmNode.calcDistinguishingTrace
    simp only [hs, hlast]
  · intro n s plMinK hget hnext
    rw [pkWalkDown, hget]
    simp only [hnext]

/-- Witness of C4 (amended) on `loopFsm`, which is completely specified for the
single input 0. -/
theorem calcDistinguishingTrace_failed_search_continues_witness :
    CompletelySpecified loopFsm 0 ∧
    ((∃ r, FsmNode.calcDistinguishingTrace loopFsm 0 1 [oneClassTable, specP1] 0 = .ok r ∧
      r.itrc.length + r.cerr.length
        = pkLevelFrom [oneClassTable, specP1] 1 (loopFsm 0).id (loopFsm 1).id) ∧
    (∀ s, pkWalkDown loopFsm [oneClassTable, specP1] 0
        (pkLevelFrom [oneClassTable, specP1] 1 (loopFsm 0).id (loopFsm 1).id - 1)
          ⟨0, 1, [], []⟩ = .ok s →
      pkSearchLast loopFsm s.qi s.qj (symbolRange 0) = .ok none →
      FsmNode.calcDistinguishingTrace loopFsm 0 1 [oneClassTable, specP1] 0
        = .ok ⟨s.itrc, s.cerr ++ [Diagnostic.inconsistency2]⟩) ∧
    (∀ n s plMinK, [oneClassTable, specP1][n]? = some plMinK →
      pkSearchNext loopFsm plMinK s.qi s.qj (symbolRange 0) = .ok none →
      pkWalkDown loopFsm [oneClassTable, specP1] 0 (n + 1) s
        = pkWalkDown loopFsm [oneClassTable, specP1] 0 n
            ⟨s.qi, s.qj, s.itrc, s.cerr ++ [Diagnostic.inconsistency1]⟩)) :=
  ⟨completelySpecified_loopFsm,
    calcDistinguishingTrace_failed_search_continues loopFsm 0 [oneClassTable, specP1] 0 1
      completelySpecified_loopFsm⟩

/-- C5 (counterexample): in `partialFsm` exactly state 0 has a transition for the
input 0 and there is no smaller input; the last step does not append 0 but
takes the first element of the empty output trace of state 1. -/
theorem calcDistinguishingTrace_missing_transition_faults :
    FsmNode.hasTransition partialFsm 0 0 = true ∧
    FsmNode.hasTransition partialFsm 1 0 = false ∧
    FsmNode.calcDistinguishingTrace partialFsm 0 1 [specP1] 0
      = .error Fault.emptyOutputTrace ∧
    ¬ ∃ r, FsmNode.calcDistinguishingTrace partialFsm 0 1 [specP1] 0 = .ok r ∧
      r.itrc.getLast? = some 0 := by
  refine ⟨rfl, rfl, rfl, ?_⟩
  rintro ⟨r, hr, _⟩
  have h : FsmNode.calcDistinguishingTrace partialFsm 0 1 [specP1] 0
      = .error Fault.emptyOutputTrace := rfl
  rw [h] at hr
  exact Except.noConfusion hr

/-- C5 (amended): in the last step an input `x` for which both tracked states
have a transition, as for all smaller inputs, is treated as discriminating
when the outputs of the two states on `x` differ: the least such `x` is
appended as the last symbol of the returned trace. -/
theorem calcDistinguishingTrace_last_step_appends (fsm : Fsm) (p q : Nat)
    (tables : List PkTable) (maxInput : Int) (s : PkState) (x : Int)
    (hwalk : pkWalkDown fsm tables maxInput
      (pkLevelFrom tables 1 (fsm p).id (fsm q).id - 1) ⟨p, q, [], []⟩ = .ok s)
    (hx : x ∈ symbolRange maxInput)
    (hdef : ∀ y ∈ symbolRange maxInput, y ≤ x →
      FsmNode.hasTransition fsm s.qi y = true ∧ FsmNode.hasTransition fsm s.qj y = true)
    (hdiff : (FsmNode.applyInput fsm s.qi x []).2 ≠ (FsmNode.applyInput fsm s.qj x []).2)
    (hleast : ∀ y ∈ symbolRange maxInput, y < x →
      (FsmNode.applyInput fsm s.qi y []).2 = (FsmNode.applyInput fsm s.qj y []).2) :
    FsmNode.calcDistinguishingTrace fsm p q tables maxInput = .ok ⟨s.itrc ++ [x], s.cerr⟩ ∧
    (s.itrc ++ [x]).getLast? = some x :=
  ⟨calcDistinguishingTrace_last_step fsm p q tables maxInput s x hwalk hx hdef hdiff hleast,
    by simp⟩

/-- Witness of C5 (amended): states 0 and 1 of `chainFsm`; the walk-down ends in
the states 1 and 2 with the trace `[0]`, and 0 is appended. -/
theorem calcDistinguishingTrace_last_step_appends_witness :
    pkWalkDown chainFsm [chainP1, chainP2] 1
      (pkLevelFrom [chainP1, chainP2] 1 (chainFsm 0).id (chainFsm 1).id - 1) ⟨0, 1, [], []⟩
        = .ok ⟨1, 2, [0], []⟩ ∧
    (0 : Int) ∈ symbolRange 1 ∧
    (FsmNode.calcDistinguishingTrace chainFsm 0 1 [chainP1, chainP2] 1
        = .ok ⟨[0] ++ [0], []⟩ ∧
      (([0] : List Int) ++ [0]).getLast? = some 0) :=
  ⟨rfl, by decide,
    calcDistinguishingTrace_last_step_appends chainFsm 0 1 [chainP1, chainP2] 1
      ⟨1, 2, [0], []⟩ 0 rfl (by decide) (by decide) (by decide) (by decide)⟩

/-! ## Pk-tables and distinguishing sequences of bounded length -/

theorem transitionsOn_le_one {fsm : Fsm} {maxInput : Int}
    (hcs : CompletelySpecified fsm maxInput) (hin : InputsInRange fsm maxInput)
    (n : Nat) (x : Int) : (FsmNode.transitionsOn fsm n x).length ≤ 1 := by
  by_cases hx : x ∈ symbolRange maxInput
  · exact le_of_eq (hcs n x hx)
  · have : FsmNode.transitionsOn fsm n x = [] := by
      unfold FsmNode.transitionsOn
      rw [List.filter_eq_nil_iff]
      intro tr htr hxin
      apply hx
      have := hin n tr htr
      simpa using (by simpa using hxin : tr.label.input = x) ▸ this
    rw [this]; simp

theorem distinguished_eq_false_iff {lt : List Int → List Int → Bool} (hlt : StrictTotal lt)
    {fsm : Fsm} {maxInput : Int}
    (hcs : CompletelySpecified fsm maxInput) (hin : InputsInRange fsm maxInput)
    (a b : Nat) (s : List Int) :
    FsmNode.distinguished lt fsm a b s = false ↔ runOutputs fsm a s = runOutputs fsm b s := by
  rw [← Bool.not_eq_true,
    distinguished_iff_runOutputs_ne hlt fsm a b s (fun n x _ => transitionsOn_le_one hcs hin n x)]
  exact not_not

theorem runOutputs_cons_of_not_mem {fsm : Fsm} {maxInput : Int}
    (hin : InputsInRange fsm maxInput) (n : Nat) {x : Int} (hx : x ∉ symbolRange maxInput)
    (t : List Int) : runOutputs fsm n (x :: t) = runOutputs fsm n t := by
  have hnone : (fsm n).transitions.find? (fun tr => tr.label.input = x) = none := by
    rw [List.find?_eq_none]
    intro tr htr hxin
    apply hx
    have := hin n tr htr
    simpa using (by simpa using hxin : tr.label.input = x) ▸ this
  rw [runOutputs, hnone]

theorem sameRunsUpTo_one_iff {fsm : Fsm} {maxInput : Int}
    (hcs : CompletelySpecified fsm maxInput) (hin : InputsInRange fsm maxInput) (a b : Nat) :
    SameRunsUpTo fsm 1 a b ↔
      ∀ x ∈ symbolRange maxInput,
        (FsmNode.applyInput fsm a x []).2 = (FsmNode.applyInput fsm b x []).2 := by
  constructor
  · intro h x hx
    obtain ⟨tra, _, hfa, _, haa⟩ := complete_step hcs a hx
    obtain ⟨trb, _, hfb, _, hab⟩ := complete_step hcs b hx
    have := h [x] (by simp)
    rw [runOutputs_cons_of_step hfa, runOutputs_cons_of_step hfb] at this
    rw [haa, hab]
    simp only [List.cons.injEq] at this
    simp [this.1]
  · intro h s hs
    cases s with
    | nil => rfl
    | cons x t =>
      have ht : t = [] := by
        cases t with
        | nil => rfl
        | cons y ys => simp at hs
      subst ht
      by_cases hx : x ∈ symbolRange maxInput
      · obtain ⟨tra, _, hfa, _, haa⟩ := complete_step hcs a hx
        obtain ⟨trb, _, hfb, _, hab⟩ := complete_step hcs b hx
        have := h x hx
        rw [haa, hab] at this
        rw [runOutputs_cons_of_step hfa, runOutputs_cons_of_step hfb]
        simp only [List.cons.injEq, and_true] at this
        simp [runOutputs, this]
      · rw [runOutputs_cons_of_not_mem hin a hx, runOutputs_cons_of_not_mem hin b hx]
        rfl

theorem sameRunsUpTo_succ_iff {fsm : Fsm} {maxInput : Int}
    (hcs : CompletelySpecified fsm maxInput) (hin : InputsInRange fsm maxInput)
    (k : Nat) (a b : Nat) :
    SameRunsUpTo fsm (k + 2) a b ↔
      (SameRunsUpTo fsm (k + 1) a b ∧
        ∀ x ∈ symbolRange maxInput, ∀ a' b', FsmNode.after fsm a x = [a'] →
          FsmNode.after fsm b x = [b'] → SameRunsUpTo fsm (k + 1) a' b') := by
  constructor
  · intro h
    refine ⟨fun s hs => h s (by omega), ?_⟩
    intro x hx a' b' ha' hb' s hs
    obtain ⟨tra, _, hfa, haa, _⟩ := complete_step hcs a hx
    obtain ⟨trb, _, hfb, hab, _⟩ := complete_step hcs b hx
    have hta : tra.target = a' := by rw [ha'] at haa; simpa using haa.symm
    have htb : trb.target = b' := by rw [hb'] at hab; simpa using hab.symm
    have := h (x :: s) (by simp; omega)
    rw [runOutputs_cons_of_step hfa, runOutputs_cons_of_step hfb, hta, htb] at this
    simp only [List.cons.injEq] at this
    exact this.2
  · rintro ⟨h1, h2⟩ s hs
    cases s with
    | nil => rfl
    | cons x t =>
      have ht : t.length ≤ k + 1 := by simp at hs; omega
      by_cases hx : x ∈ symbolRange maxInput
      · obtain ⟨tra, _, hfa, haa, _⟩ := complete_step hcs a hx
        obtain ⟨trb, _, hfb, hab, _⟩ := complete_step hcs b hx
        have hhead := h1 [x] (by simp)
        rw [runOutputs_cons_of_step hfa, runOutputs_cons_of_step hfb] at hhead
        simp only [List.cons.injEq] at hhead
        rw [runOutputs_cons_of_step hfa, runOutputs_cons_of_step hfb, hhead.1,
          h2 x hx _ _ haa hab t ht]
      · rw [runOutputs_cons_of_not_mem hin a hx, runOutputs_cons_of_not_mem hin b hx]
        exact h1 t ht

theorem pkChain_of_semantic {lt : List Int → List Int → Bool} (hlt : StrictTotal lt)
    {fsm : Fsm} {maxInput : Int} {tables : List PkTable}
    (hcs : CompletelySpecified fsm maxInput) (hin : InputsInRange fsm maxInput)
    (hsem : PkSemantic lt fsm tables) : PkChain fsm maxInput tables := by
  have hsem' : ∀ k pk, tables[k]? = some pk → ∀ a b,
      (pk.getClass (fsm a).id = pk.getClass (fsm b).id ↔ SameRunsUpTo fsm (k + 1) a b) := by
    intro k pk hget a b
    rw [hsem k pk hget a b]
    unfold SameRunsUpTo
    simp only [distinguished_eq_false_iff hlt hcs hin]
  constructor
  · intro pk hget p q
    rw [hsem' 0 pk hget p q]
    exact sameRunsUpTo_one_iff hcs hin p q
  · intro k pk pk' hget hget' p q
    rw [hsem' (k + 1) pk' hget' p q, hsem' k pk hget p q, sameRunsUpTo_succ_iff hcs hin]
    apply and_congr_right
    intro _
    constructor
    · intro h x hx
      obtain ⟨tra, _, _, haa, _⟩ := complete_step hcs p hx
      obtain ⟨trb, _, _, hab, _⟩ := complete_step hcs q hx
      rw [haa, hab]
      simp only [List.map_cons, List.map_nil, List.cons.injEq, and_true]
      rw [hsem' k pk hget]
      exact h x hx _ _ haa hab
    · intro h x hx a' b' ha' hb'
      have := h x hx
      rw [ha', hb'] at this
      simp only [List.map_cons, List.map_nil, List.cons.injEq, and_true] at this
      rw [← hsem' k pk hget]
      exact this

theorem pkSemantic_of_chain {lt : List Int → List Int → Bool} (hlt : StrictTotal lt)
    {fsm : Fsm} {maxInput : Int} {tables : List PkTable}
    (hcs : CompletelySpecified fsm maxInput) (hin : InputsInRange fsm maxInput)
    (hch : PkChain fsm maxInput tables) : PkSemantic lt fsm tables := by
  have hruns : ∀ k pk, tables[k]? = some pk → ∀ a b,
      (pk.getClass (fsm a).id = pk.getClass (fsm b).id ↔ SameRunsUpTo fsm (k + 1) a b) := by
    intro k
    induction k with
    | zero =>
      intro pk hget a b
      rw [hch.1 pk hget a b]
      exact (sameRunsUpTo_one_iff hcs hin a b).symm
    | succ k ih =>
      intro pk' hget' a b
      have hlt' : k + 1 < tables.length := (List.getElem?_eq_some.mp hget').1
      have hget : tables[k]? = some (tables[k]) := List.getElem?_eq_getElem (by omega)
      rw [hch.2 k _ pk' hget hget' a b, sameRunsUpTo_succ_iff hcs hin, ih _ hget a b]
      apply and_congr_right
      intro _
      constructor
      · intro h x hx a' b' ha' hb'
        have := h x hx
        rw [ha', hb'] at this
        simp only [List.map_cons, List.map_nil, List.cons.injEq, and_true] at this
        rw [← ih _ hget]
        exact this
      · intro h x hx
        obtain ⟨tra, _, _, haa, _⟩ := complete_step hcs a hx
        obtain ⟨trb, _, _, hab, _⟩ := complete_step hcs b hx
        rw [haa, hab]
        simp only [List.map_cons, List.map_nil, List.cons.injEq, and_true]
        rw [ih _ hget]
        exact h x hx _ _ haa hab
  intro k pk hget a b
  rw [hruns k pk hget a b]
  unfold SameRunsUpTo
  simp only [distinguished_eq_false_iff hlt hcs hin]

theorem inputsInRange_chainFsm : InputsInRange chainFsm 1 := by
  intro n
  rcases n with _ | _ | n
  · decide
  · decide
  · rw [chainFsm_ge_two]; decide

/-- C2: for a completely specified deterministic machine over the inputs
`0..maxInput`, a table list in which two states share a class of `P_k` iff no
input sequence of length at most `k` distinguishes them, and two nodes that
some table separates, the returned trace is a minimal distinguishing sequence:
with `l = i + 1` the least level whose table (at index `i`) separates the
nodes, the trace has length `l`, it distinguishes the nodes, and no input
sequence shorter than `l` does. -/
theorem calcDistinguishingTrace_minimal (lt : List Int → List Int → Bool)
    (hlt : StrictTotal lt) (fsm : Fsm) (maxInput : Int) (tables : List PkTable) (p q : Nat)
    (hcs : CompletelySpecified fsm maxInput) (hin : InputsInRange fsm maxInput)
    (hsem : PkSemantic lt fsm tables)
    (hd : ∃ pk ∈ tables, pk.getClass (fsm p).id ≠ pk.getClass (fsm q).id) :
    ∃ trace i pk,
      FsmNode.calcDistinguishingTrace fsm p q tables maxInput = .ok ⟨trace, []⟩ ∧
      tables[i]? = some pk ∧ pk.getClass (fsm p).id ≠ pk.getClass (fsm q).id ∧
      (∀ j pk', j < i → tables[j]? = some pk' →
        pk'.getClass (fsm p).id = pk'.getClass (fsm q).id) ∧
      trace.length = i + 1 ∧
      FsmNode.distinguished lt fsm p q trace = true ∧
      ∀ s : List Int, s.length < i + 1 → FsmNode.distinguished lt fsm p q s = false := by
  have hch := pkChain_of_semantic hlt hcs hin hsem
  obtain ⟨w, hcalc, hlen, hrange, hrun⟩ := calcDistinguishingTrace_run hcs hch p q hd
  obtain ⟨i, pk, hl, hget, hne, hbefore⟩ := pkLevelFrom_spec tables (fsm p).id (fsm q).id 1 hd
  refine ⟨w, i, pk, hcalc, hget, hne, hbefore, by omega, ?_, ?_⟩
  · rw [distinguished_iff_runOutputs_ne hlt fsm p q w
      (transitionsOn_le_one_of_range hcs hrange)]
    exact hrun
  · intro s hs
    cases i with
    | zero =>
      have : s = [] := List.length_eq_zero.mp (by omega)
      subst this
      rw [distinguished_eq_false_iff hlt hcs hin]
      rfl
    | succ j =>
      have hltj : j + 1 < tables.length := (List.getElem?_eq_some.mp hget).1
      have hgetj : tables[j]? = some (tables[j]) := List.getElem?_eq_getElem (by omega)
      have hsame := hbefore j _ (by omega) hgetj
      exact (hsem j _ hgetj p q).mp hsame s (by omega)

/-- Witness of C2: states 0 and 1 of `chainFsm` with the tables `[P_1, P_2]`. -/
theorem calcDistinguishingTrace_minimal_witness :
    StrictTotal lexLt ∧ CompletelySpecified chainFsm 1 ∧ InputsInRange chainFsm 1 ∧
    PkSemantic lexLt chainFsm [chainP1, chainP2] ∧
    (∃ pk ∈ [chainP1, chainP2], pk.getClass (chainFsm 0).id ≠ pk.getClass (chainFsm 1).id) ∧
    (∃ trace i pk,
      FsmNode.calcDistinguishingTrace chainFsm 0 1 [chainP1, chainP2] 1 = .ok ⟨trace, []⟩ ∧
      [chainP1, chainP2][i]? = some pk ∧
      pk.getClass (chainFsm 0).id ≠ pk.getClass (chainFsm 1).id ∧
      (∀ j pk', j < i → [chainP1, chainP2][j]? = some pk' →
        pk'.getClass (chainFsm 0).id = pk'.getClass (chainFsm 1).id) ∧
      trace.length = i + 1 ∧
      FsmNode.distinguished lexLt chainFsm 0 1 trace = true ∧
      ∀ s : List Int, s.length < i + 1 →
        FsmNode.distinguished lexLt chainFsm 0 1 s = false) :=
  ⟨strictTotal_lexLt, completelySpecified_chainFsm, inputsInRange_chainFsm,
    pkSemantic_of_chain strictTotal_lexLt completelySpecified_chainFsm inputsInRange_chainFsm
      pkChain_chainFsm,
    ⟨chainP2, by simp, by decide⟩,
    calcDistinguishingTrace_minimal lexLt strictTotal_lexLt chainFsm 1 [chainP1, chainP2] 0 1
      completelySpecified_chainFsm inputsInRange_chainFsm
      (pkSemantic_of_chain strictTotal_lexLt completelySpecified_chainFsm
        inputsInRange_chainFsm pkChain_chainFsm)
      ⟨chainP2, by simp, by decide⟩⟩

/-! ## Observable machines: input/output paths and output traces -/

theorem label_unique_of_isObservableFrom :
    ∀ l : List FsmTransition, isObservableFrom l = true →
      ∀ t1 ∈ l, ∀ t2 ∈ l, t1.label = t2.label → t1 = t2 := by
  intro l
  induction l with
  | nil => intro _ t1 h1; exact absurd h1 (List.not_mem_nil _)
  | cons tr rest ih =>
    intro hobs t1 h1 t2 h2 hlab
    unfold isObservableFrom at hobs
    by_cases hany : rest.any (fun other => tr.label = other.label) = true
    · rw [if_pos hany] at hobs; exact absurd hobs (by decide)
    · rw [if_neg hany] at hobs
      have hno : ∀ o ∈ rest, tr.label ≠ o.label := by
        intro o ho heq
        apply hany
        rw [List.any_eq_true]
        exact ⟨o, ho, by simpa using heq⟩
      rcases List.mem_cons.mp h1 with e1 | m1
      · rcases List.mem_cons.mp h2 with e2 | m2
        · rw [e1, e2]
        · subst e1; exact absurd hlab (hno t2 m2)
      · rcases List.mem_cons.mp h2 with e2 | m2
        · subst e2; exact absurd hlab.symm (hno t1 m1)
        · exact ih hobs t1 m1 t2 m2 hlab

theorem mem_transitionsOn (fsm : Fsm) (n : Nat) (x : Int) (tr : FsmTransition) :
    tr ∈ FsmNode.transitionsOn fsm n x ↔ tr ∈ (fsm n).transitions ∧ tr.label.input = x := by
  unfold FsmNode.transitionsOn
  simp [List.mem_filter]

theorem mem_outputsOf_cons (fsm : Fsm) (a : Nat) (x : Int) (t : List Int) (o : List Int)
    (hne : FsmNode.transitionsOn fsm a x ≠ []) :
    o ∈ outputsOf fsm a (x :: t) ↔
      ∃ tr ∈ (fsm a).transitions, tr.label.input = x ∧
        ∃ o' ∈ outputsOf fsm tr.target t, o = tr.label.output :: o' := by
  rw [outputsOf, if_neg hne]
  simp only [List.mem_flatMap, List.mem_map, mem_transitionsOn]
  constructor
  · rintro ⟨tr, ⟨h1, h2⟩, o', ho', rfl⟩
    exact ⟨tr, h1, h2, o', ho', rfl⟩
  · rintro ⟨tr, h1, h2, o', ho', rfl⟩
    exact ⟨tr, ⟨h1, h2⟩, o', ho', rfl⟩

theorem transitionsOn_ne_nil {fsm : Fsm} {a : Nat} {tr : FsmTransition}
    (hmem : tr ∈ (fsm a).transitions) : FsmNode.transitionsOn fsm a tr.label.input ≠ [] := by
  intro h
  have : tr ∈ FsmNode.transitionsOn fsm a tr.label.input :=
    (mem_transitionsOn fsm a _ tr).mpr ⟨hmem, rfl⟩
  rw [h] at this
  exact absurd this (List.not_mem_nil _)

theorem mem_outputsOf_of_ioPath (fsm : Fsm) (t : List Int) :
    ∀ (ios : List (Int × Int)) (a a' : Nat), IOPath fsm a ios a' →
      ∀ o ∈ outputsOf fsm a' t,
        (ios.map Prod.snd ++ o) ∈ outputsOf fsm a (ios.map Prod.fst ++ t) := by
  intro ios
  induction ios with
  | nil =>
    intro a a' hp o ho
    simp only [IOPath] at hp
    subst hp
    simpa using ho
  | cons io rest ih =>
    intro a a' hp o ho
    simp only [IOPath] at hp
    obtain ⟨tr, hmem, hlab, hrest⟩ := hp
    have hin : tr.label.input = io.1 := by rw [hlab]
    have hout : tr.label.output = io.2 := by rw [hlab]
    simp only [List.map_cons, List.cons_append]
    rw [mem_outputsOf_cons fsm a io.1 _ _ (hin ▸ transitionsOn_ne_nil hmem)]
    exact ⟨tr, hmem, hin, _, ih tr.target a' hrest o ho, by rw [hout]⟩

theorem mem_outputsOf_ioPath_inv {fsm : Fsm} (hobs : Observable fsm) (t : List Int) :
    ∀ (ios : List (Int × Int)) (b b' : Nat), IOPath fsm b ios b' →
      ∀ o, (ios.map Prod.snd ++ o) ∈ outputsOf fsm b (ios.map Prod.fst ++ t) →
        o ∈ outputsOf fsm b' t := by
  intro ios
  induction ios with
  | nil =>
    intro b b' hp o ho
    simp only [IOPath] at hp
    subst hp
    simpa using ho
  | cons io rest ih =>
    intro b b' hp o ho
    simp only [IOPath] at hp
    obtain ⟨tr, hmem, hlab, hrest⟩ := hp
    have hin : tr.label.input = io.1 := by rw [hlab]
    have hout : tr.label.output = io.2 := by rw [hlab]
    simp only [List.map_cons, List.cons_append] at ho
    rw [mem_outputsOf_cons fsm b io.1 _ _ (hin ▸ transitionsOn_ne_nil hmem)] at ho
    obtain ⟨tr', hmem', hin', o', ho', heq⟩ := ho
    simp only [List.cons.injEq] at heq
    have hlab' : tr'.label = tr.label := by
      rw [hlab]
      cases hl : tr'.label with
      | mk i u =>
        rw [hl] at hin' heq
        simp only at hin' heq
        rw [hin', ← heq.1]
    have htr : tr' = tr :=
      label_unique_of_isObservableFrom _ (hobs b) tr' hmem' tr hmem hlab'
    rw [htr, ← heq.2] at ho'
    exact ih tr.target b' hrest o ho'

theorem ioPath_append (fsm : Fsm) :
    ∀ (ios : List (Int × Int)) (a m : Nat) (ios' : List (Int × Int)) (a' : Nat),
      IOPath fsm a ios m → IOPath fsm m ios' a' → IOPath fsm a (ios ++ ios') a' := by
  intro ios
  induction ios with
  | nil =>
    intro a m ios' a' h1 h2
    simp only [IOPath] at h1
    subst h1
    simpa using h2
  | cons io rest ih =>
    intro a m ios' a' h1 h2
    simp only [IOPath] at h1
    obtain ⟨tr, hmem, hlab, hrest⟩ := h1
    simp only [List.cons_append, IOPath]
    exact ⟨tr, hmem, hlab, ih tr.target m ios' a' hrest h2⟩

theorem single_output_mem_iff (fsm : Fsm) (a : Nat) (x y : Int) :
    [y] ∈ outputsOf fsm a [x] ↔ ∃ tr ∈ (fsm a).transitions, tr.label = ⟨x, y⟩ := by
  by_cases hne : FsmNode.transitionsOn fsm a x = []
  · rw [outputsOf, if_pos hne]
    simp only [outputsOf, List.mem_singleton]
    constructor
    · intro h; exact absurd h (by simp)
    · rintro ⟨tr, hmem, hlab⟩
      exfalso
      have : tr ∈ FsmNode.transitionsOn fsm a x :=
        (mem_transitionsOn fsm a x tr).mpr ⟨hmem, by rw [hlab]⟩
      rw [hne] at this
      exact absurd this (List.not_mem_nil _)
  · rw [mem_outputsOf_cons fsm a x [] [y] hne]
    simp only [outputsOf, List.mem_singleton]
    constructor
    · rintro ⟨tr, hmem, hin, o', ho', heq⟩
      subst ho'
      simp only [List.cons.injEq, and_true] at heq
      refine ⟨tr, hmem, ?_⟩
      cases hl : tr.label with
      | mk i u =>
        rw [hl] at hin heq
        simp only at hin heq
        rw [hin, ← heq]
    · rintro ⟨tr, hmem, hlab⟩
      exact ⟨tr, hmem, by rw [hlab], [], rfl, by rw [hlab]⟩

theorem outputsOf_ne_of_one_sided {fsm : Fsm} (hobs : Observable fsm)
    (ios : List (Int × Int)) (a b a' b' : Nat) (x y : Int)
    (ha : IOPath fsm a ios a') (hb : IOPath fsm b ios b')
    (hside : ((∃ tr ∈ (fsm a').transitions, tr.label = ⟨x, y⟩) ∧
        ¬ ∃ tr ∈ (fsm b').transitions, tr.label = ⟨x, y⟩) ∨
      ((¬ ∃ tr ∈ (fsm a').transitions, tr.label = ⟨x, y⟩) ∧
        ∃ tr ∈ (fsm b').transitions, tr.label = ⟨x, y⟩)) :
    (outputsOf fsm a (ios.map Prod.fst ++ [x])).toFinset
      ≠ (outputsOf fsm b (ios.map Prod.fst ++ [x])).toFinset := by
  intro heq
  have hiff : ∀ o, o ∈ outputsOf fsm a (ios.map Prod.fst ++ [x]) ↔
      o ∈ outputsOf fsm b (ios.map Prod.fst ++ [x]) := by
    intro o
    rw [← List.mem_toFinset, ← List.mem_toFinset, heq]
  rcases hside with ⟨h1, h2⟩ | ⟨h1, h2⟩
  · have hin := mem_outputsOf_of_ioPath fsm [x] ios a a' ha [y]
      ((single_output_mem_iff fsm a' x y).mpr h1)
    have := mem_outputsOf_ioPath_inv hobs [x] ios b b' hb [y] ((hiff _).mp hin)
    exact h2 ((single_output_mem_iff fsm b' x y).mp this)
  · have hin := mem_outputsOf_of_ioPath fsm [x] ios b b' hb [y]
      ((single_output_mem_iff fsm b' x y).mpr h2)
    have := mem_outputsOf_ioPath_inv hobs [x] ios a a' ha [y] ((hiff _).mpr hin)
    exact h1 ((single_output_mem_iff fsm a' x y).mp this)

/-! ## The OFSM-table variant -/

theorem ofsmRows_defined {fsm : Fsm} {maxInput maxOutput : Int} {ot : OFSMTable}
    (hid : ∀ n, 0 ≤ (fsm n).id) (hrows : OfsmRows fsm maxInput maxOutput ot)
    (n : Nat) {x y : Int} (hx : x ∈ symbolRange maxInput) (hy : y ∈ symbolRange maxOutput) :
    (0 ≤ ot.get (fsm n).id x y ↔ ∃ tr ∈ (fsm n).transitions, tr.label = ⟨x, y⟩) ∧
    (0 ≤ ot.get (fsm n).id x y →
      ∃ tr ∈ (fsm n).transitions, tr.label = ⟨x, y⟩ ∧
        ot.get (fsm n).id x y = (fsm tr.target).id) := by
  obtain ⟨h1, h2⟩ := hrows n x hx y hy
  have hex : 0 ≤ ot.get (fsm n).id x y → ∃ tr ∈ (fsm n).transitions, tr.label = ⟨x, y⟩ := by
    intro h0
    by_contra hno
    push_neg at hno
    have := h2 hno
    omega
  refine ⟨⟨hex, ?_⟩, ?_⟩
  · rintro ⟨tr, hmem, hlab⟩
    rw [h1 tr hmem hlab]
    exact hid _
  · intro h0
    obtain ⟨tr, hmem, hlab⟩ := hex h0
    exact ⟨tr, hmem, hlab, h1 tr hmem hlab⟩

theorem ofsmLevelFrom_spec (ts : List OFSMTable) (a b : Int) :
    ∀ l0 : Nat, (∃ ot ∈ ts, ot.s2c a ≠ ot.s2c b) →
      ∃ i ot, ofsmLevelFrom ts l0 a b = l0 + i ∧ ts[i]? = some ot ∧ ot.s2c a ≠ ot.s2c b := by
  induction ts with
  | nil => intro l0 h; obtain ⟨ot, hot, _⟩ := h; exact absurd hot (List.not_mem_nil _)
  | cons ot rest ih =>
    intro l0 h
    by_cases hd : ot.s2c a ≠ ot.s2c b
    · exact ⟨0, ot, by simp [ofsmLevelFrom, hd], by simp, hd⟩
    · have hrest : ∃ ot' ∈ rest, ot'.s2c a ≠ ot'.s2c b := by
        obtain ⟨ot', hmem, hne⟩ := h
        rcases List.mem_cons.mp hmem with h1 | h1
        · subst h1; exact absurd hne hd
        · exact ⟨ot', h1, hne⟩
      obtain ⟨i, oti, hl, hget, hne⟩ := ih (l0 + 1) hrest
      refine ⟨i + 1, oti, ?_, by simpa using hget, hne⟩
      rw [ofsmLevelFrom, if_neg hd, hl]; omega

theorem ofsmScanOutputs_spec {fsm : Fsm} {maxInput maxOutput : Int} {ot : OFSMTable}
    (hid : ∀ n, 0 ≤ (fsm n).id) (hrows : OfsmRows fsm maxInput maxOutput ot)
    (p q : Nat) {x : Int} (hx : x ∈ symbolRange maxInput) :
    ∀ (ys : List Int), (∀ y ∈ ys, y ∈ symbolRange maxOutput) →
      ∀ (s : OfsmState) (a b : Nat), OfsmTracked fsm p q s a b →
        ∃ a' b', OfsmTracked fsm p q (ofsmScanOutputs ot x ys s) a' b' ∧
          ((ofsmScanOutputs ot x ys s = s ∧ a' = a ∧ b' = b) ∨
            ot.s2c (fsm a').id ≠ ot.s2c (fsm b').id) ∧
          ((∃ y ∈ ys, 0 ≤ ot.get s.q1 x y ∧ 0 ≤ ot.get s.q2 x y ∧
              ot.s2c (ot.get s.q1 x y) ≠ ot.s2c (ot.get s.q2 x y)) →
            ot.s2c (fsm a').id ≠ ot.s2c (fsm b').id) := by
  intro ys
  induction ys with
  | nil =>
    intro _ s a b hG
    refine ⟨a, b, hG, Or.inl ⟨rfl, rfl, rfl⟩, ?_⟩
    rintro ⟨y, hy, _⟩
    exact absurd hy (List.not_mem_nil _)
  | cons y ys ih =>
    intro hys s a b hG
    have hy := hys y (List.mem_cons_self _ _)
    have hys' : ∀ z ∈ ys, z ∈ symbolRange maxOutput :=
      fun z hz => hys z (List.mem_cons_of_mem _ hz)
    obtain ⟨a', b', hG', hdisj, hprog⟩ := ih hys' s a b hG
    by_cases hneg : ot.get s.q1 x y < 0 ∨ ot.get s.q2 x y < 0
    · have hstep : ofsmScanOutputs ot x (y :: ys) s = ofsmScanOutputs ot x ys s := by
        rw [ofsmScanOutputs, if_pos hneg]
      rw [hstep]
      refine ⟨a', b', hG', hdisj, ?_⟩
      rintro ⟨z, hz, h1, h2, h3⟩
      rcases List.mem_cons.mp hz with e | m
      · subst e
        rcases hneg with h | h <;> omega
      · exact hprog ⟨z, m, h1, h2, h3⟩
    · by_cases hcls : ot.s2c (ot.get s.q1 x y) ≠ ot.s2c (ot.get s.q2 x y)
      · have hstep : ofsmScanOutputs ot x (y :: ys) s
            = ⟨ot.get s.q1 x y, ot.get s.q2 x y, s.itrc ++ [x]⟩ := by
          rw [ofsmScanOutputs, if_neg hneg, if_pos hcls]
        rw [hstep]
        push_neg at hneg
        obtain ⟨hq1, hq2, ios, hpa, hpb, hitrc⟩ := hG
        rw [hq1] at hneg hcls
        rw [hq2] at hneg hcls
        obtain ⟨tra, hma, hla, hga⟩ := (ofsmRows_defined hid hrows a hx hy).2 hneg.1
        obtain ⟨trb, hmb, hlb, hgb⟩ := (ofsmRows_defined hid hrows b hx hy).2 hneg.2
        have hD : ot.s2c (fsm tra.target).id ≠ ot.s2c (fsm trb.target).id := by
          rw [← hga, ← hgb]; exact hcls
        refine ⟨tra.target, trb.target, ⟨?_, ?_, ios ++ [(x, y)], ?_, ?_, ?_⟩,
          Or.inr hD, fun _ => hD⟩
        · rw [hq1]; exact hga
        · rw [hq2]; exact hgb
        · exact ioPath_append fsm ios p a [(x, y)] tra.target hpa ⟨tra, hma, hla, rfl⟩
        · exact ioPath_append fsm ios q b [(x, y)] trb.target hpb ⟨trb, hmb, hlb, rfl⟩
        · simp [hitrc]
      · have hstep : ofsmScanOutputs ot x (y :: ys) s = ofsmScanOutputs ot x ys s := by
          rw [ofsmScanOutputs, if_neg hneg, if_neg hcls]
        rw [hstep]
        refine ⟨a', b', hG', hdisj, ?_⟩
        rintro ⟨z, hz, h1, h2, h3⟩
        rcases List.mem_cons.mp hz with e | m
        · subst e
          exact absurd h3 hcls
        · exact hprog ⟨z, m, h1, h2, h3⟩

theorem ofsmScanInputs_spec {fsm : Fsm} {maxInput maxOutput : Int} {ot : OFSMTable}
    (hid : ∀ n, 0 ≤ (fsm n).id) (hrows : OfsmRows fsm maxInput maxOutput ot) (p q : Nat) :
    ∀ (xs : List Int), (∀ x ∈ xs, x ∈ symbolRange maxInput) →
      ∀ (s : OfsmState) (a b : Nat), OfsmTracked fsm p q s a b →
        ∃ a' b',
          OfsmTracked fsm p q
            (xs.foldl (fun st x => ofsmScanOutputs ot x (symbolRange maxOutput) st) s) a' b' ∧
          ((xs.foldl (fun st x => ofsmScanOutputs ot x (symbolRange maxOutput) st) s = s ∧
              a' = a ∧ b' = b) ∨
            ot.s2c (fsm a').id ≠ ot.s2c (fsm b').id) ∧
          ((∃ x ∈ xs, ∃ y ∈ symbolRange maxOutput, 0 ≤ ot.get s.q1 x y ∧ 0 ≤ ot.get s.q2 x y ∧
              ot.s2c (ot.get s.q1 x y) ≠ ot.s2c (ot.get s.q2 x y)) →
            ot.s2c (fsm a').id ≠ ot.s2c (fsm b').id) := by
  intro xs
  induction xs with
  | nil =>
    intro _ s a b hG
    refine ⟨a, b, hG, Or.inl ⟨rfl, rfl, rfl⟩, ?_⟩
    rintro ⟨x, hx, _⟩
    exact absurd hx (List.not_mem_nil _)
  | cons x xs ih =>
    intro hxs s a b hG
    have hx := hxs x (List.mem_cons_self _ _)
    have hxs' : ∀ z ∈ xs, z ∈ symbolRange maxInput :=
      fun z hz => hxs z (List.mem_cons_of_mem _ hz)
    obtain ⟨a1, b1, hG1, hdisj1, hprog1⟩ :=
      ofsmScanOutputs_spec hid hrows p q hx (symbolRange maxOutput) (fun _ h => h) s a b hG
    obtain ⟨a', b', hG', hdisj', hprog'⟩ := ih hxs' _ a1 b1 hG1
    rw [List.foldl_cons]
    have hkeep : ot.s2c (fsm a1).id ≠ ot.s2c (fsm b1).id →
        ot.s2c (fsm a').id ≠ ot.s2c (fsm b').id := by
      intro hD1
      rcases hdisj' with ⟨_, ea, eb⟩ | hD
      · rw [ea, eb]; exact hD1
      · exact hD
    refine ⟨a', b', hG', ?_, ?_⟩
    · rcases hdisj1 with ⟨es, ea, eb⟩ | hD1
      · rcases hdisj' with ⟨es', ea', eb'⟩ | hD
        · left
          exact ⟨by rw [es', es], by rw [ea', ea], by rw [eb', eb]⟩
        · exact Or.inr hD
      · exact Or.inr (hkeep hD1)
    · rintro ⟨x0, hx0, y0, hy0, h1, h2, h3⟩
      rcases hdisj1 with ⟨es, _, _⟩ | hD1
      · rcases List.mem_cons.mp hx0 with e | m
        · subst e
          exact hkeep (hprog1 ⟨y0, hy0, h1, h2, h3⟩)
        · apply hprog'
          rw [es]
          exact ⟨x0, m, y0, hy0, h1, h2, h3⟩
      · exact hkeep hD1

theorem ofsmChain_agree_below {fsm : Fsm} {maxInput maxOutput : Int}
    {tables : List OFSMTable} (hch : OfsmChain fsm maxInput maxOutput tables) (a b : Nat) :
    ∀ (m : Nat) (ot : OFSMTable), tables[m]? = some ot →
      ot.s2c (fsm a).id = ot.s2c (fsm b).id →
      ∀ j otj, j ≤ m → tables[j]? = some otj → otj.s2c (fsm a).id = otj.s2c (fsm b).id := by
  intro m
  induction m with
  | zero =>
    intro ot hget hsame j otj hj hgetj
    have : j = 0 := by omega
    subst this
    rw [hget] at hgetj
    cases hgetj
    exact hsame
  | succ m ih =>
    intro ot hget hsame j otj hj hgetj
    by_cases hjm : j = m + 1
    · subst hjm
      rw [hget] at hgetj
      cases hgetj
      exact hsame
    · have hlt : m + 1 < tables.length := (List.getElem?_eq_some.mp hget).1
      have hgetm : tables[m]? = some (tables[m]) := List.getElem?_eq_getElem (by omega)
      have hsame' := ((hch.2.2.2 m _ ot hgetm hget a b).mp hsame).1
      exact ih _ hgetm hsame' j otj (by omega) hgetj

theorem ofsmChain_same_pairs {fsm : Fsm} {maxInput maxOutput : Int}
    {tables : List OFSMTable} (hch : OfsmChain fsm maxInput maxOutput tables) (a b : Nat)
    (m : Nat) (ot : OFSMTable) (hget : tables[m + 1]? = some ot)
    (hsame : ot.s2c (fsm a).id = ot.s2c (fsm b).id)
    {x y : Int} (hx : x ∈ symbolRange maxInput) (hy : y ∈ symbolRange maxOutput) :
    (∃ tr ∈ (fsm a).transitions, tr.label = ⟨x, y⟩) ↔
      (∃ tr ∈ (fsm b).transitions, tr.label = ⟨x, y⟩) := by
  have hlt : m + 1 < tables.length := (List.getElem?_eq_some.mp hget).1
  have hget0 : tables[0]? = some (tables[0]) := List.getElem?_eq_getElem (by omega)
  have hget1 : tables[0 + 1]? = some (tables[1]) := List.getElem?_eq_getElem (by omega)
  have hsame1 := ofsmChain_agree_below hch a b (m + 1) ot hget hsame 1 _ (by omega) hget1
  have hcol := ((hch.2.2.2 0 _ _ hget0 hget1 a b).mp hsame1).2 x hx y hy
  have hrows := hch.2.1 (tables[0]) (List.getElem_mem _)
  have hda := (ofsmRows_defined hch.1 hrows a hx hy).1
  have hdb := (ofsmRows_defined hch.1 hrows b hx hy).1
  rw [← hda, ← hdb]
  rcases hcol with ⟨h1, h2⟩ | ⟨h1, h2, _⟩
  · constructor <;> intro h <;> omega
  · exact ⟨fun _ => h2, fun _ => h1⟩

theorem ofsmWalkDown_spec {fsm : Fsm} {maxInput maxOutput : Int}
    {tables : List OFSMTable} (hch : OfsmChain fsm maxInput maxOutput tables) (p q : Nat) :
    ∀ (n : Nat) (s : OfsmState) (a b : Nat) (ot : OFSMTable), tables[n + 1]? = some ot →
      OfsmTracked fsm p q s a b → ot.s2c (fsm a).id ≠ ot.s2c (fsm b).id →
      ∃ s' a' b' ot1, ofsmWalkDown tables maxInput maxOutput n s = .ok s' ∧
        OfsmTracked fsm p q s' a' b' ∧ tables[1]? = some ot1 ∧
        ot1.s2c (fsm a').id ≠ ot1.s2c (fsm b').id := by
  intro n
  induction n with
  | zero =>
    intro s a b ot hget hG hD
    exact ⟨s, a, b, ot, rfl, hG, hget, hD⟩
  | succ n ih =>
    intro s a b ot hget hG hD
    have hlt : n + 1 + 1 < tables.length := (List.getElem?_eq_some.mp hget).1
    have hgetn : tables[n + 1]? = some (tables[n + 1]) := List.getElem?_eq_getElem (by omega)
    have hrows := hch.2.1 (tables[n + 1]) (List.getElem_mem _)
    obtain ⟨a1, b1, hG1, hdisj, hprog⟩ :=
      ofsmScanInputs_spec hch.1 hrows p q (symbolRange maxInput) (fun _ h => h) s a b hG
    have hD1 : (tables[n + 1]).s2c (fsm a1).id ≠ (tables[n + 1]).s2c (fsm b1).id := by
      by_cases hsame : (tables[n + 1]).s2c (fsm a).id = (tables[n + 1]).s2c (fsm b).id
      · apply hprog
        have hnot : ¬ ∀ x ∈ symbolRange maxInput, ∀ y ∈ symbolRange maxOutput,
            ofsmColumnsAgree (tables[n + 1]) (fsm a).id (fsm b).id x y := by
          intro hall
          exact hD ((hch.2.2.2 (n + 1) _ ot hgetn hget a b).mpr ⟨hsame, hall⟩)
        push_neg at hnot
        obtain ⟨x, hx, y, hy, hcol⟩ := hnot
        have hpairs := ofsmChain_same_pairs hch a b n _ hgetn hsame hx hy
        have hda := (ofsmRows_defined hch.1 hrows a hx hy).1
        have hdb := (ofsmRows_defined hch.1 hrows b hx hy).1
        unfold ofsmColumnsAgree at hcol
        push_neg at hcol
        obtain ⟨hc1, hc2⟩ := hcol
        have hboth : 0 ≤ (tables[n + 1]).get (fsm a).id x y ∧
            0 ≤ (tables[n + 1]).get (fsm b).id x y := by
          by_cases h0 : 0 ≤ (tables[n + 1]).get (fsm a).id x y
          · exact ⟨h0, hdb.mpr (hpairs.mp (hda.mp h0))⟩
          · exfalso
            have hb0 : ¬ 0 ≤ (tables[n + 1]).get (fsm b).id x y :=
              fun hb => h0 (hda.mpr (hpairs.mpr (hdb.mp hb)))
            have := hc1 (by omega)
            omega
        refine ⟨x, hx, y, hy, ?_, ?_, ?_⟩
        · rw [hG.1]; exact hboth.1
        · rw [hG.2.1]; exact hboth.2
        · rw [hG.1, hG.2.1]; exact hc2 hboth.1 hboth.2
      · rcases hdisj with ⟨_, ea, eb⟩ | hDD
        · rw [ea, eb]; exact hsame
        · exact hDD
    obtain ⟨s', a', b', ot1, hwalk, hG', hget1, hD'⟩ := ih _ a1 b1 _ hgetn hG1 hD1
    refine ⟨s', a', b', ot1, ?_, hG', hget1, hD'⟩
    rw [ofsmWalkDown, hgetn]
    exact hwalk

theorem ofsmSearchLast_spec {fsm : Fsm} {maxInput maxOutput : Int}
    {tables : List OFSMTable} (hch : OfsmChain fsm maxInput maxOutput tables)
    (a b : Nat) (ot0 ot1 : OFSMTable) (hget0 : tables[0]? = some ot0)
    (hget1 : tables[1]? = some ot1) (hD : ot1.s2c (fsm a).id ≠ ot1.s2c (fsm b).id) :
    ∃ x y, ofsmSearchLast ot0 (fsm a).id (fsm b).id maxInput maxOutput = some x ∧
      (((∃ tr ∈ (fsm a).transitions, tr.label = ⟨x, y⟩) ∧
          ¬ ∃ tr ∈ (fsm b).transitions, tr.label = ⟨x, y⟩) ∨
        ((¬ ∃ tr ∈ (fsm a).transitions, tr.label = ⟨x, y⟩) ∧
          ∃ tr ∈ (fsm b).transitions, tr.label = ⟨x, y⟩)) := by
  have hrows := hch.2.1 ot0 (List.getElem?_mem hget0)
  have hnot : ¬ ∀ x ∈ symbolRange maxInput, ∀ y ∈ symbolRange maxOutput,
      ofsmColumnsAgree ot0 (fsm a).id (fsm b).id x y := by
    intro hall
    exact hD ((hch.2.2.2 0 ot0 ot1 hget0 hget1 a b).mpr ⟨hch.2.2.1 ot0 hget0 a b, hall⟩)
  push_neg at hnot
  obtain ⟨x0, hx0, y0, hy0, hcol⟩ := hnot
  have hside0 : (ot0.get (fsm a).id x0 y0 < 0 ∧ ot0.get (fsm b).id x0 y0 ≥ 0) ∨
      (ot0.get (fsm a).id x0 y0 ≥ 0 ∧ ot0.get (fsm b).id x0 y0 < 0) := by
    unfold ofsmColumnsAgree at hcol
    push_neg at hcol
    obtain ⟨hc1, hc2⟩ := hcol
    by_cases ha0 : 0 ≤ ot0.get (fsm a).id x0 y0
    · by_cases hb0 : 0 ≤ ot0.get (fsm b).id x0 y0
      · exfalso
        obtain ⟨tra, _, _, hga⟩ := (ofsmRows_defined hch.1 hrows a hx0 hy0).2 ha0
        obtain ⟨trb, _, _, hgb⟩ := (ofsmRows_defined hch.1 hrows b hx0 hy0).2 hb0
        apply hc2 ha0 hb0
        rw [hga, hgb]
        exact hch.2.2.1 ot0 hget0 _ _
      · right; omega
    · left
      have := hc1 (by omega)
      omega
  have hsome : (ofsmSearchLast ot0 (fsm a).id (fsm b).id maxInput maxOutput).isSome = true := by
    unfold ofsmSearchLast
    rw [List.find?_isSome]
    refine ⟨x0, hx0, ?_⟩
    rw [List.any_eq_true]
    exact ⟨y0, hy0, by simpa using hside0⟩
  obtain ⟨x, hfind⟩ := Option.isSome_iff_exists.mp hsome
  have hfind' := hfind
  unfold ofsmSearchLast at hfind'
  have hp := List.find?_some hfind'
  have hx : x ∈ symbolRange maxInput := List.mem_of_find?_eq_some hfind'
  rw [List.any_eq_true] at hp
  obtain ⟨y, hy, hside⟩ := hp
  have hside' : (ot0.get (fsm a).id x y < 0 ∧ ot0.get (fsm b).id x y ≥ 0) ∨
      (ot0.get (fsm a).id x y ≥ 0 ∧ ot0.get (fsm b).id x y < 0) := by simpa using hside
  have hda := (ofsmRows_defined hch.1 hrows a hx hy).1
  have hdb := (ofsmRows_defined hch.1 hrows b hx hy).1
  refine ⟨x, y, hfind, ?_⟩
  rcases hside' with ⟨h1, h2⟩ | ⟨h1, h2⟩
  · right
    exact ⟨fun h => by have := hda.mpr h; omega, hdb.mp h2⟩
  · left
    exact ⟨hda.mp h1, fun h => by have := hdb.mpr h; omega⟩

theorem ofsmFsm_ge_three (n : Nat) : ofsmFsm (n + 1 + 1 + 1) = ofsmFsm 3 := rfl

theorem observable_ofsmFsm : Observable ofsmFsm := by
  intro n
  unfold FsmNode.isObservable
  rcases n with _ | _ | _ | n
  · decide
  · decide
  · decide
  · rw [ofsmFsm_ge_three]; decide

theorem ofsmRows_ofsmFsm (ot : OFSMTable) (hget : ot.get = ofsmFsmGet) :
    OfsmRows ofsmFsm 0 1 ot := by
  intro n
  rw [hget]
  rcases n with _ | _ | _ | n
  · decide
  · decide
  · decide
  · rw [ofsmFsm_ge_three]; decide

theorem ofsmChain_ofsmFsm : OfsmChain ofsmFsm 0 1 [ofsmT0, ofsmT1, ofsmT2] := by
  refine ⟨?_, ?_, ?_, ?_⟩
  · intro n
    rcases n with _ | _ | _ | n
    · decide
    · decide
    · decide
    · rw [ofsmFsm_ge_three]; decide
  · intro ot hot
    simp only [List.mem_cons, List.mem_singleton, List.not_mem_nil, or_false] at hot
    rcases hot with h | h | h <;> subst h <;> exact ofsmRows_ofsmFsm _ rfl
  · intro ot hot a b
    simp only [List.getElem?_cons_zero, Option.some.injEq] at hot
    subst hot
    rfl
  · intro k ot ot' hget hget' a b
    rcases k with _ | _ | k
    · simp only [List.getElem?_cons_zero, Option.some.injEq] at hget
      simp at hget'
      subst hget; subst hget'
      simp only [ofsmColumnsAgree]
      rcases a with _ | _ | _ | a <;> rcases b with _ | _ | _ | b <;>
        (try simp only [ofsmFsm_ge_three]) <;> decide
    · simp at hget hget'
      subst hget; subst hget'
      simp only [ofsmColumnsAgree]
      rcases a with _ | _ | _ | a <;> rcases b with _ | _ | _ | b <;>
        (try simp only [ofsmFsm_ge_three]) <;> decide
    · simp at hget'

/-- C6: for an observable machine, its OFSM-table chain and two nodes whose
classes differ in the last table, the OFSM-table `calcDistinguishingTrace`
returns a trace for which `distinguished` is true. -/
theorem calcDistinguishingTraceOFSM_distinguishes (lt : List Int → List Int → Bool)
    (hlt : StrictTotal lt) (fsm : Fsm) (maxInput maxOutput : Int) (tables : List OFSMTable)
    (p q : Nat) (otLast : OFSMTable) (hobs : Observable fsm)
    (hch : OfsmChain fsm maxInput maxOutput tables)
    (hlast : tables.getLast? = some otLast)
    (hd : otLast.s2c (fsm p).id ≠ otLast.s2c (fsm q).id) :
    ∃ trace,
      FsmNode.calcDistinguishingTraceOFSM fsm p q tables maxInput maxOutput = .ok trace ∧
      FsmNode.distinguished lt fsm p q trace = true := by
  cases tables with
  | nil => simp at hlast
  | cons t0 rest =>
    have hrest : rest ≠ [] := by
      intro h
      subst h
      simp only [List.getLast?_singleton, Option.some.injEq] at hlast
      subst hlast
      exact hd (hch.2.2.1 t0 (by simp) p q)
    have hmem : otLast ∈ rest := by
      cases rest with
      | nil => exact absurd rfl hrest
      | cons t1 r =>
        rw [List.getLast?_cons_cons] at hlast
        exact List.mem_of_getLast?_eq_some hlast
    obtain ⟨i, ot, hl, hget, hne⟩ :=
      ofsmLevelFrom_spec rest (fsm p).id (fsm q).id 1 ⟨otLast, hmem, hd⟩
    have hget' : (t0 :: rest)[i + 1]? = some ot := by simpa using hget
    obtain ⟨s', a', b', ot1, hwalk, hG, hget1, hD⟩ :=
      ofsmWalkDown_spec hch p q i ⟨(fsm p).id, (fsm q).id, []⟩ p q ot hget'
        ⟨rfl, rfl, [], rfl, rfl, rfl⟩ hne
    obtain ⟨hq1, hq2, ios, hpa, hpb, hitrc⟩ := hG
    obtain ⟨x, y, hsearch, hside⟩ := ofsmSearchLast_spec hch a' b' t0 ot1 (by simp) hget1 hD
    refine ⟨s'.itrc ++ [x], ?_, ?_⟩
    · unfold FsmNode.calcDistinguishingTraceOFSM
      simp only [List.drop_succ_cons, List.drop_zero, hl, Nat.add_sub_cancel_left, hwalk,
        List.head?_cons, hq1, hq2, hsearch]
    · rw [distinguished_eq_true_iff hlt, hitrc]
      exact outputsOf_ne_of_one_sided hobs ios p q a' b' x y hpa hpb hside

/-- Witness of C6: states 0 and 1 of `ofsmFsm` with its three OFSM-tables; the
trace found is `[0, 0]`. -/
theorem calcDistinguishingTraceOFSM_distinguishes_witness :
    StrictTotal lexLt ∧ Observable ofsmFsm ∧
    OfsmChain ofsmFsm 0 1 [ofsmT0, ofsmT1, ofsmT2] ∧
    [ofsmT0, ofsmT1, ofsmT2].getLast? = some ofsmT2 ∧
    ofsmT2.s2c (ofsmFsm 0).id ≠ ofsmT2.s2c (ofsmFsm 1).id ∧
    FsmNode.calcDistinguishingTraceOFSM ofsmFsm 0 1 [ofsmT0, ofsmT1, ofsmT2] 0 1
      = .ok [0, 0] ∧
    (∃ trace,
      FsmNode.calcDistinguishingTraceOFSM ofsmFsm 0 1 [ofsmT0, ofsmT1, ofsmT2] 0 1
        = .ok trace ∧
      FsmNode.distinguished lexLt ofsmFsm 0 1 trace = true) :=
  ⟨strictTotal_lexLt, observable_ofsmFsm, ofsmChain_ofsmFsm, rfl, by decide, rfl,
    calcDistinguishingTraceOFSM_distinguishes lexLt strictTotal_lexLt ofsmFsm 0 1
      [ofsmT0, ofsmT1, ofsmT2] 0 1 ofsmT2 observable_ofsmFsm ofsmChain_ofsmFsm rfl
      (by decide)⟩

/-! ## Candidate trees, containment and equality of output trees -/

theorem firstInputList_eq_some_iff (holds : List Int → Bool) (l : List Int) :
    ∀ ls : List (List Int), firstInputList holds ls = some l ↔
      ∃ pre post, ls = pre ++ l :: post ∧ (∀ l' ∈ pre, holds l' = false) ∧
        holds l = true := by
  intro ls
  induction ls with
  | nil =>
    simp only [firstInputList]
    constructor
    · intro h; exact absurd h (by simp)
    · rintro ⟨pre, post, h, _⟩
      exact absurd h (by simp)
  | cons a rest ih =>
    simp only [firstInputList]
    by_cases ha : holds a = true
    · rw [if_pos ha]
      constructor
      · intro h
        simp only [Option.some.injEq] at h
        subst h
        exact ⟨[], rest, rfl, fun _ h => absurd h (List.not_mem_nil _), ha⟩
      · rintro ⟨pre, post, hsplit, hpre, _⟩
        cases pre with
        | nil =>
          simp only [List.nil_append, List.cons.injEq] at hsplit
          rw [hsplit.1]
        | cons b pre' =>
          simp only [List.cons_append, List.cons.injEq] at hsplit
          have := hpre b (List.mem_cons_self _ _)
          rw [← hsplit.1, ha] at this
          exact absurd this (by decide)
    · rw [if_neg ha, ih]
      have ha' : holds a = false := by simpa using ha
      constructor
      · rintro ⟨pre, post, hsplit, hpre, hl⟩
        refine ⟨a :: pre, post, by rw [hsplit]; rfl, ?_, hl⟩
        intro l' hl'
        rcases List.mem_cons.mp hl' with e | m
        · rw [e]; exact ha'
        · exact hpre l' m
      · rintro ⟨pre, post, hsplit, hpre, hl⟩
        cases pre with
        | nil =>
          simp only [List.nil_append, List.cons.injEq] at hsplit
          rw [hsplit.1] at ha
          exact absurd hl ha
        | cons b pre' =>
          simp only [List.cons_append, List.cons.injEq] at hsplit
          exact ⟨pre', post, hsplit.2, fun l' h' => hpre l' (List.mem_cons_of_mem _ h'), hl⟩

theorem firstInputList_eq_none_iff (holds : List Int → Bool) :
    ∀ ls : List (List Int), firstInputList holds ls = none ↔ ∀ l ∈ ls, holds l = false := by
  intro ls
  induction ls with
  | nil => simp [firstInputList]
  | cons a rest ih =>
    simp only [firstInputList]
    by_cases ha : holds a = true
    · rw [if_pos ha]
      constructor
      · intro h; exact absurd h (by simp)
      · intro h
        have := h a (List.mem_cons_self _ _)
        rw [ha] at this
        exact absurd this (by decide)
    · rw [if_neg ha, ih]
      have ha' : holds a = false := by simpa using ha
      constructor
      · intro h l hl
        rcases List.mem_cons.mp hl with e | m
        · rw [e]; exact ha'
        · exact h l m
      · intro h l hl
        exact h l (List.mem_cons_of_mem _ hl)

/-- C11: each of the two overloads that take a tree `w` of candidates returns the
first input list of `w`, in the order of `getIOLists`, for which the test on
sequences (`distinguished`, `rDistinguished`) is true, and returns no witness
iff the test is false for every input list of `w`. -/
theorem distinguished_tree_first_witness (lt : List Int → List Int → Bool) (fsm : Fsm)
    (p q : Nat) (w : TreeNode) :
    (∀ l, FsmNode.distinguishedTree lt fsm p q w = some l ↔
      ∃ pre post, w.getIOLists = pre ++ l :: post ∧
        (∀ l' ∈ pre, FsmNode.distinguished lt fsm p q l' = false) ∧
        FsmNode.distinguished lt fsm p q l = true) ∧
    (FsmNode.distinguishedTree lt fsm p q w = none ↔
      ∀ l ∈ w.getIOLists, FsmNode.distinguished lt fsm p q l = false) ∧
    (∀ l, FsmNode.rDistinguishedTree fsm p q w = some l ↔
      ∃ pre post, w.getIOLists = pre ++ l :: post ∧
        (∀ l' ∈ pre, FsmNode.rDistinguished fsm p q l' = false) ∧
        FsmNode.rDistinguished fsm p q l = true) ∧
    (FsmNode.rDistinguishedTree fsm p q w = none ↔
      ∀ l ∈ w.getIOLists, FsmNode.rDistinguished fsm p q l = false) :=
  ⟨fun l => firstInputList_eq_some_iff _ l _, firstInputList_eq_none_iff _ _,
    fun l => firstInputList_eq_some_iff _ l _, firstInputList_eq_none_iff _ _⟩

theorem contains_congr {lt : List Int → List Int → Bool} (h : StrictTotal lt)
    (t1 u1 t2 u2 : OutputTree) (ht : t1.inputTrace = t2.inputTrace)
    (hu : u1.inputTrace = u2.inputTrace)
    (hto : t1.getOutputTraces.toFinset = t2.getOutputTraces.toFinset)
    (huo : u1.getOutputTraces.toFinset = u2.getOutputTraces.toFinset) :
    t1.contains lt u1 = t2.contains lt u2 := by
  have hmem : ∀ (a b : OutputTree), a.getOutputTraces.toFinset = b.getOutputTraces.toFinset →
      ∀ x, x ∈ a.getOutputTraces ↔ x ∈ b.getOutputTraces := by
    intro a b hab x
    rw [← List.mem_toFinset, ← List.mem_toFinset, hab]
  rw [Bool.eq_iff_iff, contains_iff h, contains_iff h, ht, hu]
  apply and_congr_right
  intro _
  constructor
  · intro hsub x hx
    exact (hmem t1 t2 hto x).mp (hsub x ((hmem u1 u2 huo x).mpr hx))
  · intro hsub x hx
    exact (hmem t1 t2 hto x).mpr (hsub x ((hmem u1 u2 huo x).mp hx))

/-- C12: `T.contains(U)` is true iff the input trace of `U` equals that of `T` and
every output trace of `U` is an output trace of `T`; the result depends only
on the input traces and on the sets of output traces, not on their order or
multiplicity. -/
theorem contains_iff_subset (lt : List Int → List Int → Bool) (h : StrictTotal lt)
    (t u : OutputTree) :
    (t.contains lt u = true ↔
      (u.inputTrace = t.inputTrace ∧ ∀ o ∈ u.getOutputTraces, o ∈ t.getOutputTraces)) ∧
    (∀ t1 u1 t2 u2 : OutputTree,
      t1.inputTrace = t2.inputTrace → u1.inputTrace = u2.inputTrace →
      t1.getOutputTraces.toFinset = t2.getOutputTraces.toFinset →
      u1.getOutputTraces.toFinset = u2.getOutputTraces.toFinset →
      t1.contains lt u1 = t2.contains lt u2) :=
  ⟨contains_iff h t u, fun t1 u1 t2 u2 => contains_congr h t1 u1 t2 u2⟩

/-- Witness of C12: the output trees of the node with the outputs 0 and 1 and of
state `A` of the machine of the spec for the input trace `[0]`, with the
lexicographic comparison. -/
theorem contains_iff_subset_witness :
    StrictTotal lexLt ∧
    (((FsmNode.apply twoOutputsFsm 0 [0]).contains lexLt (FsmNode.apply specFsm 0 [0]) = true ↔
      ((FsmNode.apply specFsm 0 [0]).inputTrace = (FsmNode.apply twoOutputsFsm 0 [0]).inputTrace ∧
        ∀ o ∈ (FsmNode.apply specFsm 0 [0]).getOutputTraces,
          o ∈ (FsmNode.apply twoOutputsFsm 0 [0]).getOutputTraces)) ∧
    (∀ t1 u1 t2 u2 : OutputTree,
      t1.inputTrace = t2.inputTrace → u1.inputTrace = u2.inputTrace →
      t1.getOutputTraces.toFinset = t2.getOutputTraces.toFinset →
      u1.getOutputTraces.toFinset = u2.getOutputTraces.toFinset →
      t1.contains lexLt u1 = t2.contains lexLt u2)) :=
  ⟨strictTotal_lexLt,
    contains_iff_subset lexLt strictTotal_lexLt (FsmNode.apply twoOutputsFsm 0 [0])
      (FsmNode.apply specFsm 0 [0])⟩

/-- C13: `contains` is reflexive and tree equality is symmetric; hence the two
trees that `apply` builds from one node for one input trace are equal, and no
input sequence distinguishes a node from itself. -/
theorem contains_refl_eq_symm (lt : List Int → List Int → Bool) (h : StrictTotal lt)
    (t u : OutputTree) (fsm : Fsm) (p : Nat) (s : List Int) :
    t.contains lt t = true ∧
    OutputTree.eq lt t u = OutputTree.eq lt u t ∧
    OutputTree.eq lt (FsmNode.apply fsm p s) (FsmNode.apply fsm p s) = true ∧
    FsmNode.distinguished lt fsm p p s = false := by
  have hrefl : ∀ v : OutputTree, v.contains lt v = true :=
    fun v => (contains_iff h v v).mpr ⟨rfl, fun _ hx => hx⟩
  have heq : OutputTree.eq lt (FsmNode.apply fsm p s) (FsmNode.apply fsm p s) = true := by
    unfold OutputTree.eq
    rw [hrefl]; rfl
  refine ⟨hrefl t, ?_, heq, ?_⟩
  · unfold OutputTree.eq
    exact Bool.and_comm _ _
  · unfold FsmNode.distinguished
    rw [heq]; rfl

/-- Witness of C13: the output trees of the states `A` and `B` of the machine of
the spec for the input trace `[0, 1]`, with the lexicographic comparison. -/
theorem contains_refl_eq_symm_witness :
    StrictTotal lexLt ∧
    ((FsmNode.apply specFsm 0 [0, 1]).contains lexLt (FsmNode.apply specFsm 0 [0, 1]) = true ∧
    OutputTree.eq lexLt (FsmNode.apply specFsm 0 [0, 1]) (FsmNode.apply specFsm 1 [0, 1])
      = OutputTree.eq lexLt (FsmNode.apply specFsm 1 [0, 1]) (FsmNode.apply specFsm 0 [0, 1]) ∧
    OutputTree.eq lexLt (FsmNode.apply specFsm 0 [0, 1]) (FsmNode.apply specFsm 0 [0, 1]) = true ∧
    FsmNode.distinguished lexLt specFsm 0 0 [0, 1] = false) :=
  ⟨strictTotal_lexLt,
    contains_refl_eq_symm lexLt strictTotal_lexLt (FsmNode.apply specFsm 0 [0, 1])
      (FsmNode.apply specFsm 1 [0, 1]) specFsm 0 [0, 1]⟩

/-! ## Single-step queries -/

theorem getPossibleOutputs_foldl (x : Int) (trs : List FsmTransition) :
    ∀ acc : List Nat × List (List Int),
      trs.foldl
        (fun acc tr =>
          if tr.label.input = x then (acc.1 ++ [tr.target], acc.2 ++ [[tr.label.output]])
          else acc) acc
        = (acc.1 ++ (trs.filter (fun tr => tr.label.input = x)).map (fun tr => tr.target),
           acc.2 ++ (trs.filter (fun tr => tr.label.input = x)).map
              (fun tr => [tr.label.output])) := by
  induction trs with
  | nil => intro acc; simp
  | cons tr rest ih =>
    intro acc
    rw [List.foldl_cons]
    by_cases h : tr.label.input = x
    · rw [if_pos h, ih, List.filter_cons_of_pos (by simpa using h)]
      simp
    · rw [if_neg h, ih, List.filter_cons_of_neg (by simpa using h)]

theorem getPossibleOutputs_eq (fsm : Fsm) (n : Nat) (x : Int) (hx : x ≠ EPSILON)
    (outputs : List (List Int)) :
    FsmNode.getPossibleOutputs fsm n x outputs
      = ((FsmNode.transitionsOn fsm n x).map (fun tr => tr.target),
         (FsmNode.transitionsOn fsm n x).map (fun tr => [tr.label.output])) := by
  unfold FsmNode.getPossibleOutputs FsmNode.transitionsOn
  rw [if_neg hx, getPossibleOutputs_foldl]
  simp

/-- C14: for an input `x` other than `EPSILON`, `getPossibleOutputs(x, outputs)`
returns the targets of the transitions with input `x` in transition order and
sets `outputs` to the one-symbol output traces of the same transitions in the
same order, whatever `outputs` held before; both lists are as long as there
are transitions with input `x`, two for the node with the transitions `2/3`
and `2/4`. -/
theorem getPossibleOutputs_single (fsm : Fsm) (n : Nat) (x : Int) (hx : x ≠ EPSILON)
    (outputs : List (List Int)) :
    FsmNode.getPossibleOutputs fsm n x outputs
      = (((fsm n).transitions.filter (fun tr => tr.label.input = x)).map (fun tr => tr.target),
         ((fsm n).transitions.filter (fun tr => tr.label.input = x)).map
            (fun tr => [tr.label.output])) ∧
    (FsmNode.getPossibleOutputs fsm n x outputs).1.length
      = ((fsm n).transitions.filter (fun tr => tr.label.input = x)).length ∧
    (FsmNode.getPossibleOutputs fsm n x outputs).2.length
      = ((fsm n).transitions.filter (fun tr => tr.label.input = x)).length ∧
    FsmNode.getPossibleOutputs branchFsm 0 2 outputs = ([1, 2], [[3], [4]]) := by
  have h := getPossibleOutputs_eq fsm n x hx outputs
  unfold FsmNode.transitionsOn at h
  refine ⟨h, ?_, ?_, ?_⟩
  · rw [h]; simp
  · rw [h]; simp
  · rw [getPossibleOutputs_eq branchFsm 0 2 (by decide) outputs]
    rfl

/-- Witness of C14: the node with the transitions `2/3` and `2/4`, input 2, and a
parameter `outputs` that holds a trace at the call. -/
theorem getPossibleOutputs_single_witness :
    (2 : Int) ≠ EPSILON ∧
    (FsmNode.getPossibleOutputs branchFsm 0 2 [[7]]
      = (((branchFsm 0).transitions.filter (fun tr => tr.label.input = 2)).map
            (fun tr => tr.target),
         ((branchFsm 0).transitions.filter (fun tr => tr.label.input = 2)).map
            (fun tr => [tr.label.output])) ∧
    (FsmNode.getPossibleOutputs branchFsm 0 2 [[7]]).1.length
      = ((branchFsm 0).transitions.filter (fun tr => tr.label.input = 2)).length ∧
    (FsmNode.getPossibleOutputs branchFsm 0 2 [[7]]).2.length
      = ((branchFsm 0).transitions.filter (fun tr => tr.label.input = 2)).length ∧
    FsmNode.getPossibleOutputs branchFsm 0 2 [[7]] = ([1, 2], [[3], [4]])) :=
  ⟨by decide, getPossibleOutputs_single branchFsm 0 2 (by decide) [[7]]⟩

/-- C15: for every node, whatever its transitions are, `after(EPSILON)` is the
list with the node alone, `afterAsSet(EPSILON)` the set with the node alone,
and `getPossibleOutputs(EPSILON, outputs)` returns the node as only target and
leaves in `outputs` the only output trace `[EPSILON]`. -/
theorem epsilon_stays (fsm : Fsm) (n : Nat) (outputs : List (List Int)) :
    FsmNode.after fsm n EPSILON = [n] ∧
    FsmNode.afterAsSet fsm n EPSILON = {n} ∧
    FsmNode.getPossibleOutputs fsm n EPSILON outputs = ([n], [[EPSILON]]) := by
  refine ⟨?_, ?_, ?_⟩
  · unfold FsmNode.after
    rw [if_pos rfl]
  · unfold FsmNode.afterAsSet
    rw [if_pos rfl]
  · unfold FsmNode.getPossibleOutputs
    rw [if_pos rfl]

theorem mem_afterAsSet_foldl (x : Int) (m : Nat) (trs : List FsmTransition) :
    ∀ acc : Finset Nat,
      m ∈ trs.foldl
          (fun nodeSet tr => if tr.label.input = x then insert tr.target nodeSet else nodeSet) acc
        ↔ m ∈ acc ∨ ∃ tr ∈ trs, tr.label.input = x ∧ tr.target = m := by
  induction trs with
  | nil => intro acc; simp
  | cons tr rest ih =>
    intro acc
    rw [List.foldl_cons, ih]
    by_cases h : tr.label.input = x
    · rw [if_pos h, Finset.mem_insert]
      constructor
      · rintro ((e | hacc) | ⟨tr', hmem, hin, htg⟩)
        · exact Or.inr ⟨tr, List.mem_cons_self _ _, h, e.symm⟩
        · exact Or.inl hacc
        · exact Or.inr ⟨tr', List.mem_cons_of_mem _ hmem, hin, htg⟩
      · rintro (hacc | ⟨tr', hmem, hin, htg⟩)
        · exact Or.inl (Or.inr hacc)
        · rcases List.mem_cons.mp hmem with e | hm
          · subst e; exact Or.inl (Or.inl htg.symm)
          · exact Or.inr ⟨tr', hm, hin, htg⟩
    · rw [if_neg h]
      constructor
      · rintro (hacc | ⟨tr', hmem, hin, htg⟩)
        · exact Or.inl hacc
        · exact Or.inr ⟨tr', List.mem_cons_of_mem _ hmem, hin, htg⟩
      · rintro (hacc | ⟨tr', hmem, hin, htg⟩)
        · exact Or.inl hacc
        · rcases List.mem_cons.mp hmem with e | hm
          · subst e; exact absurd hin h
          · exact Or.inr ⟨tr', hm, hin, htg⟩

theorem mem_afterAsSet_iff (fsm : Fsm) (n : Nat) (x : Int) (m : Nat) :
    m ∈ FsmNode.afterAsSet fsm n x ↔ StepInput fsm n x m := by
  unfold FsmNode.afterAsSet StepInput
  by_cases hx : x = EPSILON
  · rw [if_pos hx, if_pos hx, Finset.mem_singleton]
  · rw [if_neg hx, if_neg hx, mem_afterAsSet_foldl]
    simp

theorem mem_after_iff (fsm : Fsm) (n : Nat) (x : Int) (m : Nat) :
    m ∈ FsmNode.after fsm n x ↔ StepInput fsm n x m := by
  unfold FsmNode.after StepInput
  by_cases hx : x = EPSILON
  · rw [if_pos hx, if_pos hx, List.mem_singleton]
  · rw [if_neg hx, if_neg hx]
    simp only [List.mem_map, List.mem_filter, decide_eq_true_eq]
    constructor
    · rintro ⟨tr, ⟨h1, h2⟩, h3⟩; exact ⟨tr, h1, h2, h3⟩
    · rintro ⟨tr, h1, h2, h3⟩; exact ⟨tr, ⟨h1, h2⟩, h3⟩

/-- C16: for every node and every input, `EPSILON` included, a node is in the set
`afterAsSet(x)` iff it occurs in the list `after(x)`: the set is the set of
elements of the list. -/
theorem afterAsSet_eq_after (fsm : Fsm) (n : Nat) (x : Int) :
    (∀ m, m ∈ FsmNode.afterAsSet fsm n x ↔ m ∈ FsmNode.after fsm n x) ∧
    FsmNode.afterAsSet fsm n x = (FsmNode.after fsm n x).toFinset := by
  have h : ∀ m, m ∈ FsmNode.afterAsSet fsm n x ↔ m ∈ FsmNode.after fsm n x :=
    fun m => by rw [mem_afterAsSet_iff, mem_after_iff]
  refine ⟨h, ?_⟩
  ext m
  rw [List.mem_toFinset]
  exact h m

/-! ## Multi-step `after` -/

theorem mem_afterAsSetInOut_foldl (x y : Int) (m : Nat) (trs : List FsmTransition) :
    ∀ acc : Finset Nat,
      m ∈ trs.foldl
          (fun lst tr =>
            if tr.label.input = x ∧ tr.label.output = y then insert tr.target lst else lst) acc
        ↔ m ∈ acc ∨ ∃ tr ∈ trs, (tr.label.input = x ∧ tr.label.output = y) ∧ tr.target = m := by
  induction trs with
  | nil => intro acc; simp
  | cons tr rest ih =>
    intro acc
    rw [List.foldl_cons, ih]
    by_cases h : tr.label.input = x ∧ tr.label.output = y
    · rw [if_pos h, Finset.mem_insert]
      constructor
      · rintro ((e | hacc) | ⟨tr', hmem, hin, htg⟩)
        · exact Or.inr ⟨tr, List.mem_cons_self _ _, h, e.symm⟩
        · exact Or.inl hacc
        · exact Or.inr ⟨tr', List.mem_cons_of_mem _ hmem, hin, htg⟩
      · rintro (hacc | ⟨tr', hmem, hin, htg⟩)
        · exact Or.inl (Or.inr hacc)
        · rcases List.mem_cons.mp hmem with e | hm
          · subst e; exact Or.inl (Or.inl htg.symm)
          · exact Or.inr ⟨tr', hm, hin, htg⟩
    · rw [if_neg h]
      constructor
      · rintro (hacc | ⟨tr', hmem, hin, htg⟩)
        · exact Or.inl hacc
        · exact Or.inr ⟨tr', List.mem_cons_of_mem _ hmem, hin, htg⟩
      · rintro (hacc | ⟨tr', hmem, hin, htg⟩)
        · exact Or.inl hacc
        · rcases List.mem_cons.mp hmem with e | hm
          · subst e; exact absurd hin h
          · exact Or.inr ⟨tr', hm, hin, htg⟩

theorem label_eq_iff (l : FsmLabel) (x y : Int) :
    l = ⟨x, y⟩ ↔ (l.input = x ∧ l.output = y) := by
  cases l with
  | mk i o => simp

theorem mem_afterAsSetInOut_iff (fsm : Fsm) (n : Nat) (x y : Int) (m : Nat) :
    m ∈ FsmNode.afterAsSetInOut fsm n x y ↔ StepInOut fsm n x y m := by
  unfold FsmNode.afterAsSetInOut StepInOut
  by_cases hxy : x = EPSILON ∧ y = EPSILON
  · rw [if_pos hxy, if_pos hxy, Finset.mem_singleton]
  · rw [if_neg hxy, if_neg hxy, mem_afterAsSetInOut_foldl]
    simp only [Finset.not_mem_empty, false_or, label_eq_iff]

theorem mem_foldl_afterAsSetInOut (fsm : Fsm) (m : Nat) (ios : List (Int × Int)) :
    ∀ nodeSet : Finset Nat,
      m ∈ ios.foldl
          (fun nodeSet xy =>
            nodeSet.biUnion (fun n => FsmNode.afterAsSetInOut fsm n xy.1 xy.2)) nodeSet
        ↔ ∃ a ∈ nodeSet, PathAlong (StepInOut fsm) a ios m := by
  induction ios with
  | nil =>
    intro nodeSet
    simp only [List.foldl_nil, PathAlong]
    constructor
    · intro h; exact ⟨m, h, rfl⟩
    · rintro ⟨a, ha, e⟩; rw [e]; exact ha
  | cons xy rest ih =>
    intro nodeSet
    rw [List.foldl_cons, ih]
    simp only [Finset.mem_biUnion, mem_afterAsSetInOut_iff, PathAlong]
    constructor
    · rintro ⟨b, ⟨a, ha, hstep⟩, hpath⟩
      exact ⟨a, ha, b, hstep, hpath⟩
    · rintro ⟨a, ha, b, hstep, hpath⟩
      exact ⟨b, ⟨a, ha, hstep⟩, hpath⟩

theorem mem_afterTraces_iff (fsm : Fsm) (n : Nat) (itrc otrc : List Int)
    (hlen : itrc.length = otrc.length) (m : Nat) :
    m ∈ FsmNode.afterTraces fsm n itrc otrc
      ↔ PathAlong (StepInOut fsm) n (itrc.zip otrc) m := by
  unfold FsmNode.afterTraces
  rw [if_neg (not_not.mpr hlen), mem_foldl_afterAsSetInOut]
  simp

theorem pathAlong_congr {step1 step2 : Nat → Int → Int → Nat → Prop}
    (h : ∀ a x y b, step1 a x y b ↔ step2 a x y b) (ios : List (Int × Int)) :
    ∀ a m, PathAlong step1 a ios m ↔ PathAlong step2 a ios m := by
  induction ios with
  | nil => intro a m; simp [PathAlong]
  | cons xy rest ih =>
    intro a m
    simp only [PathAlong]
    constructor
    · rintro ⟨b, h1, h2⟩; exact ⟨b, (h _ _ _ _).mp h1, (ih b m).mp h2⟩
    · rintro ⟨b, h1, h2⟩; exact ⟨b, (h _ _ _ _).mpr h1, (ih b m).mpr h2⟩

theorem stepEitherOr_iff_stepInOut {fsm : Fsm}
    (hno : ∀ a, ∀ tr ∈ (fsm a).transitions, tr.label ≠ ⟨EPSILON, EPSILON⟩)
    (a : Nat) (x y : Int) (b : Nat) : StepEitherOr fsm a x y b ↔ StepInOut fsm a x y b := by
  unfold StepEitherOr StepInOut
  by_cases hxy : x = EPSILON ∧ y = EPSILON
  · rw [if_pos hxy]
    constructor
    · rintro (⟨_, _, e⟩ | ⟨tr, hmem, hlab, _⟩)
      · exact e
      · rw [hxy.1, hxy.2] at hlab
        exact absurd hlab (hno a tr hmem)
    · intro e; exact Or.inl ⟨hxy.1, hxy.2, e⟩
  · rw [if_neg hxy]
    constructor
    · rintro (⟨h1, h2, _⟩ | h)
      · exact absurd ⟨h1, h2⟩ hxy
      · exact h
    · intro h; exact Or.inr h

/-- C17 (counterexample): node 0 of `epsilonFsm` has a transition labelled
`EPSILON/EPSILON` to node 1, so node 1 is reached from node 0 by a step of the
second alternative; `after([EPSILON], [EPSILON])` does not hold node 1, it is
the set with node 0 alone. -/
theorem afterTraces_ignores_epsilon_transition :
    PathAlong (StepEitherOr epsilonFsm) 0 ([EPSILON].zip [EPSILON]) 1 ∧
    (1 : Nat) ∉ FsmNode.afterTraces epsilonFsm 0 [EPSILON] [EPSILON] ∧
    FsmNode.afterTraces epsilonFsm 0 [EPSILON] [EPSILON] = {0} := by
  refine ⟨?_, by decide, by decide⟩
  refine ⟨1, Or.inr ⟨⟨⟨EPSILON, EPSILON⟩, 1⟩, ?_, rfl, rfl⟩, rfl⟩
  simp [epsilonFsm]

/-- C17 (amended): for traces `I`, `O` of equal length a node `m` is in `after(I, O)`
iff there are nodes `n = n_0, ..., n_k = m` such that for each `i` the node
`n_(i+1)` is `n_i` when `(I[i], O[i])` is `(EPSILON, EPSILON)`, and otherwise
`n_i` has a transition to `n_(i+1)` labelled `I[i]/O[i]`; `after(IOTrace)` gives
the same set. For a machine without a transition labelled `EPSILON/EPSILON`
the reading with the two alternatives side by side describes the same set. -/
theorem afterTraces_iff_path (fsm : Fsm) (n : Nat) (itrc otrc : List Int)
    (hlen : itrc.length = otrc.length) (m : Nat) :
    (m ∈ FsmNode.afterTraces fsm n itrc otrc
      ↔ PathAlong (StepInOut fsm) n (itrc.zip otrc) m) ∧
    FsmNode.afterIOTrace fsm n ⟨itrc, otrc⟩ = FsmNode.afterTraces fsm n itrc otrc ∧
    ((∀ a, ∀ tr ∈ (fsm a).transitions, tr.label ≠ ⟨EPSILON, EPSILON⟩) →
      (m ∈ FsmNode.afterTraces fsm n itrc otrc
        ↔ PathAlong (StepEitherOr fsm) n (itrc.zip otrc) m)) := by
  refine ⟨mem_afterTraces_iff fsm n itrc otrc hlen m, rfl, ?_⟩
  intro hno
  rw [mem_afterTraces_iff fsm n itrc otrc hlen m]
  exact (pathAlong_congr (stepEitherOr_iff_stepInOut hno) _ n m).symm

/-- Witness of C17 (amended): node 0 of `chainFsm` with the inputs `[0, 0]` and the
outputs `[0, 0]`, which lead to node 2. -/
theorem afterTraces_iff_path_witness :
    ([0, 0] : List Int).length = ([0, 0] : List Int).length ∧
    ((2 ∈ FsmNode.afterTraces chainFsm 0 [0, 0] [0, 0]
      ↔ PathAlong (StepInOut chainFsm) 0 (([0, 0] : List Int).zip [0, 0]) 2) ∧
    FsmNode.afterIOTrace chainFsm 0 ⟨[0, 0], [0, 0]⟩
      = FsmNode.afterTraces chainFsm 0 [0, 0] [0, 0] ∧
    ((∀ a, ∀ tr ∈ (chainFsm a).transitions, tr.label ≠ ⟨EPSILON, EPSILON⟩) →
      (2 ∈ FsmNode.afterTraces chainFsm 0 [0, 0] [0, 0]
        ↔ PathAlong (StepEitherOr chainFsm) 0 (([0, 0] : List Int).zip [0, 0]) 2))) :=
  ⟨rfl, afterTraces_iff_path chainFsm 0 [0, 0] [0, 0] rfl 2⟩

/-- C18: for an input trace and an output trace of different lengths `after(I, O)`
is the empty node set, whatever the transitions are; in particular it does
not hold the node itself. -/
theorem afterTraces_length_mismatch (fsm : Fsm) (n : Nat) (itrc otrc : List Int)
    (hlen : itrc.length ≠ otrc.length) :
    FsmNode.afterTraces fsm n itrc otrc = ∅ ∧ n ∉ FsmNode.afterTraces fsm n itrc otrc := by
  have h : FsmNode.afterTraces fsm n itrc otrc = ∅ := by
    unfold FsmNode.afterTraces
    rw [if_pos hlen]
  exact ⟨h, by rw [h]; exact Finset.not_mem_empty n⟩

/-- Witness of C18: node 0 of `chainFsm`, two inputs and one output. -/
theorem afterTraces_length_mismatch_witness :
    ([0, 0] : List Int).length ≠ ([0] : List Int).length ∧
    (FsmNode.afterTraces chainFsm 0 [0, 0] [0] = ∅ ∧
      0 ∉ FsmNode.afterTraces chainFsm 0 [0, 0] [0]) :=
  ⟨by decide, afterTraces_length_mismatch chainFsm 0 [0, 0] [0] (by decide)⟩

theorem mem_foldl_afterAsSet (fsm : Fsm) (m : Nat) (itrc : List Int) :
    ∀ nodeSet : Finset Nat,
      m ∈ itrc.foldl
          (fun nodeSet x => nodeSet.biUnion (fun n => FsmNode.afterAsSet fsm n x)) nodeSet
        ↔ ∃ a ∈ nodeSet, InputPath fsm a itrc m := by
  induction itrc with
  | nil =>
    intro nodeSet
    simp only [List.foldl_nil, InputPath]
    constructor
    · intro h; exact ⟨m, h, rfl⟩
    · rintro ⟨a, ha, e⟩; rw [e]; exact ha
  | cons x rest ih =>
    intro nodeSet
    rw [List.foldl_cons, ih]
    simp only [Finset.mem_biUnion, mem_afterAsSet_iff, InputPath]
    constructor
    · rintro ⟨b, ⟨a, ha, hstep⟩, hpath⟩
      exact ⟨a, ha, b, hstep, hpath⟩
    · rintro ⟨a, ha, b, hstep, hpath⟩
      exact ⟨b, ⟨a, ha, hstep⟩, hpath⟩

theorem mem_afterInputTrace_iff (fsm : Fsm) (n : Nat) (itrc : List Int) (m : Nat) :
    m ∈ FsmNode.afterInputTrace fsm n itrc ↔ InputPath fsm n itrc m := by
  unfold FsmNode.afterInputTrace
  rw [mem_foldl_afterAsSet]
  simp

/-- C19: a node `m` is in `after(I)` iff `m` is reached from the node by a path
whose `i`-th step is a transition with input `I[i]`, a step on `EPSILON`
staying at the current node; for the empty trace the result is the set with
the node alone; the overload for a raw integer vector and the one for an
`InputTrace` return the same set. -/
theorem afterInputTrace_iff_path (fsm : Fsm) (n : Nat) (itrc : List Int) (m : Nat) :
    (m ∈ FsmNode.afterInputTrace fsm n itrc ↔ InputPath fsm n itrc m) ∧
    FsmNode.afterInputTrace fsm n [] = {n} ∧
    FsmNode.afterVector fsm n itrc = FsmNode.afterInputTrace fsm n itrc :=
  ⟨mem_afterInputTrace_iff fsm n itrc m, rfl, rfl⟩

/-! ## `getPossibleOutputs` for an input trace -/

theorem getPossibleOutputs_zip (fsm : Fsm) (n : Nat) (x : Int) :
    (FsmNode.getPossibleOutputs fsm n x []).2.zip (FsmNode.getPossibleOutputs fsm n x []).1
      = (stepsOn fsm n x).map (fun st => ([st.1], st.2)) := by
  unfold stepsOn
  by_cases hx : x = EPSILON
  · rw [if_pos hx]
    unfold FsmNode.getPossibleOutputs
    rw [if_pos hx]
    rfl
  · rw [if_neg hx, getPossibleOutputs_eq fsm n x hx]
    simp [List.zip_map', List.map_map, Function.comp_def]

theorem foldl_append_pair {α β γ : Type} (F : γ → List α) (G : γ → List β) (ps : List γ) :
    ∀ (a1 : List α) (a2 : List β),
      ps.foldl (fun acc p => (acc.1 ++ F p, acc.2 ++ G p)) (a1, a2)
        = (a1 ++ ps.flatMap F, a2 ++ ps.flatMap G) := by
  induction ps with
  | nil => intro a1 a2; simp
  | cons p rest ih =>
    intro a1 a2
    rw [List.foldl_cons, ih]
    simp [List.append_assoc]

theorem getPossibleOutputsTrace_singleton (fsm : Fsm) (rest : List Int) :
    ∀ (n : Nat) (pre : List Int) (reached : List Nat),
      FsmNode.getPossibleOutputsTrace fsm rest n [pre] reached
        = ((runsFrom fsm n rest).map (fun r => pre ++ r.1),
           reached ++ (runsFrom fsm n rest).map (fun r => r.2)) := by
  induction rest with
  | nil =>
    intro n pre reached
    simp [FsmNode.getPossibleOutputsTrace, runsFrom]
  | cons x rest ih =>
    intro n pre reached
    rw [FsmNode.getPossibleOutputsTrace]
    simp only [getPossibleOutputs_zip, ih, List.length_singleton, Nat.lt_one_iff,
      gt_iff_lt, Nat.zero_lt_one, if_true, List.flatMap_cons, List.flatMap_nil,
      List.append_nil]
    rw [foldl_append_pair
      (fun p : List Int × Nat =>
        ((runsFrom fsm p.2 rest).map (fun r => p.1 ++ r.1)).map (fun nOTrace => pre ++ nOTrace))
      (fun p : List Int × Nat => (runsFrom fsm p.2 rest).map (fun r => r.2))]
    simp [runsFrom, List.flatMap_map, List.map_flatMap, List.map_map, Function.comp_def]

theorem getPossibleOutputsTrace_eq_runs (fsm : Fsm) (n : Nat) (x : Int) (rest : List Int) :
    FsmNode.getPossibleOutputsTrace fsm (x :: rest) n [] []
      = ((runsFrom fsm n (x :: rest)).map (fun r => r.1),
         (runsFrom fsm n (x :: rest)).map (fun r => r.2)) := by
  rw [FsmNode.getPossibleOutputsTrace]
  simp only [getPossibleOutputs_zip, getPossibleOutputsTrace_singleton, List.length_nil,
    gt_iff_lt, Nat.lt_irrefl, if_false]
  rw [foldl_append_pair
    (fun p : List Int × Nat => (runsFrom fsm p.2 rest).map (fun r => p.1 ++ r.1))
    (fun p : List Int × Nat => (runsFrom fsm p.2 rest).map (fun r => r.2))]
  simp [runsFrom, List.flatMap_map, List.map_flatMap, List.map_map, Function.comp_def]

theorem mem_stepsOn_iff (fsm : Fsm) (a : Nat) (x y : Int) (b : Nat) :
    (y, b) ∈ stepsOn fsm a x ↔ StepEmit fsm a x y b := by
  unfold stepsOn StepEmit
  by_cases hx : x = EPSILON
  · rw [if_pos hx, if_pos hx]
    simp
  · rw [if_neg hx, if_neg hx]
    simp only [List.mem_map, mem_transitionsOn, Prod.mk.injEq, label_eq_iff]
    constructor
    · rintro ⟨tr, ⟨h1, h2⟩, h3, h4⟩; exact ⟨tr, h1, ⟨h2, h3⟩, h4⟩
    · rintro ⟨tr, h1, ⟨h2, h3⟩, h4⟩; exact ⟨tr, ⟨h1, h2⟩, h3, h4⟩

theorem mem_runsFrom_iff (fsm : Fsm) (itrc : List Int) :
    ∀ (n : Nat) (o : List Int) (m : Nat),
      (o, m) ∈ runsFrom fsm n itrc ↔
        (o.length = itrc.length ∧ PathAlong (StepEmit fsm) n (itrc.zip o) m) := by
  induction itrc with
  | nil =>
    intro n o m
    simp only [runsFrom, List.mem_singleton, Prod.mk.injEq, List.length_nil,
      List.length_eq_zero, List.zip_nil_left, PathAlong]
  | cons x rest ih =>
    intro n o m
    simp only [runsFrom, List.mem_flatMap, List.mem_map, Prod.mk.injEq, Prod.exists]
    cases o with
    | nil =>
      constructor
      · rintro ⟨y, b, _, o', m', _, h, _⟩
        exact absurd h (by simp)
      · rintro ⟨h, _⟩
        exact absurd h (by simp)
    | cons y o' =>
      simp only [List.cons.injEq, List.length_cons, Nat.add_right_cancel_iff, List.zip_cons_cons,
        PathAlong]
      constructor
      · rintro ⟨y', b, hst, o'', m', hr, ⟨e1, e2⟩, e3⟩
        subst e1; subst e2; subst e3
        have := (ih b o'' m').mp hr
        exact ⟨this.1, b, (mem_stepsOn_iff fsm n x y' b).mp hst, this.2⟩
      · rintro ⟨hlen, b, hstep, hpath⟩
        exact ⟨y, b, (mem_stepsOn_iff fsm n x y b).mpr hstep, o', m,
          (ih b o' m).mpr ⟨hlen, hpath⟩, ⟨rfl, rfl⟩, rfl⟩

theorem stepInput_iff_exists_stepEmit (fsm : Fsm) (a : Nat) (x : Int) (b : Nat) :
    StepInput fsm a x b ↔ ∃ y, StepEmit fsm a x y b := by
  unfold StepInput StepEmit
  by_cases hx : x = EPSILON
  · rw [if_pos hx]
    simp only [hx, if_true]
    constructor
    · intro e; exact ⟨EPSILON, rfl, e⟩
    · rintro ⟨_, _, e⟩; exact e
  · rw [if_neg hx]
    simp only [hx, if_false, label_eq_iff]
    constructor
    · rintro ⟨tr, h1, h2, h3⟩; exact ⟨tr.label.output, tr, h1, ⟨h2, rfl⟩, h3⟩
    · rintro ⟨y, tr, h1, ⟨h2, _⟩, h3⟩; exact ⟨tr, h1, h2, h3⟩

theorem inputPath_iff_exists_run (fsm : Fsm) (itrc : List Int) :
    ∀ (n m : Nat), InputPath fsm n itrc m ↔ ∃ o, (o, m) ∈ runsFrom fsm n itrc := by
  induction itrc with
  | nil =>
    intro n m
    simp [InputPath, runsFrom]
  | cons x rest ih =>
    intro n m
    simp only [InputPath, runsFrom, List.mem_flatMap, List.mem_map, Prod.mk.injEq, Prod.exists]
    constructor
    · rintro ⟨b, hstep, hpath⟩
      obtain ⟨y, hy⟩ := (stepInput_iff_exists_stepEmit fsm n x b).mp hstep
      obtain ⟨o, ho⟩ := (ih b m).mp hpath
      exact ⟨y :: o, y, b, (mem_stepsOn_iff fsm n x y b).mpr hy, o, m, ho, rfl, rfl⟩
    · rintro ⟨o, y, b, hst, o', m', hr, _, e⟩
      subst e
      exact ⟨b, (stepInput_iff_exists_stepEmit fsm n x b).mpr
        ⟨y, (mem_stepsOn_iff fsm n x y b).mp hst⟩, (ih b m').mpr ⟨o', hr⟩⟩

/-- C20: for a non-empty input trace `I`, `getPossibleOutputs(I, produced, reached)`
called with empty `produced` and `reached` yields one entry per path from the
node labelled with the inputs of `I` (`runsFrom`, whose members are the pairs
of an output sequence of length `|I|` and a node joined by such a path):
`produced` lists the output sequences and `reached` the end nodes of these
paths, in the same order, so both lists have the same length, every produced
trace has length `|I|`, and the elements of `reached` are those of `after(I)`. -/
theorem getPossibleOutputsTrace_paths (fsm : Fsm) (n : Nat) (itrc : List Int)
    (hne : itrc ≠ []) :
    FsmNode.getPossibleOutputsTrace fsm itrc n [] []
      = ((runsFrom fsm n itrc).map (fun r => r.1), (runsFrom fsm n itrc).map (fun r => r.2)) ∧
    (∀ o m, (o, m) ∈ runsFrom fsm n itrc ↔
      (o.length = itrc.length ∧ PathAlong (StepEmit fsm) n (itrc.zip o) m)) ∧
    (FsmNode.getPossibleOutputsTrace fsm itrc n [] []).1.length
      = (FsmNode.getPossibleOutputsTrace fsm itrc n [] []).2.length ∧
    (∀ o ∈ (FsmNode.getPossibleOutputsTrace fsm itrc n [] []).1, o.length = itrc.length) ∧
    (∀ m, m ∈ (FsmNode.getPossibleOutputsTrace fsm itrc n [] []).2
      ↔ m ∈ FsmNode.afterInputTrace fsm n itrc) := by
  cases itrc with
  | nil => exact absurd rfl hne
  | cons x rest =>
    have h := getPossibleOutputsTrace_eq_runs fsm n x rest
    refine ⟨h, mem_runsFrom_iff fsm (x :: rest) n, ?_, ?_, ?_⟩
    · rw [h]; simp
    · rw [h]
      intro o ho
      simp only [List.mem_map, Prod.exists] at ho
      obtain ⟨o', m, hmem, e⟩ := ho
      subst e
      exact ((mem_runsFrom_iff fsm (x :: rest) n o' m).mp hmem).1
    · intro m
      rw [h, mem_afterInputTrace_iff, inputPath_iff_exists_run]
      simp only [List.mem_map, Prod.exists]
      constructor
      · rintro ⟨o, m', hmem, e⟩
        subst e
        exact ⟨o, hmem⟩
      · rintro ⟨o, hmem⟩
        exact ⟨o, m, hmem, rfl⟩

/-- Witness of C20: the node with the outputs 0 and 1 and the input trace `[0, 0]`:
four paths. -/
theorem getPossibleOutputsTrace_paths_witness :
    ([0, 0] : List Int) ≠ [] ∧
    FsmNode.getPossibleOutputsTrace twoOutputsFsm [0, 0] 0 [] []
      = ([[0, 0], [0, 1], [1, 0], [1, 1]], [0, 0, 0, 0]) ∧
    (FsmNode.getPossibleOutputsTrace twoOutputsFsm [0, 0] 0 [] []
      = ((runsFrom twoOutputsFsm 0 [0, 0]).map (fun r => r.1),
         (runsFrom twoOutputsFsm 0 [0, 0]).map (fun r => r.2)) ∧
    (∀ o m, (o, m) ∈ runsFrom twoOutputsFsm 0 [0, 0] ↔
      (o.length = ([0, 0] : List Int).length ∧
        PathAlong (StepEmit twoOutputsFsm) 0 (([0, 0] : List Int).zip o) m)) ∧
    (FsmNode.getPossibleOutputsTrace twoOutputsFsm [0, 0] 0 [] []).1.length
      = (FsmNode.getPossibleOutputsTrace twoOutputsFsm [0, 0] 0 [] []).2.length ∧
    (∀ o ∈ (FsmNode.getPossibleOutputsTrace twoOutputsFsm [0, 0] 0 [] []).1,
      o.length = ([0, 0] : List Int).length) ∧
    (∀ m, m ∈ (FsmNode.getPossibleOutputsTrace twoOutputsFsm [0, 0] 0 [] []).2
      ↔ m ∈ FsmNode.afterInputTrace twoOutputsFsm 0 [0, 0])) :=
  ⟨by decide, by decide, getPossibleOutputsTrace_paths twoOutputsFsm 0 [0, 0] (by decide)⟩

theorem fromPosition_one (x : Int) (rest : List Int) :
    InputTrace.fromPosition (x :: rest) 1 = some rest := by
  unfold InputTrace.fromPosition
  cases rest with
  | nil => simp
  | cons y ys => simp

theorem getPossibleOutputs_lengths (fsm : Fsm) (n : Nat) (x : Int) (outputs : List (List Int)) :
    (FsmNode.getPossibleOutputs fsm n x outputs).2.length
      = (FsmNode.getPossibleOutputs fsm n x outputs).1.length := by
  by_cases hx : x = EPSILON
  · unfold FsmNode.getPossibleOutputs
    rw [if_pos hx]
    rfl
  · rw [getPossibleOutputs_eq fsm n x hx]
    simp

theorem noTwoPositions_iff_pairwise {α β : Type} (key : α → β) (l : List α) :
    NoTwoPositions key l ↔ l.Pairwise (fun a b => key a ≠ key b) := by
  rw [List.pairwise_iff_get]
  constructor
  · intro h i j hij
    exact h i j (Fin.ne_of_lt hij)
  · intro h i j hij
    rcases lt_or_gt_of_ne hij with hlt | hgt
    · exact h i j hlt
    · exact fun e => h j i hgt e.symm

theorem isObservableFrom_iff_pairwise (l : List FsmTransition) :
    isObservableFrom l = true ↔ l.Pairwise (fun a b => a.label ≠ b.label) := by
  induction l with
  | nil => simp [isObservableFrom]
  | cons tr rest ih =>
    have e : isObservableFrom (tr :: rest) =
        if rest.any (fun other => decide (tr.label = other.label)) = true then false
        else isObservableFrom rest := rfl
    rw [List.pairwise_cons, ← ih, e]
    by_cases hany : rest.any (fun other => decide (tr.label = other.label)) = true
    · rw [if_pos hany]
      constructor
      · intro h
        exact absurd h (by simp)
      · rintro ⟨h, -⟩
        rw [List.any_eq_true] at hany
        obtain ⟨other, hmem, heq⟩ := hany
        exact absurd (of_decide_eq_true heq) (h other hmem)
    · rw [if_neg hany]
      constructor
      · intro h
        refine ⟨?_, h⟩
        intro other hmem heq
        exact hany (List.any_eq_true.mpr ⟨other, hmem, decide_eq_true heq⟩)
      · exact fun h => h.2

theorem isDeterministicFrom_iff (l : List FsmTransition) (s : Finset Int) :
    isDeterministicFrom l s = true ↔
      (∀ tr ∈ l, tr.label.input ∉ s) ∧
        l.Pairwise (fun a b => a.label.input ≠ b.label.input) := by
  induction l generalizing s with
  | nil => simp [isDeterministicFrom]
  | cons tr rest ih =>
    have e : isDeterministicFrom (tr :: rest) s =
        if tr.label.input ∈ s then false
        else isDeterministicFrom rest (insert tr.label.input s) := rfl
    rw [e]
    by_cases hmem : tr.label.input ∈ s
    · rw [if_pos hmem]
      constructor
      · intro h
        exact absurd h (by simp)
      · rintro ⟨h, -⟩
        exact absurd hmem (h tr (List.mem_cons_self _ _))
    · rw [if_neg hmem, ih, List.pairwise_cons]
      constructor
      · rintro ⟨h1, h2⟩
        refine ⟨?_, ?_, h2⟩
        · intro t ht
          rcases List.mem_cons.mp ht with rfl | ht
          · exact hmem
          · exact fun hs => h1 t ht (Finset.mem_insert_of_mem hs)
        · intro t ht heq
          exact h1 t ht (by rw [← heq]; exact Finset.mem_insert_self _ _)
      · rintro ⟨h1, h2, h3⟩
        refine ⟨?_, h3⟩
        intro t ht hs
        rcases Finset.mem_insert.mp hs with heq | hs
        · exact h2 t ht heq.symm
        · exact h1 t (List.mem_cons_of_mem _ ht) hs

theorem isDeterministic_iff_pairwise (fsm : Fsm) (n : Nat) :
    FsmNode.isDeterministic fsm n = true ↔
      (fsm n).transitions.Pairwise (fun a b => a.label.input ≠ b.label.input) := by
  unfold FsmNode.isDeterministic
  rw [isDeterministicFrom_iff]
  simp

/-- C22: `isObservable()` answers true exactly when no two distinct positions
of the node's transition list carry the same (input, output) label. -/
theorem isObservable_iff_no_two_positions (fsm : Fsm) (n : Nat) :
    FsmNode.isObservable fsm n = true ↔
      ∀ i j : Fin (fsm n).transitions.length, i ≠ j →
        ((fsm n).transitions.get i).label ≠ ((fsm n).transitions.get j).label := by
  unfold FsmNode.isObservable
  rw [isObservableFrom_iff_pairwise]
  exact (noTwoPositions_iff_pairwise (fun tr : FsmTransition => tr.label) _).symm

/-- C23: `isDeterministic()` answers true exactly when no two distinct
positions of the node's transition list have the same input symbol, whatever
the outputs and the targets of the transitions are. -/
theorem isDeterministic_iff_no_two_positions (fsm : Fsm) (n : Nat) :
    FsmNode.isDeterministic fsm n = true ↔
      ∀ i j : Fin (fsm n).transitions.length, i ≠ j →
        ((fsm n).transitions.get i).label.input ≠
          ((fsm n).transitions.get j).label.input := by
  rw [isDeterministic_iff_pairwise]
  exact (noTwoPositions_iff_pairwise (fun tr : FsmTransition => tr.label.input) _).symm

/-- C24: a deterministic node is observable, and the node of `twoOutputsFsm`
(two transitions `0/0` and `0/1`) is observable without being
deterministic. -/
theorem deterministic_stronger_than_observable :
    (∀ (fsm : Fsm) (n : Nat),
        FsmNode.isDeterministic fsm n = true → FsmNode.isObservable fsm n = true) ∧
      (FsmNode.isObservable twoOutputsFsm 0 = true ∧
        FsmNode.isDeterministic twoOutputsFsm 0 = false) := by
  refine ⟨?_, by decide, by decide⟩
  intro fsm n h
  rw [isDeterministic_iff_pairwise] at h
  unfold FsmNode.isObservable
  rw [isObservableFrom_iff_pairwise]
  exact h.imp (fun hne e => hne (by rw [e]))

theorem deterministic_stronger_than_observable_witness :
    FsmNode.isDeterministic specFsm 0 = true ∧ FsmNode.isObservable specFsm 0 = true :=
  ⟨by decide, deterministic_stronger_than_observable.1 specFsm 0 (by decide)⟩

/-! ## Shape of the output tree -/

mutual
theorem length_getIOLists : ∀ t : TreeNode, t.getIOLists.length = t.getLeaves.length
  | .mk _ [] => rfl
  | .mk _ (c :: cs) => by
      rw [TreeNode.getIOLists, TreeNode.getLeaves]
      exact length_getIOListsEdges (c :: cs)
theorem length_getIOListsEdges : ∀ cs : List (Int × TreeNode),
    (TreeNode.getIOListsEdges cs).length = (TreeNode.getLeavesEdges cs).length
  | [] => rfl
  | (y, t) :: cs => by
      rw [TreeNode.getIOListsEdges, TreeNode.getLeavesEdges, List.length_append,
        List.length_append, List.length_map, length_getIOLists t, length_getIOListsEdges cs]
end

theorem outputsOf_length_le (fsm : Fsm) (s : List Int) :
    ∀ p : Nat, ∀ o ∈ outputsOf fsm p s, o.length ≤ s.length := by
  induction s with
  | nil =>
    intro p o ho
    rw [outputsOf, List.mem_singleton] at ho
    subst ho
    exact Nat.le_refl _
  | cons x t ih =>
    intro p o ho
    by_cases hempty : FsmNode.transitionsOn fsm p x = []
    · rw [outputsOf, if_pos hempty] at ho
      exact Nat.le_succ_of_le (ih p o ho)
    · rw [mem_outputsOf_cons fsm p x t o hempty] at ho
      obtain ⟨tr, _, _, o', ho', rfl⟩ := ho
      exact Nat.succ_le_succ (ih tr.target o' ho')

theorem reachable_refl (fsm : Fsm) (n : Nat) : Reachable fsm n n := ⟨[], rfl⟩

theorem reachable_of_transition (fsm : Fsm) (n m : Nat) (tr : FsmTransition)
    (htr : tr ∈ (fsm n).transitions) (h : Reachable fsm tr.target m) : Reachable fsm n m := by
  obtain ⟨ios, hios⟩ := h
  exact ⟨(tr.label.input, tr.label.output) :: ios, tr, htr, rfl, hios⟩

theorem transitionsOn_ne_nil_iff (fsm : Fsm) (n : Nat) (x : Int) :
    FsmNode.transitionsOn fsm n x ≠ [] ↔ FsmNode.hasTransition fsm n x = true := by
  unfold FsmNode.transitionsOn FsmNode.hasTransition
  rw [List.any_eq_true, Ne, List.filter_eq_nil_iff]
  push_neg
  rfl

theorem outputsOf_of_defined (fsm : Fsm) (s : List Int) :
    ∀ p : Nat,
      (∀ m, Reachable fsm p m → ∀ x ∈ s, FsmNode.hasTransition fsm m x = true) →
      ∀ o ∈ outputsOf fsm p s, o.length = s.length ∧ ∃ m, IOPath fsm p (s.zip o) m := by
  induction s with
  | nil =>
    intro p _ o ho
    rw [outputsOf, List.mem_singleton] at ho
    subst ho
    exact ⟨rfl, p, rfl⟩
  | cons x t ih =>
    intro p hdef o ho
    have hne : FsmNode.transitionsOn fsm p x ≠ [] :=
      (transitionsOn_ne_nil_iff fsm p x).mpr
        (hdef p (reachable_refl fsm p) x (List.mem_cons_self _ _))
    rw [mem_outputsOf_cons fsm p x t o hne] at ho
    obtain ⟨tr, htr, hx, o', ho', rfl⟩ := ho
    have hdef' : ∀ m, Reachable fsm tr.target m → ∀ y ∈ t,
        FsmNode.hasTransition fsm m y = true :=
      fun m hm y hy =>
        hdef m (reachable_of_transition fsm p m tr htr hm) y (List.mem_cons_of_mem _ hy)
    obtain ⟨hlen, m, hm⟩ := ih tr.target hdef' o' ho'
    refine ⟨by simp [hlen], m, ?_⟩
    rw [List.zip_cons_cons]
    exact ⟨tr, htr, (label_eq_iff _ _ _).mpr ⟨hx, rfl⟩, hm⟩

theorem specFsm_succ (n : Nat) : specFsm (n + 1) = specFsm 1 := rfl

theorem specFsm_hasTransition (m : Nat) :
    ∀ x ∈ [(0 : Int), 1], FsmNode.hasTransition specFsm m x = true := by
  cases m with
  | zero => decide
  | succ k =>
    unfold FsmNode.hasTransition
    rw [specFsm_succ]
    decide

/-- C21 (counterexample): a path of the output tree can be shorter than the
input trace. The node of `partialFsm` without transitions yields, for the
trace `[0]`, the tree whose only path is empty; the node of `skipFsm`, which
has only the transition `1/5`, yields for `[0, 1]` the single path `[5]` of
length 1, whose first edge carries the output of a transition with input
`I[1] = 1` although `I[0] = 0`. -/
theorem apply_path_shorter_than_trace :
    (FsmNode.apply partialFsm 1 [0]).getOutputTraces = [[]] ∧
      (FsmNode.apply skipFsm 0 [0, 1]).getOutputTraces = [[5]] ∧
      FsmNode.hasTransition skipFsm 0 0 = false := by
  decide

/-- C21 (amended): every root-to-leaf path of the output tree `n.apply(I)` has
at most `|I|` edges, and `getOutputTraces()` has exactly one entry per
root-to-leaf path (per leaf). When every node reachable from `n` has a
transition for every symbol of `I`, every path has exactly `|I|` edges and the
i-th edge carries an output that a transition with input `I[i]` produces: the
pairs of `I` and the path's outputs label a path of the machine from `n`. -/
theorem apply_paths (fsm : Fsm) (n : Nat) (I : List Int) :
    (∀ o ∈ (FsmNode.apply fsm n I).getOutputTraces, o.length ≤ I.length) ∧
      (FsmNode.apply fsm n I).getOutputTraces.length
        = (FsmNode.apply fsm n I).root.getLeaves.length ∧
      ((∀ m, Reachable fsm n m → ∀ x ∈ I, FsmNode.hasTransition fsm m x = true) →
        ∀ o ∈ (FsmNode.apply fsm n I).getOutputTraces,
          o.length = I.length ∧ ∃ m, IOPath fsm n (I.zip o) m) := by
  refine ⟨?_, length_getIOLists _, ?_⟩
  · rw [getOutputTraces_apply]
    exact outputsOf_length_le fsm I n
  · rw [getOutputTraces_apply]
    exact outputsOf_of_defined fsm I n

theorem apply_paths_witness :
    (∀ m, Reachable specFsm 0 m → ∀ x ∈ [(0 : Int), 1],
        FsmNode.hasTransition specFsm m x = true) ∧
      ∀ o ∈ (FsmNode.apply specFsm 0 [0, 1]).getOutputTraces,
        o.length = [(0 : Int), 1].length ∧ ∃ m, IOPath specFsm 0 ([(0 : Int), 1].zip o) m :=
  ⟨fun m _ => specFsm_hasTransition m,
    (apply_paths specFsm 0 [0, 1]).2.2 (fun m _ => specFsm_hasTransition m)⟩

theorem foldl_expandLeaves_cons (fsm : Fsm) (p : Nat) (x : Int) (xs : List Int) :
    (x :: xs).foldl (fun t y => t.expandLeaves fsm y) (TreeNode.mk p [])
      = if FsmNode.transitionsOn fsm p x = [] then
          xs.foldl (fun t y => t.expandLeaves fsm y) (TreeNode.mk p [])
        else TreeNode.mk p ((FsmNode.transitionsOn fsm p x).map (fun tr =>
          (tr.label.output,
            xs.foldl (fun t y => t.expandLeaves fsm y) (TreeNode.mk tr.target [])))) := by
  have hexp : (TreeNode.mk p []).expandLeaves fsm x
      = TreeNode.mk p ((FsmNode.transitionsOn fsm p x).map
          (fun tr => (tr.label.output, TreeNode.mk tr.target []))) := by
    unfold FsmNode.transitionsOn
    rw [TreeNode.expandLeaves]
  rw [List.foldl_cons, hexp]
  by_cases hempty : FsmNode.transitionsOn fsm p x = []
  · rw [if_pos hempty, hempty]
    rfl
  · rw [if_neg hempty, foldl_expandLeaves_of_children fsm xs p _ (by simpa using hempty)]
    simp [List.map_map, Function.comp_def]

theorem transitionsOn_length_le_one (fsm : Fsm) (n : Nat) (x : Int)
    (hdet : FsmNode.isDeterministic fsm n = true) :
    (FsmNode.transitionsOn fsm n x).length ≤ 1 := by
  rw [isDeterministic_iff_pairwise] at hdet
  have hpw : (FsmNode.transitionsOn fsm n x).Pairwise
      (fun a b => a.label.input ≠ b.label.input) := hdet.sublist (List.filter_sublist _)
  cases htr : FsmNode.transitionsOn fsm n x with
  | nil => simp
  | cons a rest =>
    cases rest with
    | nil => simp
    | cons b rest2 =>
      rw [htr] at hpw
      have ha : a.label.input = x :=
        ((mem_transitionsOn fsm n x a).mp (by rw [htr]; simp)).2
      have hb : b.label.input = x :=
        ((mem_transitionsOn fsm n x b).mp (by rw [htr]; simp)).2
      exact absurd (ha.trans hb.symm) ((List.pairwise_cons.mp hpw).1 b (by simp))

theorem single_run (fsm : Fsm) (s : List Int) :
    ∀ (p : Nat) (o : List Int),
      (∀ m, Reachable fsm p m → FsmNode.isDeterministic fsm m = true ∧
        ∀ x ∈ s, FsmNode.hasTransition fsm m x = true) →
      (s.foldl (fun t y => t.expandLeaves fsm y) (TreeNode.mk p [])).singleChild = true ∧
        ∃ (q : Nat) (outs : List Int), feedInputs fsm p s o = some (q, o ++ outs) ∧
          outs.length = s.length ∧ outputsOf fsm p s = [outs] := by
  induction s with
  | nil =>
    intro p o _
    exact ⟨by simp [TreeNode.singleChild, TreeNode.singleChildEdges], p, [],
      by simp [feedInputs], rfl, rfl⟩
  | cons x t ih =>
    intro p o h
    have hp := h p (reachable_refl fsm p)
    have hne : FsmNode.transitionsOn fsm p x ≠ [] :=
      (transitionsOn_ne_nil_iff fsm p x).mpr (hp.2 x (List.mem_cons_self _ _))
    have hle := transitionsOn_length_le_one fsm p x hp.1
    obtain ⟨tr, htr⟩ : ∃ tr, FsmNode.transitionsOn fsm p x = [tr] := by
      cases hl : FsmNode.transitionsOn fsm p x with
      | nil => exact absurd hl hne
      | cons a rest =>
        cases rest with
        | nil => exact ⟨a, rfl⟩
        | cons b rest2 => rw [hl] at hle; simp at hle
    have hmem : tr ∈ (fsm p).transitions :=
      ((mem_transitionsOn fsm p x tr).mp (by rw [htr]; simp)).1
    have h' : ∀ m, Reachable fsm tr.target m → FsmNode.isDeterministic fsm m = true ∧
        ∀ y ∈ t, FsmNode.hasTransition fsm m y = true :=
      fun m hm =>
        ⟨(h m (reachable_of_transition fsm p m tr hmem hm)).1,
          fun y hy => (h m (reachable_of_transition fsm p m tr hmem hm)).2 y
            (List.mem_cons_of_mem _ hy)⟩
    obtain ⟨hsingle, q, outs, hfeed, hlen, houts⟩ := ih tr.target (o ++ [tr.label.output]) h'
    refine ⟨?_, q, tr.label.output :: outs, ?_, by simp [hlen], ?_⟩
    · rw [foldl_expandLeaves_cons, if_neg hne, htr]
      simp [TreeNode.singleChild, TreeNode.singleChildEdges, hsingle]
    · have hfind : (fsm p).transitions.find? (fun tr => tr.label.input = x) = some tr := by
        rw [find?_eq_head?_transitionsOn, htr]
        rfl
      rw [feedInputs]
      unfold FsmNode.applyInput
      rw [hfind]
      simp only []
      rw [hfeed]
      simp
    · rw [outputsOf, if_neg hne, htr]
      simp [houts]

theorem apply_root (fsm : Fsm) (n : Nat) (s : List Int) :
    (FsmNode.apply fsm n s).root
      = s.foldl (fun t y => t.expandLeaves fsm y) (TreeNode.mk n []) := by
  unfold FsmNode.apply
  split
  · rename_i h
    have : s = [] := List.length_eq_zero.mp h
    subst this
    rfl
  · rfl

theorem specFsm_deterministic (m : Nat) : FsmNode.isDeterministic specFsm m = true := by
  cases m with
  | zero => decide
  | succ k =>
    unfold FsmNode.isDeterministic
    rw [specFsm_succ]
    decide

/-- C28: `getPossibleOutputs(I, produced, reached)` with the empty input trace
appends exactly the node itself to `reached` and leaves `produced` unchanged. -/
theorem getPossibleOutputsTrace_empty_trace (fsm : Fsm) (n : Nat)
    (produced : List (List Int)) (reached : List Nat) :
    FsmNode.getPossibleOutputsTrace fsm [] n produced reached
      = (produced, reached ++ [n]) := by
  rw [FsmNode.getPossibleOutputsTrace]

/-- C29: when every node reachable from `n` is deterministic and has a
transition for every symbol of `I`, no node of the output tree `n.apply(I)` has
more than one child, the tree has exactly one leaf (one root-to-leaf path),
and its only output trace is the one obtained by feeding `I` symbol by symbol
through the single-step `apply(e, o)` from `n` on, which has one output per
input. (This holds for every input trace `I`, the non-empty ones among them.) -/
theorem apply_deterministic_single_path (fsm : Fsm) (n : Nat) (I : List Int)
    (h : ∀ m, Reachable fsm n m → FsmNode.isDeterministic fsm m = true ∧
      ∀ x ∈ I, FsmNode.hasTransition fsm m x = true) :
    (FsmNode.apply fsm n I).root.singleChild = true ∧
      (FsmNode.apply fsm n I).root.getLeaves.length = 1 ∧
      ∃ (q : Nat) (outs : List Int), feedInputs fsm n I [] = some (q, outs) ∧
        outs.length = I.length ∧ (FsmNode.apply fsm n I).getOutputTraces = [outs] := by
  obtain ⟨hsingle, q, outs, hfeed, hlen, houts⟩ := single_run fsm I n [] h
  have htraces : (FsmNode.apply fsm n I).getOutputTraces = [outs] := by
    rw [getOutputTraces_apply, houts]
  refine ⟨?_, ?_, q, outs, by simpa using hfeed, hlen, htraces⟩
  · rw [apply_root]
    exact hsingle
  · rw [← length_getIOLists]
    have hlen1 := congrArg List.length htraces
    exact hlen1

theorem apply_deterministic_single_path_witness :
    (FsmNode.apply specFsm 0 [0, 1]).root.singleChild = true ∧
      (FsmNode.apply specFsm 0 [0, 1]).root.getLeaves.length = 1 ∧
      ∃ (q : Nat) (outs : List Int), feedInputs specFsm 0 [0, 1] [] = some (q, outs) ∧
        outs.length = [(0 : Int), 1].length ∧
        (FsmNode.apply specFsm 0 [0, 1]).getOutputTraces = [outs] :=
  apply_deterministic_single_path specFsm 0 [0, 1]
    (fun m _ => ⟨specFsm_deterministic m, specFsm_hasTransition m⟩)

theorem twoMovesFsm_ge_five (n : Nat) :
    twoMovesFsm (n + 1 + 1 + 1 + 1 + 1) = twoMovesFsm 5 := rfl

theorem observable_twoMovesFsm : Observable twoMovesFsm := by
  intro n
  unfold FsmNode.isObservable
  rcases n with _ | _ | _ | _ | _ | n
  · decide
  · decide
  · decide
  · decide
  · decide
  · rw [twoMovesFsm_ge_five]; decide

theorem ofsmRows_twoMovesFsm (ot : OFSMTable) (hget : ot.get = twoMovesGet) :
    OfsmRows twoMovesFsm 1 1 ot := by
  intro n
  rw [hget]
  rcases n with _ | _ | _ | _ | _ | n
  · decide
  · decide
  · decide
  · decide
  · decide
  · rw [twoMovesFsm_ge_five]; decide

theorem ofsmChain_twoMovesFsm :
    OfsmChain twoMovesFsm 1 1 [twoMovesT0, twoMovesT1, twoMovesT2] := by
  refine ⟨?_, ?_, ?_, ?_⟩
  · intro n
    rcases n with _ | _ | _ | _ | _ | n
    · decide
    · decide
    · decide
    · decide
    · decide
    · rw [twoMovesFsm_ge_five]; decide
  · intro ot hot
    simp only [List.mem_cons, List.mem_singleton, List.not_mem_nil, or_false] at hot
    rcases hot with h | h | h <;> subst h <;> exact ofsmRows_twoMovesFsm _ rfl
  · intro ot hot a b
    simp only [List.getElem?_cons_zero, Option.some.injEq] at hot
    subst hot
    rfl
  · intro k ot ot' hget hget' a b
    rcases k with _ | _ | k
    · simp only [List.getElem?_cons_zero, Option.some.injEq] at hget
      simp at hget'
      subst hget; subst hget'
      simp only [ofsmColumnsAgree]
      rcases a with _ | _ | _ | _ | _ | a <;> rcases b with _ | _ | _ | _ | _ | b <;>
        (try simp only [twoMovesFsm_ge_five]) <;> decide
    · simp at hget hget'
      subst hget; subst hget'
      simp only [ofsmColumnsAgree]
      rcases a with _ | _ | _ | _ | _ | a <;> rcases b with _ | _ | _ | _ | _ | b <;>
        (try simp only [twoMovesFsm_ge_five]) <;> decide
    · simp at hget'

/-- C30 (code runs otherwise): for the observable machine `twoMovesFsm`, its
OFSM-table chain and the nodes 0 and 1, the least level at which the classes
differ is `l = 2`, so one level is walked down. At that level the scan of
table 1 appends the two inputs 0 and 1 and moves the tracked pair twice,
from `(0, 1)` to `(2, 3)` and on to `(4, 5)`: the `break` leaves only the loop
over the outputs. The returned trace `[0, 1, 0]` has 3 symbols. -/
theorem calcDistinguishingTraceOFSM_two_inputs_at_one_level :
    Observable twoMovesFsm ∧
      OfsmChain twoMovesFsm 1 1 [twoMovesT0, twoMovesT1, twoMovesT2] ∧
      ofsmLevelFrom ([twoMovesT0, twoMovesT1, twoMovesT2].drop 1) 1
        (twoMovesFsm 0).id (twoMovesFsm 1).id = 2 ∧
      ofsmScanInputs twoMovesT1 1 1 ⟨0, 1, []⟩ = ⟨4, 5, [0, 1]⟩ ∧
      FsmNode.calcDistinguishingTraceOFSM twoMovesFsm 0 1
        [twoMovesT0, twoMovesT1, twoMovesT2] 1 1 = .ok [0, 1, 0] ∧
      FsmNode.distinguished lexLt twoMovesFsm 0 1 [0, 0] = true :=
  ⟨observable_twoMovesFsm, ofsmChain_twoMovesFsm, by decide, by decide, by rfl, by decide⟩

/-! ## DFSM table rows -/

theorem dfsmTableRowLoop_cons (fsm : Fsm) (tr : FsmTransition) (rest : List FsmTransition)
    (r : DFSMTableRow) (v : Int) (hx : 0 ≤ tr.label.input)
    (hv : r.ioSection[tr.label.input.toNat]? = some v) :
    dfsmTableRowLoop fsm (tr :: rest) r
      = if v ≥ 0 then .ok none
        else dfsmTableRowLoop fsm rest
          ⟨r.state, r.ioSection.set tr.label.input.toNat tr.label.output,
            r.i2postSection.set tr.label.input.toNat (fsm tr.target).id⟩ := by
  rw [dfsmTableRowLoop, if_neg (not_lt.mpr hx), hv]

theorem dfsmTableRowLoop_spec (fsm : Fsm) (N : Nat) (l : List FsmTransition) :
    ∀ r : DFSMTableRow, r.ioSection.length = N → r.i2postSection.length = N →
      (∀ tr ∈ l, 0 ≤ tr.label.input ∧ tr.label.input.toNat < N) →
      (∀ tr ∈ l, 0 ≤ tr.label.output) →
      (¬ RowFree l r → dfsmTableRowLoop fsm l r = .ok none) ∧
      (RowFree l r → ∃ r', dfsmTableRowLoop fsm l r = .ok (some r') ∧
        r'.state = r.state ∧ r'.ioSection.length = N ∧ r'.i2postSection.length = N ∧
        (∀ tr ∈ l, r'.ioSection[tr.label.input.toNat]? = some tr.label.output ∧
          r'.i2postSection[tr.label.input.toNat]? = some (fsm tr.target).id) ∧
        (∀ i, (∀ tr ∈ l, tr.label.input.toNat ≠ i) →
          r'.ioSection[i]? = r.ioSection[i]? ∧ r'.i2postSection[i]? = r.i2postSection[i]?)) := by
  induction l with
  | nil =>
    intro r hio hi2p _ _
    refine ⟨fun h => absurd ⟨List.Pairwise.nil, by simp⟩ h, fun _ => ?_⟩
    exact ⟨r, rfl, rfl, hio, hi2p, by simp, fun i _ => ⟨rfl, rfl⟩⟩
  | cons tr rest ih =>
    intro r hio hi2p hin hout
    obtain ⟨hx, hxN⟩ := hin tr (List.mem_cons_self _ _)
    have hy := hout tr (List.mem_cons_self _ _)
    have hin' : ∀ t ∈ rest, 0 ≤ t.label.input ∧ t.label.input.toNat < N :=
      fun t ht => hin t (List.mem_cons_of_mem _ ht)
    have hout' : ∀ t ∈ rest, 0 ≤ t.label.output :=
      fun t ht => hout t (List.mem_cons_of_mem _ ht)
    have hv : r.ioSection[tr.label.input.toNat]?
        = some (r.ioSection.getD tr.label.input.toNat 0) := by
      rw [List.getD_eq_getElem?_getD, List.getElem?_eq_getElem (by rw [hio]; exact hxN)]
      rfl
    generalize r.ioSection.getD tr.label.input.toNat 0 = v at hv
    rw [dfsmTableRowLoop_cons fsm tr rest r v hx hv]
    have hne_idx : ∀ t ∈ rest, t.label.input ≠ tr.label.input →
        tr.label.input.toNat ≠ t.label.input.toNat := by
      intro t ht hne e
      have h1 := Int.toNat_of_nonneg hx
      have h2 := Int.toNat_of_nonneg (hin' t ht).1
      exact hne (by rw [← h2, ← h1, e])
    by_cases hvneg : v ≥ 0
    · rw [if_pos hvneg]
      refine ⟨fun _ => rfl, fun hfree => ?_⟩
      have := hfree.2 tr (List.mem_cons_self _ _) v hv
      omega
    · rw [if_neg hvneg]
      have hlen1 : (r.ioSection.set tr.label.input.toNat tr.label.output).length = N := by
        rw [List.length_set, hio]
      have hlen2 : (r.i2postSection.set tr.label.input.toNat (fsm tr.target).id).length = N := by
        rw [List.length_set, hi2p]
      obtain ⟨ih1, ih2⟩ := ih ⟨r.state, r.ioSection.set tr.label.input.toNat tr.label.output,
        r.i2postSection.set tr.label.input.toNat (fsm tr.target).id⟩ hlen1 hlen2 hin' hout'
      have hiff : RowFree (tr :: rest) r ↔
          RowFree rest ⟨r.state, r.ioSection.set tr.label.input.toNat tr.label.output,
            r.i2postSection.set tr.label.input.toNat (fsm tr.target).id⟩ := by
        unfold RowFree
        rw [List.pairwise_cons]
        constructor
        · rintro ⟨⟨hhead, hpw⟩, hall⟩
          refine ⟨hpw, ?_⟩
          intro t ht w hw
          simp only [] at hw
          rw [List.getElem?_set_ne (hne_idx t ht (fun e => hhead t ht e.symm))] at hw
          exact hall t (List.mem_cons_of_mem _ ht) w hw
        · rintro ⟨hpw, hall⟩
          have hhead : ∀ t ∈ rest, tr.label.input ≠ t.label.input := by
            intro t ht e
            have := hall t ht tr.label.output (by
              simp only []
              rw [← e]
              exact List.getElem?_set_self (by rw [hio]; exact hxN))
            omega
          refine ⟨⟨hhead, hpw⟩, ?_⟩
          intro t ht w hw
          rcases List.mem_cons.mp ht with rfl | ht
          · rw [hv] at hw
            cases hw
            omega
          · refine hall t ht w ?_
            simp only []
            rw [List.getElem?_set_ne (hne_idx t ht (fun e => hhead t ht e.symm))]
            exact hw
      refine ⟨fun hnot => ih1 (fun h => hnot (hiff.mpr h)), fun hfree => ?_⟩
      obtain ⟨r', hr', hstate, hl1, hl2, hentries, hkeep⟩ := ih2 (hiff.mp hfree)
      refine ⟨r', hr', hstate, hl1, hl2, ?_, ?_⟩
      · intro t ht
        rcases List.mem_cons.mp ht with rfl | ht
        · have hk := hkeep t.label.input.toNat
            (fun u hu => (hne_idx u hu (fun e => (List.pairwise_cons.mp hfree.1).1 u hu e.symm)).symm)
          simp only [] at hk
          rw [hk.1, hk.2]
          exact ⟨List.getElem?_set_self (by rw [hio]; exact hxN),
            List.getElem?_set_self (by rw [hi2p]; exact hxN)⟩
        · exact hentries t ht
      · intro i hi
        have hk := hkeep i (fun u hu => hi u (List.mem_cons_of_mem _ hu))
        simp only [] at hk
        have hne : tr.label.input.toNat ≠ i := hi tr (List.mem_cons_self _ _)
        rw [hk.1, hk.2, List.getElem?_set_ne hne, List.getElem?_set_ne hne]
        exact ⟨rfl, rfl⟩

theorem rowFree_init (l : List FsmTransition) (state maxInput : Int) :
    RowFree l (DFSMTableRow.init state maxInput) ↔
      l.Pairwise (fun a b => a.label.input ≠ b.label.input) := by
  unfold RowFree DFSMTableRow.init
  constructor
  · exact fun h => h.1
  · intro h
    refine ⟨h, ?_⟩
    intro tr _ v hv
    simp only [List.getElem?_replicate] at hv
    split at hv
    · cases hv
      decide
    · cases hv

theorem toNat_lt_of_mem_symbolRange (maxInput x : Int) (hx : x ∈ symbolRange maxInput) :
    0 ≤ x ∧ x.toNat < (maxInput + 1).toNat := by
  rw [mem_symbolRange] at hx
  refine ⟨hx.1, ?_⟩
  rw [Int.toNat_lt hx.1, Int.toNat_of_nonneg (by omega)]
  omega

/-- C25 (counterexample): the node of `epsilonOutputFsm` has the two
transitions `0/EPSILON` and `0/3`, both with the input 0 in `0..0`, so it is
not deterministic; yet `getDFSMTableRow(0)` returns a row. The entry `-1` that
the first transition writes is taken for "no transition seen" by the test
`io.at(x) >= 0`. -/
theorem getDFSMTableRow_misses_negative_output :
    (∀ tr ∈ (epsilonOutputFsm 0).transitions, tr.label.input ∈ symbolRange 0) ∧
      FsmNode.isDeterministic epsilonOutputFsm 0 = false ∧
      FsmNode.getDFSMTableRow epsilonOutputFsm 0 0 = .ok (some ⟨0, [3], [0]⟩) :=
  ⟨by decide, by decide, rfl⟩

/-- C25 (amended): for a node whose transitions all have inputs in
`0..maxInput` and outputs that are not negative, `getDFSMTableRow(maxInput)`
returns "no row" exactly when the node is not deterministic; for a
deterministic node it returns a row with the node's id that holds, at every
input `x` of `0..maxInput` with a transition, that transition's output and
the id of its target, and `-1` (undefined) in both sections at every input
without a transition. -/
theorem getDFSMTableRow_spec (fsm : Fsm) (n : Nat) (maxInput : Int)
    (hin : ∀ tr ∈ (fsm n).transitions, tr.label.input ∈ symbolRange maxInput)
    (hout : ∀ tr ∈ (fsm n).transitions, 0 ≤ tr.label.output) :
    (FsmNode.getDFSMTableRow fsm n maxInput = .ok none ↔
        FsmNode.isDeterministic fsm n = false) ∧
      (FsmNode.isDeterministic fsm n = true →
        ∃ r, FsmNode.getDFSMTableRow fsm n maxInput = .ok (some r) ∧
          r.state = (fsm n).id ∧
          ∀ x ∈ symbolRange maxInput,
            (∀ tr ∈ (fsm n).transitions, tr.label.input = x →
              r.ioSection[x.toNat]? = some tr.label.output ∧
                r.i2postSection[x.toNat]? = some (fsm tr.target).id) ∧
            (FsmNode.hasTransition fsm n x = false →
              r.ioSection[x.toNat]? = some (-1) ∧ r.i2postSection[x.toNat]? = some (-1))) := by
  have hspec := dfsmTableRowLoop_spec fsm (maxInput + 1).toNat (fsm n).transitions
    (DFSMTableRow.init (fsm n).id maxInput) (by simp [DFSMTableRow.init])
    (by simp [DFSMTableRow.init])
    (fun tr htr => toNat_lt_of_mem_symbolRange maxInput _ (hin tr htr)) hout
  rw [rowFree_init, ← isDeterministic_iff_pairwise] at hspec
  obtain ⟨hnone, hsome⟩ := hspec
  have hrow : FsmNode.isDeterministic fsm n = true →
      ∃ r, FsmNode.getDFSMTableRow fsm n maxInput = .ok (some r) ∧
        r.state = (fsm n).id ∧
        ∀ x ∈ symbolRange maxInput,
          (∀ tr ∈ (fsm n).transitions, tr.label.input = x →
            r.ioSection[x.toNat]? = some tr.label.output ∧
              r.i2postSection[x.toNat]? = some (fsm tr.target).id) ∧
          (FsmNode.hasTransition fsm n x = false →
            r.ioSection[x.toNat]? = some (-1) ∧ r.i2postSection[x.toNat]? = some (-1)) := by
    intro hdet
    obtain ⟨r, hr, hstate, _, _, hentries, hkeep⟩ := hsome hdet
    refine ⟨r, hr, hstate, ?_⟩
    intro x hx
    refine ⟨?_, ?_⟩
    · intro tr htr he
      rw [← he]
      exact hentries tr htr
    · intro hno
      have hxr := toNat_lt_of_mem_symbolRange maxInput x hx
      have hk := hkeep x.toNat (by
        intro tr htr e
        have hne : tr.label.input ≠ x := by
          intro he
          have hhas : FsmNode.hasTransition fsm n x = true := by
            unfold FsmNode.hasTransition
            rw [List.any_eq_true]
            exact ⟨tr, htr, by simpa using he⟩
          rw [hno] at hhas
          exact Bool.false_ne_true hhas
        have h1 := Int.toNat_of_nonneg (toNat_lt_of_mem_symbolRange maxInput _ (hin tr htr)).1
        have h2 := Int.toNat_of_nonneg hxr.1
        exact hne (by rw [← h1, ← h2, e]))
      rw [hk.1, hk.2]
      simp only [DFSMTableRow.init, List.getElem?_replicate, if_pos hxr.2]
      exact ⟨trivial, trivial⟩
  refine ⟨?_, hrow⟩
  constructor
  · intro hres
    cases hdet : FsmNode.isDeterministic fsm n with
    | false => rfl
    | true =>
      obtain ⟨r, hr, _⟩ := hrow hdet
      rw [hr] at hres
      cases hres
  · intro hdet
    exact hnone (by rw [hdet]; exact Bool.false_ne_true)

theorem getDFSMTableRow_spec_witness :
    FsmNode.isDeterministic specFsm 1 = true ∧
      FsmNode.getDFSMTableRow specFsm 1 1 = .ok (some ⟨1, [1, 0], [0, 1]⟩) ∧
      ((FsmNode.getDFSMTableRow specFsm 1 1 = .ok none ↔
          FsmNode.isDeterministic specFsm 1 = false) ∧
        (FsmNode.isDeterministic specFsm 1 = true →
          ∃ r, FsmNode.getDFSMTableRow specFsm 1 1 = .ok (some r) ∧
            r.state = (specFsm 1).id ∧
            ∀ x ∈ symbolRange 1,
              (∀ tr ∈ (specFsm 1).transitions, tr.label.input = x →
                r.ioSection[x.toNat]? = some tr.label.output ∧
                  r.i2postSection[x.toNat]? = some (specFsm tr.target).id) ∧
              (FsmNode.hasTransition specFsm 1 x = false →
                r.ioSection[x.toNat]? = some (-1) ∧
                  r.i2postSection[x.toNat]? = some (-1)))) :=
  ⟨by decide, rfl, getDFSMTableRow_spec specFsm 1 1 (by decide) (by decide)⟩

/-- C26 (code runs otherwise): the transition list `[t0]` holds a transition
`0/0` to the node 7; `t1` is a transition to the same node with a separately
constructed label `0/0`. `addTransition(t1)` appends `t1`, after which the
list holds two transitions with identical (target, input, output); adding
`t0` itself, or a transition with the same label object, leaves the list
unchanged. -/
theorem addTransition_appends_equal_label :
    separateLabelsHeap.value 0 = separateLabelsHeap.value 1 ∧
      FsmNode.addTransition separateLabelsHeap [0] 1 = [0, 1] ∧
      (FsmNode.addTransition separateLabelsHeap [0] 1).map separateLabelsHeap.value
        = [⟨⟨0, 0⟩, 7⟩, ⟨⟨0, 0⟩, 7⟩] ∧
      FsmNode.addTransition separateLabelsHeap [0] 0 = [0] ∧
      FsmNode.addTransition separateLabelsHeap [1] 2 = [1] := by
  decide

/-! ## Monotonic refinement -/

theorem sameNext_refl (t : PkTableRows) (a : Int) : t.sameNext a a = true := by
  simp [PkTableRows.sameNext]

theorem sameNext_class (t : PkTableRows) (a b : Int) (h : t.sameNext a b = true) :
    t.s2c a = t.s2c b := by
  unfold PkTableRows.sameNext at h
  rw [Bool.and_eq_true] at h
  exact of_decide_eq_true h.1

theorem nextClass_spec (t : PkTableRows) (a : Int) (ha : a ∈ t.states) :
    t.sameNext a (t.nextClass a) = true := by
  unfold PkTableRows.nextClass
  cases hfind : t.states.find? (fun b => t.sameNext a b) with
  | none =>
    rw [List.find?_eq_none] at hfind
    exact absurd (sameNext_refl t a) (hfind a ha)
  | some b => exact List.find?_some hfind

theorem getPkPlusOneTable_s2c (t t' : PkTableRows) (h : t.getPkPlusOneTable = some t') :
    t'.s2c = t.nextClass := by
  unfold PkTableRows.getPkPlusOneTable at h
  split at h
  · cases h
  · cases h
    rfl

theorem sameNext_iff (t : PkTableRows) (a b : Int) :
    t.sameNext a b = true ↔
      (t.s2c a = t.s2c b ∧
        ∀ x ∈ symbolRange t.maxInput, t.s2c (t.i2p a x) = t.s2c (t.i2p b x)) := by
  simp [PkTableRows.sameNext]

theorem getPkPlusOneTable_same_class_iff (t t' : PkTableRows)
    (h : t.getPkPlusOneTable = some t') (a b : Int) (ha : a ∈ t.states) (hb : b ∈ t.states) :
    t'.s2c a = t'.s2c b ↔
      (t.s2c a = t.s2c b ∧
        ∀ x ∈ symbolRange t.maxInput, t.s2c (t.i2p a x) = t.s2c (t.i2p b x)) := by
  rw [getPkPlusOneTable_s2c t t' h, ← sameNext_iff]
  constructor
  · intro heq
    have h1 := (sameNext_iff t a _).mp (nextClass_spec t a ha)
    have h2 := (sameNext_iff t b _).mp (nextClass_spec t b hb)
    rw [heq] at h1
    exact (sameNext_iff t a b).mpr
      ⟨h1.1.trans h2.1.symm, fun x hx => (h1.2 x hx).trans (h2.2 x hx).symm⟩
  · intro hab
    have hfun : (fun c => t.sameNext a c) = (fun c => t.sameNext b c) := by
      funext c
      have h1 := (sameNext_iff t a b).mp hab
      rw [Bool.eq_iff_iff, sameNext_iff, sameNext_iff]
      constructor
      · rintro ⟨e1, e2⟩
        exact ⟨h1.1.symm.trans e1, fun x hx => (h1.2 x hx).symm.trans (e2 x hx)⟩
      · rintro ⟨e1, e2⟩
        exact ⟨h1.1.trans e1, fun x hx => (h1.2 x hx).trans (e2 x hx)⟩
    unfold PkTableRows.nextClass
    rw [hfun]

theorem pkChain_step (fsm : Fsm) (maxInput : Int) (tables : List PkTable)
    (hch : PkChain fsm maxInput tables) (k : Nat) (pk : PkTable) (htk : tables[k]? = some pk)
    (p q : Nat) (hne : pk.getClass (fsm p).id ≠ pk.getClass (fsm q).id) :
    ∀ (d : Nat) (pk' : PkTable), tables[k + d]? = some pk' →
      pk'.getClass (fsm p).id ≠ pk'.getClass (fsm q).id := by
  intro d
  induction d with
  | zero =>
    intro pk' h
    rw [Nat.add_zero, htk] at h
    cases h
    exact hne
  | succ d ih =>
    intro pk' h
    have hlt : k + d < tables.length := by
      have := (List.getElem?_eq_some_iff.mp h).1
      omega
    have hprev : tables[k + d]? = some (tables[k + d]) := List.getElem?_eq_getElem hlt
    intro heq
    exact ih _ hprev (((hch.2 (k + d) _ pk' hprev h p q).mp heq).1)

theorem chainRows1_next :
    chainRows1.getPkPlusOneTable = some ⟨3, 1, chainRows1.i2p, chainRows1.nextClass⟩ := by
  unfold PkTableRows.getPkPlusOneTable
  rw [if_neg (by decide)]
  rfl

/-- C27: a successor table `T' = T.getPkPlusOneTable()` keeps apart the states
that `T` keeps apart, and in a table list that is the Pk refinement chain of
a machine, two nodes in different classes of the table at index `k` are in
different classes of every table at an index `k' ≥ k`. -/
theorem pkRefinement_monotonic :
    (∀ (t t' : PkTableRows), t.getPkPlusOneTable = some t' →
      ∀ a ∈ t.states, ∀ b ∈ t.states, t.s2c a ≠ t.s2c b → t'.s2c a ≠ t'.s2c b) ∧
    (∀ (fsm : Fsm) (maxInput : Int) (tables : List PkTable),
      PkChain fsm maxInput tables →
      ∀ (k k' : Nat) (pk pk' : PkTable), k ≤ k' →
        tables[k]? = some pk → tables[k']? = some pk' →
        ∀ p q, pk.getClass (fsm p).id ≠ pk.getClass (fsm q).id →
          pk'.getClass (fsm p).id ≠ pk'.getClass (fsm q).id) := by
  constructor
  · intro t t' h a ha b hb hne heq
    rw [getPkPlusOneTable_s2c t t' h] at heq
    have h1 := sameNext_class t a _ (nextClass_spec t a ha)
    have h2 := sameNext_class t b _ (nextClass_spec t b hb)
    rw [heq] at h1
    exact hne (h1.trans h2.symm)
  · intro fsm maxInput tables hch k k' pk pk' hle htk htk' p q hne
    obtain ⟨d, rfl⟩ := Nat.exists_eq_add_of_le hle
    exact pkChain_step fsm maxInput tables hch k pk htk p q hne d pk' htk'

theorem pkRefinement_monotonic_witness :
    (∃ t', chainRows1.getPkPlusOneTable = some t' ∧
      (0 : Int) ∈ chainRows1.states ∧ (2 : Int) ∈ chainRows1.states ∧
      chainRows1.s2c 0 ≠ chainRows1.s2c 2 ∧ t'.s2c 0 ≠ t'.s2c 2 ∧
      t'.s2c 0 ≠ t'.s2c 1) ∧
    (PkChain chainFsm 1 [chainP1, chainP2] ∧
      chainP1.getClass (chainFsm 0).id ≠ chainP1.getClass (chainFsm 2).id ∧
      chainP2.getClass (chainFsm 0).id ≠ chainP2.getClass (chainFsm 2).id) :=
  ⟨⟨⟨3, 1, chainRows1.i2p, chainRows1.nextClass⟩, chainRows1_next, by decide, by decide,
      by decide,
      pkRefinement_monotonic.1 chainRows1 ⟨3, 1, chainRows1.i2p, chainRows1.nextClass⟩
        chainRows1_next 0 (by decide) 2 (by decide) (by decide),
      by decide⟩,
    ⟨pkChain_chainFsm, by decide,
      pkRefinement_monotonic.2 chainFsm 1 [chainP1, chainP2] pkChain_chainFsm 0 1
        chainP1 chainP2 (by decide) rfl rfl 0 2 (by decide)⟩⟩

/-! ## The OFSM-table variant: the base case -/

theorem find?_first {α : Type} (f : α → Bool) (x : α) (post : List α) (hx : f x = true) :
    ∀ pre : List α, (∀ y ∈ pre, f y = false) → (pre ++ x :: post).find? f = some x := by
  intro pre
  induction pre with
  | nil => intro _; simp [hx]
  | cons y ys ih =>
    intro hpre
    rw [List.cons_append, List.find?_cons_of_neg _ (by simp [hpre y (List.mem_cons_self _ _)])]
    exact ih (fun z hz => hpre z (List.mem_cons_of_mem _ hz))

theorem ofsmSearchLast_test_iff (ot0 : OFSMTable) (q1 q2 maxOutput x : Int) :
    ((symbolRange maxOutput).any (fun y =>
      decide ((ot0.get q1 x y < 0 ∧ ot0.get q2 x y ≥ 0) ∨
              (ot0.get q1 x y ≥ 0 ∧ ot0.get q2 x y < 0)))) = true ↔
      ∃ y, 0 ≤ y ∧ y ≤ maxOutput ∧ ofsmOneSided ot0 q1 q2 x y := by
  rw [List.any_eq_true]
  constructor
  · rintro ⟨y, hy, h⟩
    rw [mem_symbolRange] at hy
    exact ⟨y, hy.1, hy.2, of_decide_eq_true h⟩
  · rintro ⟨y, h0, h1, h⟩
    exact ⟨y, (mem_symbolRange _ _).mpr ⟨h0, h1⟩, decide_eq_true h⟩

theorem ofsmSearchLast_least (ot0 : OFSMTable) (q1 q2 maxInput maxOutput x : Int)
    (hx0 : 0 ≤ x) (hx1 : x ≤ maxInput)
    (hx : ∃ y, 0 ≤ y ∧ y ≤ maxOutput ∧ ofsmOneSided ot0 q1 q2 x y)
    (hleast : ∀ x', 0 ≤ x' → x' < x →
      ¬ ∃ y, 0 ≤ y ∧ y ≤ maxOutput ∧ ofsmOneSided ot0 q1 q2 x' y) :
    ofsmSearchLast ot0 q1 q2 maxInput maxOutput = some x := by
  obtain ⟨pre, post, hsplit, hpre⟩ :=
    symbolRange_split ((mem_symbolRange maxInput x).mpr ⟨hx0, hx1⟩)
  unfold ofsmSearchLast
  rw [hsplit]
  apply find?_first _ x post ((ofsmSearchLast_test_iff ot0 q1 q2 maxOutput x).mpr hx)
  intro x' hx'
  obtain ⟨hmem, hlt⟩ := hpre x' hx'
  rw [mem_symbolRange] at hmem
  rw [← Bool.not_eq_true, ofsmSearchLast_test_iff]
  exact hleast x' hmem.1 hlt

theorem ofsmSearchLast_none (ot0 : OFSMTable) (q1 q2 maxInput maxOutput : Int)
    (hnone : ∀ x y, 0 ≤ x → x ≤ maxInput → 0 ≤ y → y ≤ maxOutput →
      ¬ ofsmOneSided ot0 q1 q2 x y) :
    ofsmSearchLast ot0 q1 q2 maxInput maxOutput = none := by
  unfold ofsmSearchLast
  rw [List.find?_eq_none]
  intro x hx
  rw [mem_symbolRange] at hx
  rw [ofsmSearchLast_test_iff]
  rintro ⟨y, h0, h1, h⟩
  exact hnone x y hx.1 hx.2 h0 h1 h

/-- C31: in the base case of the OFSM-table `calcDistinguishingTrace`, with
`s` the loop state after the walk-down (tracked ids `s.q1`, `s.q2`, trace
`s.itrc`) and `ot0` the first table: the least input `x` of `0..maxInput` for
which some output `y` of `0..maxOutput` has a successor in `ot0` for exactly
one of the two ids is appended as the last symbol of the returned trace, and
when there is no such pair the trace of the walk-down is returned as it is. -/
theorem calcDistinguishingTraceOFSM_base_case (fsm : Fsm) (p q : Nat)
    (tables : List OFSMTable) (maxInput maxOutput : Int) (s : OfsmState) (ot0 : OFSMTable)
    (hwalk : ofsmWalkDown tables maxInput maxOutput
      (ofsmLevelFrom (tables.drop 1) 1 (fsm p).id (fsm q).id - 1)
      ⟨(fsm p).id, (fsm q).id, []⟩ = .ok s)
    (hhead : tables.head? = some ot0) :
    (∀ x, 0 ≤ x → x ≤ maxInput →
      (∃ y, 0 ≤ y ∧ y ≤ maxOutput ∧ ofsmOneSided ot0 s.q1 s.q2 x y) →
      (∀ x', 0 ≤ x' → x' < x →
        ¬ ∃ y, 0 ≤ y ∧ y ≤ maxOutput ∧ ofsmOneSided ot0 s.q1 s.q2 x' y) →
      FsmNode.calcDistinguishingTraceOFSM fsm p q tables maxInput maxOutput
        = .ok (s.itrc ++ [x])) ∧
    ((∀ x y, 0 ≤ x → x ≤ maxInput → 0 ≤ y → y ≤ maxOutput →
        ¬ ofsmOneSided ot0 s.q1 s.q2 x y) →
      FsmNode.calcDistinguishingTraceOFSM fsm p q tables maxInput maxOutput = .ok s.itrc) := by
  constructor
  · intro x hx0 hx1 hx hleast
    unfold FsmNode.calcDistinguishingTraceOFSM
    simp only [hwalk, hhead,
      ofsmSearchLast_least ot0 s.q1 s.q2 maxInput maxOutput x hx0 hx1 hx hleast]
  · intro hnone
    unfold FsmNode.calcDistinguishingTraceOFSM
    simp only [hwalk, hhead, ofsmSearchLast_none ot0 s.q1 s.q2 maxInput maxOutput hnone]

theorem calcDistinguishingTraceOFSM_base_case_witness :
    ofsmWalkDown [ofsmT0, ofsmT1, ofsmT2] 0 1
        (ofsmLevelFrom ([ofsmT0, ofsmT1, ofsmT2].drop 1) 1 (ofsmFsm 0).id (ofsmFsm 1).id - 1)
        ⟨(ofsmFsm 0).id, (ofsmFsm 1).id, []⟩ = .ok ⟨2, 3, [0]⟩ ∧
      ofsmOneSided ofsmT0 2 3 0 1 ∧
      FsmNode.calcDistinguishingTraceOFSM ofsmFsm 0 1 [ofsmT0, ofsmT1, ofsmT2] 0 1
        = .ok ([0] ++ [0]) :=
  ⟨rfl, by decide,
    (calcDistinguishingTraceOFSM_base_case ofsmFsm 0 1 [ofsmT0, ofsmT1, ofsmT2] 0 1
      ⟨2, 3, [0]⟩ ofsmT0 rfl rfl).1 0 (by decide) (by decide)
      ⟨1, by decide, by decide, by decide⟩ (fun x' h0 h1 => by omega)⟩

/-! ## The Pk-table variant: no call without defined result -/

theorem definedFrom_step {fsm : Fsm} {maxInput : Int} {n : Nat} {tr : FsmTransition}
    (h : DefinedFrom fsm maxInput n) (htr : tr ∈ (fsm n).transitions) :
    DefinedFrom fsm maxInput tr.target :=
  fun m hm => h m (reachable_of_transition fsm n m tr htr hm)

theorem after_head_of_hasTransition {fsm : Fsm} {maxInput : Int} {n : Nat} {x : Int}
    (hx : x ∈ symbolRange maxInput) (h : FsmNode.hasTransition fsm n x = true) :
    ∃ tr ∈ (fsm n).transitions, (FsmNode.after fsm n x).head? = some tr.target := by
  rw [after_eq_of_mem_symbolRange fsm n hx]
  have hne := (transitionsOn_ne_nil_iff fsm n x).mpr h
  cases htr : FsmNode.transitionsOn fsm n x with
  | nil => exact absurd htr hne
  | cons tr rest =>
    exact ⟨tr, ((mem_transitionsOn fsm n x tr).mp (by rw [htr]; simp)).1, rfl⟩

theorem pkSearchNext_ok {fsm : Fsm} {maxInput : Int} (pl : PkTable) (qi qj : Nat)
    (hi : DefinedFrom fsm maxInput qi) (hj : DefinedFrom fsm maxInput qj) :
    ∀ xs : List Int, (∀ x ∈ xs, x ∈ symbolRange maxInput) →
      ∃ r, pkSearchNext fsm pl qi qj xs = .ok r ∧
        ∀ x a b, r = some (x, a, b) →
          DefinedFrom fsm maxInput a ∧ DefinedFrom fsm maxInput b := by
  intro xs
  induction xs with
  | nil =>
    intro _
    exact ⟨none, rfl, fun x a b h => by cases h⟩
  | cons x xs ih =>
    intro hrange
    have hx := hrange x (List.mem_cons_self _ _)
    obtain ⟨tri, htri, hai⟩ := after_head_of_hasTransition hx (hi qi (reachable_refl fsm qi) x hx)
    obtain ⟨trj, htrj, haj⟩ := after_head_of_hasTransition hx (hj qj (reachable_refl fsm qj) x hx)
    obtain ⟨r, hr, hrdef⟩ := ih (fun y hy => hrange y (List.mem_cons_of_mem _ hy))
    by_cases hd : pl.getClass (fsm tri.target).id ≠ pl.getClass (fsm trj.target).id
    · refine ⟨some (x, tri.target, trj.target), by simp [pkSearchNext, hai, haj, hd], ?_⟩
      intro x' a b h
      simp only [Option.some.injEq, Prod.mk.injEq] at h
      obtain ⟨_, rfl, rfl⟩ := h
      exact ⟨definedFrom_step hi htri, definedFrom_step hj htrj⟩
    · exact ⟨r, by simp [pkSearchNext, hai, haj, not_not.mp hd, hr], hrdef⟩

theorem pkWalkDown_ok {fsm : Fsm} {maxInput : Int} (tables : List PkTable) :
    ∀ (n : Nat) (s : PkState), n ≤ tables.length →
      DefinedFrom fsm maxInput s.qi → DefinedFrom fsm maxInput s.qj →
      ∃ s', pkWalkDown fsm tables maxInput n s = .ok s' ∧
        DefinedFrom fsm maxInput s'.qi ∧ DefinedFrom fsm maxInput s'.qj := by
  intro n
  induction n with
  | zero => intro s _ hi hj; exact ⟨s, rfl, hi, hj⟩
  | succ n ih =>
    intro s hn hi hj
    have hgetn : tables[n]? = some (tables[n]) := List.getElem?_eq_getElem (by omega)
    obtain ⟨r, hr, hrdef⟩ := pkSearchNext_ok (tables[n]) s.qi s.qj hi hj _ (fun _ h => h)
    rw [pkWalkDown, hgetn]
    simp only [hr]
    cases r with
    | none => exact ih _ (by omega) hi hj
    | some xab =>
      obtain ⟨x, a, b⟩ := xab
      obtain ⟨ha, hb⟩ := hrdef x a b rfl
      exact ih _ (by omega) ha hb

theorem pkSearchLast_ok {fsm : Fsm} {maxInput : Int} (qi qj : Nat)
    (hi : DefinedFrom fsm maxInput qi) (hj : DefinedFrom fsm maxInput qj) :
    ∀ xs : List Int, (∀ x ∈ xs, x ∈ symbolRange maxInput) →
      ∃ r, pkSearchLast fsm qi qj xs = .ok r := by
  intro xs
  induction xs with
  | nil => intro _; exact ⟨none, rfl⟩
  | cons x xs ih =>
    intro hrange
    have hx := hrange x (List.mem_cons_self _ _)
    obtain ⟨tri, hai⟩ := applyInput_of_hasTransition (hi qi (reachable_refl fsm qi) x hx)
    obtain ⟨trj, haj⟩ := applyInput_of_hasTransition (hj qj (reachable_refl fsm qj) x hx)
    obtain ⟨r, hr⟩ := ih (fun y hy => hrange y (List.mem_cons_of_mem _ hy))
    by_cases hd : tri.label.output ≠ trj.label.output
    · exact ⟨some x, by simp [pkSearchLast, hai, haj, hd]⟩
    · exact ⟨r, by simp [pkSearchLast, hai, haj, not_not.mp hd, hr]⟩

theorem chainFsm_hasTransition (m : Nat) :
    ∀ x ∈ symbolRange 1, FsmNode.hasTransition chainFsm m x = true := by
  intro x hx
  rw [← transitionsOn_ne_nil_iff]
  intro h
  have := completelySpecified_chainFsm m x hx
  rw [h] at this
  simp at this

/-- C32: when every node reachable from this node or from the other node has
at least one transition for every input of `0..maxInput`, the Pk-table
`calcDistinguishingTrace` returns for every table list (the empty one and one
that never separates the two nodes among them): no first element of an empty
successor list or of an empty output trace is taken and the table list is not
indexed out of its range. -/
theorem calcDistinguishingTrace_no_fault (fsm : Fsm) (p q : Nat) (tables : List PkTable)
    (maxInput : Int)
    (hdef : ∀ m, Reachable fsm p m ∨ Reachable fsm q m →
      ∀ x ∈ symbolRange maxInput, FsmNode.hasTransition fsm m x = true) :
    ∃ r, FsmNode.calcDistinguishingTrace fsm p q tables maxInput = .ok r := by
  have hp : DefinedFrom fsm maxInput p := fun m hm => hdef m (Or.inl hm)
  have hq : DefinedFrom fsm maxInput q := fun m hm => hdef m (Or.inr hm)
  have hle := (pkLevelFrom_le tables (fsm p).id (fsm q).id 1).2
  obtain ⟨s, hs, hsi, hsj⟩ := pkWalkDown_ok tables
    (pkLevelFrom tables 1 (fsm p).id (fsm q).id - 1) ⟨p, q, [], []⟩ (by omega) hp hq
  obtain ⟨r, hr⟩ := pkSearchLast_ok s.qi s.qj hsi hsj (symbolRange maxInput) (fun _ h => h)
  unfold FsmNode.calcDistinguishingTrace
  simp only [hs, hr]
  cases r with
  | none => exact ⟨_, rfl⟩
  | some x => exact ⟨_, rfl⟩

theorem calcDistinguishingTrace_no_fault_witness :
    (∀ m, Reachable chainFsm 0 m ∨ Reachable chainFsm 1 m →
        ∀ x ∈ symbolRange 1, FsmNode.hasTransition chainFsm m x = true) ∧
      FsmNode.calcDistinguishingTrace chainFsm 0 1 [] 1
        = .ok ⟨[], [Diagnostic.inconsistency2]⟩ ∧
      (∃ r, FsmNode.calcDistinguishingTrace chainFsm 0 1 [oneClassTable] 1 = .ok r) :=
  ⟨fun m _ => chainFsm_hasTransition m, rfl,
    calcDistinguishingTrace_no_fault chainFsm 0 1 [oneClassTable] 1
      (fun m _ => chainFsm_hasTransition m)⟩

/-! ## Output constraints and concatenation for `after` -/

theorem stepInput_of_stepInOut {fsm : Fsm}
    (hne : ∀ n, ∀ tr ∈ (fsm n).transitions, tr.label.input ≠ EPSILON)
    (a : Nat) (x y : Int) (b : Nat) (h : StepInOut fsm a x y b) : StepInput fsm a x b := by
  unfold StepInOut at h
  unfold StepInput
  by_cases hxy : x = EPSILON ∧ y = EPSILON
  · rw [if_pos hxy] at h
    rw [if_pos hxy.1]
    exact h
  · rw [if_neg hxy] at h
    obtain ⟨tr, htr, hlabel, htarget⟩ := h
    have hin : tr.label.input = x := ((label_eq_iff _ _ _).mp hlabel).1
    have hx : ¬ x = EPSILON := fun e => hne a tr htr (hin.trans e)
    rw [if_neg hx]
    exact ⟨tr, htr, hin, htarget⟩

theorem inputPath_of_pathAlong {fsm : Fsm}
    (hne : ∀ n, ∀ tr ∈ (fsm n).transitions, tr.label.input ≠ EPSILON) (itrc : List Int) :
    ∀ (otrc : List Int) (a m : Nat), itrc.length = otrc.length →
      PathAlong (StepInOut fsm) a (itrc.zip otrc) m → InputPath fsm a itrc m := by
  induction itrc with
  | nil =>
    intro otrc a m _ h
    simpa [PathAlong, InputPath] using h
  | cons x xs ih =>
    intro otrc a m hlen h
    cases otrc with
    | nil => simp at hlen
    | cons y ys =>
      rw [List.zip_cons_cons] at h
      obtain ⟨b, hstep, hrest⟩ := h
      exact ⟨b, stepInput_of_stepInOut hne a x y b hstep,
        ih ys b m (by simpa using hlen) hrest⟩

theorem specFsm_no_epsilon_input :
    ∀ n, ∀ tr ∈ (specFsm n).transitions, tr.label.input ≠ EPSILON := by
  intro n
  cases n with
  | zero => decide
  | succ k => rw [specFsm_succ]; decide

/-- C33: in a machine without a transition whose input is `EPSILON`, every
node of `after(I, O)` is a node of `after(I)`, for every node and all traces
`I` and `O` (for traces of different lengths `after(I, O)` is empty). -/
theorem afterTraces_subset_afterInputTrace (fsm : Fsm)
    (hne : ∀ n, ∀ tr ∈ (fsm n).transitions, tr.label.input ≠ EPSILON)
    (n : Nat) (itrc otrc : List Int) :
    FsmNode.afterTraces fsm n itrc otrc ⊆ FsmNode.afterInputTrace fsm n itrc := by
  intro m hm
  by_cases hlen : itrc.length = otrc.length
  · rw [mem_afterTraces_iff fsm n itrc otrc hlen] at hm
    rw [mem_afterInputTrace_iff]
    exact inputPath_of_pathAlong hne itrc otrc n m hlen hm
  · unfold FsmNode.afterTraces at hm
    rw [if_pos hlen] at hm
    exact absurd hm (Finset.not_mem_empty m)

theorem afterTraces_subset_afterInputTrace_witness :
    (∀ n, ∀ tr ∈ (specFsm n).transitions, tr.label.input ≠ EPSILON) ∧
      FsmNode.afterTraces specFsm 0 [1, 0] [1, 1] = {0} ∧
      FsmNode.afterTraces specFsm 0 [1, 0] [1, 0] = ∅ ∧
      FsmNode.afterInputTrace specFsm 0 [1, 0] = {0} ∧
      FsmNode.afterTraces specFsm 0 [1, 0] [1, 1] ⊆ FsmNode.afterInputTrace specFsm 0 [1, 0] :=
  ⟨specFsm_no_epsilon_input, by decide, by decide, by decide,
    afterTraces_subset_afterInputTrace specFsm specFsm_no_epsilon_input 0 [1, 0] [1, 1]⟩

theorem foldl_afterAsSet_eq_biUnion (fsm : Fsm) (itrc : List Int) (nodeSet : Finset Nat) :
    itrc.foldl (fun nodeSet x => nodeSet.biUnion (fun n => FsmNode.afterAsSet fsm n x)) nodeSet
      = nodeSet.biUnion (fun m =>
          itrc.foldl (fun nodeSet x => nodeSet.biUnion (fun n => FsmNode.afterAsSet fsm n x))
            {m}) := by
  ext b
  rw [mem_foldl_afterAsSet, Finset.mem_biUnion]
  constructor
  · rintro ⟨a, ha, hpath⟩
    exact ⟨a, ha, (mem_foldl_afterAsSet fsm b itrc {a}).mpr ⟨a, Finset.mem_singleton_self a, hpath⟩⟩
  · rintro ⟨a, ha, hb⟩
    obtain ⟨a', ha', hpath⟩ := (mem_foldl_afterAsSet fsm b itrc {a}).mp hb
    rw [Finset.mem_singleton] at ha'
    subst ha'
    exact ⟨a', ha, hpath⟩

/-- C34: `after` is compositional over concatenation: for every node and input
sequences `s` and `t`, `after(s ++ t)` is the union of `m.after(t)` over the
nodes `m` of `after(s)`, for the overload that takes a vector of integers and
for the one that takes an `InputTrace`. -/
theorem after_append (fsm : Fsm) (n : Nat) (s t : List Int) :
    FsmNode.afterVector fsm n (s ++ t)
        = (FsmNode.afterVector fsm n s).biUnion (fun m => FsmNode.afterVector fsm m t) ∧
      FsmNode.afterInputTrace fsm n (s ++ t)
        = (FsmNode.afterInputTrace fsm n s).biUnion
            (fun m => FsmNode.afterInputTrace fsm m t) := by
  unfold FsmNode.afterVector FsmNode.afterInputTrace
  rw [List.foldl_append]
  exact ⟨foldl_afterAsSet_eq_biUnion fsm t _, foldl_afterAsSet_eq_biUnion fsm t _⟩

/-! ## Apartness and inequality -/

theorem outputsOf_ne_nil (fsm : Fsm) (s : List Int) : ∀ p : Nat, outputsOf fsm p s ≠ [] := by
  induction s with
  | nil => intro p; simp [outputsOf]
  | cons x t ih =>
    intro p
    rw [outputsOf]
    by_cases hempty : FsmNode.transitionsOn fsm p x = []
    · rw [if_pos hempty]
      exact ih p
    · rw [if_neg hempty]
      cases htr : FsmNode.transitionsOn fsm p x with
      | nil => exact absurd htr hempty
      | cons tr rest =>
        cases ho : outputsOf fsm tr.target t with
        | nil => exact absurd ho (ih tr.target)
        | cons o os => simp [ho]

theorem rDistinguished_disjoint (fsm : Fsm) (p q : Nat) (s : List Int)
    (h : FsmNode.rDistinguished fsm p q s = true) :
    ∀ o ∈ outputsOf fsm p s, o ∉ outputsOf fsm q s := by
  unfold FsmNode.rDistinguished OutputTree.getOutputsIntersection at h
  by_cases hlen : s.length < 1
  · simp [hlen] at h
  · simp only [hlen, if_false, decide_eq_true_eq, List.length_eq_zero] at h
    rw [intersectionOuter_nil_iff] at h
    intro o hp hq
    refine h ⟨s, o⟩ ?_ ⟨s, o⟩ ?_ rfl
    · unfold OutputTree.toIOTrace
      rw [apply_inputTrace, List.mem_map]
      exact ⟨o, by rw [← getOutputTraces_apply] at hp; exact hp, rfl⟩
    · unfold OutputTree.toIOTrace
      rw [apply_inputTrace, List.mem_map]
      exact ⟨o, by rw [← getOutputTraces_apply] at hq; exact hq, rfl⟩

/-- C35: apartness implies inequality: if `p.rDistinguished(q, s)` is true then
`p.distinguished(q, s)` is true, for all nodes `p`, `q` and every input
sequence `s` (the comparison of traces being a strict total order). -/
theorem rDistinguished_imp_distinguished (lt : List Int → List Int → Bool)
    (hlt : StrictTotal lt) (fsm : Fsm) (p q : Nat) (s : List Int)
    (h : FsmNode.rDistinguished fsm p q s = true) :
    FsmNode.distinguished lt fsm p q s = true := by
  rw [distinguished_eq_true_iff hlt]
  intro heq
  cases ho : outputsOf fsm p s with
  | nil => exact outputsOf_ne_nil fsm s p ho
  | cons o os =>
    have hp : o ∈ outputsOf fsm p s := by rw [ho]; exact List.mem_cons_self _ _
    have hq : o ∈ outputsOf fsm q s := by
      rw [← List.mem_toFinset, ← heq, List.mem_toFinset]
      exact hp
    exact rDistinguished_disjoint fsm p q s h o hp hq

theorem rDistinguished_imp_distinguished_witness :
    StrictTotal lexLt ∧ FsmNode.rDistinguished specFsm 0 1 [0] = true ∧
      FsmNode.distinguished lexLt specFsm 0 1 [0] = true :=
  ⟨strictTotal_lexLt, by decide,
    rDistinguished_imp_distinguished lexLt strictTotal_lexLt specFsm 0 1 [0] (by decide)⟩

/-! ## Removing a transition -/

theorem removeTransition_of_mem (transitions : List Nat) (t : Nat) (h : t ∈ transitions) :
    ∃ pre post, transitions = pre ++ t :: post ∧ t ∉ pre ∧
      FsmNode.removeTransition transitions t = (true, pre ++ post) := by
  induction transitions with
  | nil => exact absurd h (List.not_mem_nil _)
  | cons a rest ih =>
    by_cases hat : a = t
    · subst hat
      refine ⟨[], rest, rfl, List.not_mem_nil _, ?_⟩
      simp [FsmNode.removeTransition]
    · have hmem : t ∈ rest := by
        rcases List.mem_cons.mp h with e | e
        · exact absurd e.symm hat
        · exact e
      obtain ⟨pre, post, hsplit, hpre, hrem⟩ := ih hmem
      refine ⟨a :: pre, post, by rw [hsplit]; rfl, ?_, ?_⟩
      · intro hin
        rcases List.mem_cons.mp hin with e | e
        · exact hat e.symm
        · exact hpre e
      · have hlt : List.indexOf t rest < rest.length := List.indexOf_lt_length.mpr hmem
        unfold FsmNode.removeTransition at hrem ⊢
        simp only [ne_eq, Nat.ne_of_lt hlt, not_false_eq_true, if_true, Prod.mk.injEq,
          true_and] at hrem
        have hidx : List.indexOf t (a :: rest) = List.indexOf t rest + 1 :=
          List.indexOf_cons_ne _ hat
        simp only [hidx, List.length_cons, ne_eq, Nat.add_right_cancel_iff, Nat.ne_of_lt hlt,
          not_false_eq_true, if_true, List.eraseIdx_cons_succ, hrem, List.cons_append]

theorem removeTransition_of_not_mem (transitions : List Nat) (t : Nat) (h : t ∉ transitions) :
    FsmNode.removeTransition transitions t = (false, transitions) := by
  unfold FsmNode.removeTransition
  simp [List.indexOf_eq_length.mpr h]

/-- C36: `removeTransition(t)` returns true exactly when the pointer `t` is in
the transition list; then the list splits at the first occurrence of `t` as
`pre ++ t :: post` with `t` not in `pre`, and the list after the call is
`pre ++ post`; when it returns false the list is unchanged. -/
theorem removeTransition_spec (transitions : List Nat) (t : Nat) :
    ((FsmNode.removeTransition transitions t).1 = true ↔ t ∈ transitions) ∧
      ((FsmNode.removeTransition transitions t).1 = true →
        ∃ pre post, transitions = pre ++ t :: post ∧ t ∉ pre ∧
          (FsmNode.removeTransition transitions t).2 = pre ++ post) ∧
      ((FsmNode.removeTransition transitions t).1 = false →
        (FsmNode.removeTransition transitions t).2 = transitions) := by
  by_cases h : t ∈ transitions
  · obtain ⟨pre, post, hsplit, hpre, hrem⟩ := removeTransition_of_mem transitions t h
    refine ⟨⟨fun _ => h, fun _ => by rw [hrem]⟩, fun _ => ⟨pre, post, hsplit, hpre, by rw [hrem]⟩,
      fun hf => ?_⟩
    rw [hrem] at hf
    exact absurd hf (by simp)
  · have hrem := removeTransition_of_not_mem transitions t h
    refine ⟨⟨fun ht => ?_, fun hm => absurd hm h⟩, fun ht => ?_, fun _ => by rw [hrem]⟩
    · rw [hrem] at ht
      exact absurd ht (by simp)
    · rw [hrem] at ht
      exact absurd ht (by simp)

theorem removeTransition_spec_witness :
    FsmNode.removeTransition [4, 5, 6, 5] 5 = (true, [4, 6, 5]) ∧
      FsmNode.removeTransition [4, 5, 6, 5] 7 = (false, [4, 5, 6, 5]) ∧
      (∃ pre post, [4, 5, 6, 5] = pre ++ 5 :: post ∧ 5 ∉ pre ∧
        (FsmNode.removeTransition [4, 5, 6, 5] 5).2 = pre ++ post) :=
  ⟨by decide, by decide, (removeTransition_spec [4, 5, 6, 5] 5).2.1 (by decide)⟩

/-! ## The copy-from-position constructor -/

/-- C37 (counterexample): for the trace `[1, 2]` and `n = 2 = |t|` the
constructor `InputTrace(t, n)` yields `[2]`, the last symbol, and not the
empty suffix that starts at index 2: `n` is capped at `|t| - 1`. -/
theorem fromPosition_capped_at_last :
    InputTrace.fromPosition [1, 2] 2 = some [2] ∧ ([1, 2] : List Int).drop 2 = [] := by
  decide

/-- C37 (amended): for a non-empty trace `t` and a position `n ≥ 1`, the
constructor `InputTrace(t, n)` yields the suffix of `t` that starts at index
`n` when `n < |t|`; a position `n ≥ |t|` is capped at `|t| - 1`, which gives
the last symbol of `t` when `|t| ≥ 2` and the empty trace when `|t| = 1`. In
particular `InputTrace(t, 1)` is the tail of `t`. -/
theorem fromPosition_spec (t : List Int) (n : Nat) (ht : t ≠ []) (hn : 1 ≤ n) :
    (n < t.length → InputTrace.fromPosition t n = some (t.drop n)) ∧
      (t.length ≤ n → 2 ≤ t.length →
        InputTrace.fromPosition t n = some (t.drop (t.length - 1))) ∧
      (t.length = 1 → InputTrace.fromPosition t n = some []) ∧
      InputTrace.fromPosition t 1 = some t.tail := by
  have hlen : t.length ≠ 0 := fun h => ht (List.length_eq_zero.mp h)
  refine ⟨?_, ?_, ?_, ?_⟩
  · intro h
    unfold InputTrace.fromPosition
    rw [if_neg hlen]
    have h1 : ¬ n > t.length - 1 := by omega
    simp only [h1, if_false]
    rw [if_pos (by omega)]
  · intro h h2
    unfold InputTrace.fromPosition
    rw [if_neg hlen]
    have h1 : n > t.length - 1 := by omega
    simp only [h1, if_true]
    rw [if_pos (by omega)]
  · intro h
    unfold InputTrace.fromPosition
    rw [if_neg hlen]
    have h1 : n > t.length - 1 := by omega
    simp only [h1, if_true]
    rw [if_neg (by omega)]
  · cases t with
    | nil => exact absurd rfl ht
    | cons x rest => exact fromPosition_one x rest

theorem fromPosition_spec_witness :
    ([5, 6, 7] : List Int) ≠ [] ∧ InputTrace.fromPosition [5, 6, 7] 2 = some [7] ∧
      ((2 < ([5, 6, 7] : List Int).length →
          InputTrace.fromPosition [5, 6, 7] 2 = some (([5, 6, 7] : List Int).drop 2)) ∧
        (([5, 6, 7] : List Int).length ≤ 2 → 2 ≤ ([5, 6, 7] : List Int).length →
          InputTrace.fromPosition [5, 6, 7] 2
            = some (([5, 6, 7] : List Int).drop (([5, 6, 7] : List Int).length - 1))) ∧
        (([5, 6, 7] : List Int).length = 1 → InputTrace.fromPosition [5, 6, 7] 2 = some []) ∧
        InputTrace.fromPosition [5, 6, 7] 1 = some ([5, 6, 7] : List Int).tail) :=
  ⟨by decide, by decide, fromPosition_spec [5, 6, 7] 2 (by decide) (by decide)⟩

end FsmLib
